import Mathlib

/-!
# kcleaner: selection parsing, safety policy and deletion executor

A shallow embedding of `kcleaner.c`.  C strings are lists of characters (the
characters before the terminating NUL), `int` values are integers, the global
kernel table is a list of records, and every interaction with the outside
world (messages, prompts, reads of standard input, `system` calls) is an entry
of an explicit trace.
-/

namespace KCleaner

/-! ## Data model -/

/-- Capacity of the global kernel table (`#define MAX_KERNELS 100`). -/
def MAX_KERNELS : Nat := 100

/-- The record type `KernelInfo` of the source. -/
structure KernelInfo where
  version : String
  path : String
  running : Bool
deriving DecidableEq

/-- What the host answers to the calls the program makes: the effective user
id test of `check_root_privileges`, the exit status of the removal command of
`delete_kernel` for a version, the result of `which update-grub` and the exit
status of `update-grub`. -/
structure Env where
  is_root : Bool
  rm_status : String → Int
  has_update_grub : Bool
  update_grub_status : Int

/-- The two messages passed to `confirm_deletion`. -/
inductive Prompt where
  | proceed
  | running_kernel
deriving DecidableEq

/-- Observable actions of a run, in the order the program performs them.
Each constructor stands for one `printf`, one `fgets` on standard input or one
`system` call of the source. -/
inductive Event where
  | root_required
  | invalid_character (c : Char)
  | invalid_range (first second : List Char)
  | invalid_number (token : List Char)
  | none_selected
  | selected_header
  | selected_entry (number : Nat) (version : String) (running : Bool)
  | warn_running
  | warn_all
  | prompt (p : Prompt)
  | read (line : Option (List Char))
  | read_error
  | cancelled
  | invalid_index (index : Nat)
  | skipping (index : Nat) (version : String)
  | deleting (index : Nat) (version : String)
  | rm (index : Nat) (version : String)
  | rm_succeeded (version : String)
  | rm_failed (version : String) (status : Int)
  | deletion_completed
  | which_update_grub
  | grub_updating
  | run_update_grub
  | grub_updated
  | grub_failed (status : Int)
  | grub_missing
  | not_enough (count : Nat)
  | keeps_note
  | nothing_to_clean
  | auto_header
  | auto_entry (number : Nat) (version : Option String)
  | keeping_header
  | keeping_latest (version : Option String)
  | keeping_running (version : Option String)
  | auto_cancelled
  | auto_completed
deriving DecidableEq

/-! ## C library functions used by the program -/

/-- The characters `isspace` accepts in the C locale. -/
def isspace (c : Char) : Bool :=
  c == ' ' || c == '\t' || c == '\n' || c == '\x0b' || c == '\x0c' || c == '\r'

/-- Value of the longest prefix of decimal digits, accumulated left to right
from `acc`. -/
def digits_value : List Char → Nat → Nat
  | [], acc => acc
  | c :: cs, acc =>
    if c.isDigit then digits_value cs (acc * 10 + (c.toNat - 48)) else acc

def LONG_MAX : Int := 2 ^ 63 - 1

def LONG_MIN : Int := -(2 ^ 63)

/-- Splits an optional sign off the front of a string. -/
def strip_sign : List Char → Bool × List Char
  | '-' :: t => (true, t)
  | '+' :: t => (false, t)
  | s => (false, s)

/-- The function `strtol(s, NULL, 10)`: leading white space is skipped, an
optional sign is read, then the longest run of digits; a value outside the
range of `long` is clamped to `LONG_MAX` or `LONG_MIN`. -/
def strtol (s : List Char) : Int :=
  let body := strip_sign (s.dropWhile isspace)
  let v : Int := digits_value body.2 0
  if body.1 then max (-v) LONG_MIN else min v LONG_MAX

/-- Conversion of a `long` to a 32-bit `int`: reduction modulo `2 ^ 32` into
the range `[-2 ^ 31, 2 ^ 31)`. -/
def long_to_int (x : Int) : Int :=
  (x + 2 ^ 31) % 2 ^ 32 - 2 ^ 31

/-- The function `atoi(s)`, which is `(int) strtol(s, NULL, 10)`. -/
def atoi (s : List Char) : Int :=
  long_to_int (strtol s)

/-- One call of `strtok` with the delimiter set `","` on the text that is
left: leading commas are skipped; at the end of the text the result is `NULL`
(`none`); otherwise the token runs up to the next comma, which is overwritten
by NUL, and the scan resumes just behind it. -/
def strtok (s : List Char) : Option (List Char × List Char) :=
  match s.dropWhile (fun c => c == ',') with
  | [] => none
  | c :: cs =>
    some ((c :: cs).takeWhile (fun d => d != ','),
      ((c :: cs).dropWhile (fun d => d != ',')).drop 1)

/-- The comma-separated fields of a text, empty fields included. -/
def comma_fields : List Char → List (List Char)
  | [] => [[]]
  | c :: cs =>
    if c = ',' then [] :: comma_fields cs
    else
      match comma_fields cs with
      | [] => [[c]]
      | t :: ts => (c :: t) :: ts

/-- The tokens that the successive calls `strtok(sel_copy, ",")`,
`strtok(NULL, ",")`, ... return until `NULL`: the non-empty comma-separated
fields, in order (see `strtok_tokens_step`). -/
def strtok_tokens (s : List Char) : List (List Char) :=
  (comma_fields s).filter (fun t => !t.isEmpty)

/-- The call `strchr(token, '-')` followed by `*range_sep = 0`: when the
token has a hyphen, the text before the first hyphen and the text behind
it. -/
def split_hyphen : List Char → Option (List Char × List Char)
  | [] => none
  | c :: cs =>
    if c = '-' then some ([], cs)
    else
      match split_hyphen cs with
      | none => none
      | some (a, b) => some (c :: a, b)

/-- The body of `fgets` once a character is available: at most `n` characters
are taken, and reading stops behind a newline. -/
def fgets_take : Nat → List Char → List Char × List Char
  | 0, s => ([], s)
  | _ + 1, [] => ([], [])
  | n + 1, c :: cs =>
    if c = '\n' then ([c], cs)
    else ((fgets_take n cs).1.cons c, (fgets_take n cs).2)

/-- The call `fgets(buf, size, stdin)` on the remaining input: `NULL` at end
of input, otherwise at most `size - 1` characters up to and including the
first newline, and the input that is left. -/
def fgets (size : Nat) (stdin : List Char) : Option (List Char × List Char) :=
  match stdin with
  | [] => none
  | _ :: _ => some (fgets_take (size - 1) stdin)

/-! ## The program -/

/-- Source function `is_digit_or_separator`. -/
def is_digit_or_separator (c : Char) : Bool :=
  c.isDigit || c == ',' || c == '-'

/-- Source function `confirm_deletion`: prints the prompt, reads into a buffer
of 10 bytes, and answers whether the first character read is `y` or `Y`.  The
result is the answer, the trace and the input that is left. -/
def confirm_deletion (p : Prompt) (stdin : List Char) :
    Bool × List Event × List Char :=
  match fgets 10 stdin with
  | none => (false, [Event.prompt p, Event.read none, Event.read_error], stdin)
  | some (response, rest) =>
    (response.head? == some 'y' || response.head? == some 'Y',
      [Event.prompt p, Event.read (some response)], rest)

/-- Source function `update_grub`. -/
def update_grub (env : Env) : List Event :=
  if env.has_update_grub then
    [Event.which_update_grub, Event.grub_updating, Event.run_update_grub,
      if env.update_grub_status = 0 then Event.grub_updated
      else Event.grub_failed env.update_grub_status]
  else [Event.which_update_grub, Event.grub_missing]

/-- The part of `delete_kernel` behind the running-kernel test: the
announcement, the removal command and the report of its exit status. -/
def remove_kernel (env : Env) (index : Nat) (k : KernelInfo) : List Event :=
  [Event.deleting (index + 1) k.version, Event.rm index k.version,
    if env.rm_status k.version = 0 then Event.rm_succeeded k.version
    else Event.rm_failed k.version (env.rm_status k.version)]

/-- Source function `delete_kernel`, for the non-negative indices its callers
pass. -/
def delete_kernel (env : Env) (kernels : List KernelInfo) (index : Nat)
    (stdin : List Char) : List Event × List Char :=
  match kernels[index]? with
  | none => ([Event.invalid_index index], stdin)
  | some k =>
    if k.running then
      match confirm_deletion Prompt.running_kernel stdin with
      | (false, ev, rest) => (ev ++ [Event.skipping (index + 1) k.version], rest)
      | (true, ev, rest) => (ev ++ remove_kernel env index k, rest)
    else (remove_kernel env index k, stdin)

/-- The loop `for (i = 0; i < kernel_count; i++) if (to_delete[i])
delete_kernel(i);` over the indices still to visit. -/
def delete_loop (env : Env) (kernels : List KernelInfo) (to_delete : List Bool) :
    List Nat → List Char → List Event × List Char
  | [], stdin => ([], stdin)
  | i :: rest, stdin =>
    if to_delete.getD i false then
      ((delete_kernel env kernels i stdin).1 ++
          (delete_loop env kernels to_delete rest (delete_kernel env kernels i stdin).2).1,
        (delete_loop env kernels to_delete rest (delete_kernel env kernels i stdin).2).2)
    else delete_loop env kernels to_delete rest stdin

/-- The local variables of `delete_kernels` that the parsing loop updates. -/
structure ParseState where
  to_delete : List Bool
  delete_count : Int
  deleting_running : Bool
  remaining_count : Int
deriving DecidableEq

/-- The two validation failures of the parsing loop. -/
inductive ParseError where
  | invalid_range (first second : List Char)
  | invalid_number (token : List Char)
deriving DecidableEq

/-- The message printed for a validation failure. -/
def ParseError.event : ParseError → Event
  | ParseError.invalid_range a b => Event.invalid_range a b
  | ParseError.invalid_number t => Event.invalid_number t

/-- The initial values of the locals of `delete_kernels`. -/
def initial_state (kernels : List KernelInfo) : ParseState :=
  { to_delete := List.replicate MAX_KERNELS false
    delete_count := 0
    deleting_running := false
    remaining_count := kernels.length }

/-- The statement `if (!to_delete[i]) { ... }` of the parsing loop for the
zero-based index `i` (the source writes `i-1` or `num-1`). -/
def mark (kernels : List KernelInfo) (st : ParseState) (i : Nat) : ParseState :=
  if st.to_delete.getD i false then st
  else
    { to_delete := st.to_delete.set i true
      delete_count := st.delete_count + 1
      deleting_running :=
        match kernels[i]? with
        | some k => if k.running then true else st.deleting_running
        | none => st.deleting_running
      remaining_count := st.remaining_count - 1 }

/-- The body of the `while (token != NULL)` loop for one token. -/
def process_token (kernels : List KernelInfo) (st : ParseState) (token : List Char) :
    Except ParseError ParseState :=
  match split_hyphen token with
  | some (first, second) =>
    if atoi first < 1 ∨ atoi second > kernels.length ∨ atoi first > atoi second then
      Except.error (ParseError.invalid_range first second)
    else
      Except.ok
        ((List.range' (atoi first).toNat ((atoi second).toNat + 1 - (atoi first).toNat)).foldl
          (fun s i => mark kernels s (i - 1)) st)
  | none =>
    if atoi token < 1 ∨ atoi token > kernels.length then
      Except.error (ParseError.invalid_number token)
    else Except.ok (mark kernels st ((atoi token).toNat - 1))

/-- The `while (token != NULL)` loop over the tokens that `strtok` yields. -/
def parse_tokens (kernels : List KernelInfo) :
    List (List Char) → ParseState → Except ParseError ParseState
  | [], st => Except.ok st
  | token :: rest, st =>
    match process_token kernels st token with
    | Except.error e => Except.error e
    | Except.ok st1 => parse_tokens kernels rest st1

/-- The parsing loop of `delete_kernels` (declarations of the locals through
the end of the `while` loop). -/
def parse_selection (kernels : List KernelInfo) (selection : List Char) :
    Except ParseError ParseState :=
  parse_tokens kernels (strtok_tokens selection) (initial_state kernels)

/-- The character loop at the head of `delete_kernels`: the first character
that `is_digit_or_separator` rejects. -/
def first_invalid : List Char → Option Char
  | [] => none
  | c :: cs => if is_digit_or_separator c then first_invalid cs else some c

/-- The listing `for (i = 0; i < kernel_count; i++) if (to_delete[i])
printf(...)` of the kernels about to be deleted. -/
def selected_listing (kernels : List KernelInfo) (to_delete : List Bool) :
    List Nat → List Event
  | [] => []
  | i :: rest =>
    if to_delete.getD i false then
      (match kernels[i]? with
        | some k => Event.selected_entry (i + 1) k.version k.running
        | none => Event.invalid_index i) :: selected_listing kernels to_delete rest
    else selected_listing kernels to_delete rest

/-- The messages `delete_kernels` prints between the parse and the batch
prompt: the listing of the selected kernels, the running-kernel warning when
`deleting_running` is set and the critical warning when `remaining_count` is
zero. -/
def announcement (kernels : List KernelInfo) (st : ParseState) : List Event :=
  Event.selected_header ::
    selected_listing kernels st.to_delete (List.range kernels.length) ++
  (if st.deleting_running then [Event.warn_running] else []) ++
  (if st.remaining_count = 0 then [Event.warn_all] else [])

/-- The part of `delete_kernels` behind a successful parse. -/
def execute_selection (env : Env) (kernels : List KernelInfo) (st : ParseState)
    (stdin : List Char) : List Event × List Char :=
  if st.delete_count = 0 then ([Event.none_selected], stdin)
  else
    match confirm_deletion Prompt.proceed stdin with
    | (false, ev, rest) => (announcement kernels st ++ ev ++ [Event.cancelled], rest)
    | (true, ev, rest) =>
      let run := delete_loop env kernels st.to_delete (List.range kernels.length) rest
      (announcement kernels st ++ ev ++ run.1 ++ [Event.deletion_completed] ++
          (if st.delete_count > 0 then update_grub env else []),
        run.2)

/-- Source function `delete_kernels`, with the copy made by `strdup` assumed
to succeed.  The result is the trace of the run and the input left unread. -/
def delete_kernels (env : Env) (kernels : List KernelInfo) (selection : List Char)
    (stdin : List Char) : List Event × List Char :=
  if !env.is_root then ([Event.root_required], stdin)
  else
    match first_invalid selection with
    | some c => ([Event.invalid_character c], stdin)
    | none =>
      match parse_selection kernels selection with
      | Except.error e => ([e.event], stdin)
      | Except.ok st => execute_selection env kernels st stdin

/-- The element `kernels[i]` for an `int` index: `none` when `i` is outside
`[0, kernel_count)`. -/
def kernel_at (kernels : List KernelInfo) (i : Int) : Option KernelInfo :=
  if 0 ≤ i then kernels[i.toNat]? else none

/-- The first loop of `auto_clean` from index `i` on: the index of the first
record marked running, and `-1` (the initial value of `running_index`) when
there is none. -/
def find_running : List KernelInfo → Nat → Int
  | [], _ => -1
  | k :: ks, i => if k.running then (i : Int) else find_running ks (i + 1)

/-- The locals of `auto_clean` behind its two loops. -/
structure AutoState where
  to_delete : List Bool
  delete_count : Int
  latest_index : Int
  running_index : Int
deriving DecidableEq

/-- The body of the second loop of `auto_clean` for index `i`. -/
def auto_mark (running_index : Int) (st : List Bool × Int) (i : Nat) :
    List Bool × Int :=
  if i ≠ 0 ∧ (i : Int) ≠ running_index then (st.1.set i true, st.2 + 1) else st

/-- The two loops of `auto_clean`: the search for the running record and the
marking of every index other than `0` and `running_index`. -/
def auto_select (kernels : List KernelInfo) : AutoState :=
  let marked :=
    (List.range kernels.length).foldl (auto_mark (find_running kernels 0))
      (List.replicate MAX_KERNELS false, 0)
  { to_delete := marked.1
    delete_count := marked.2
    latest_index := 0
    running_index := find_running kernels 0 }

/-- The listing of the kernels that `auto_clean` is about to delete. -/
def auto_listing (kernels : List KernelInfo) (to_delete : List Bool) :
    List Nat → List Event
  | [] => []
  | i :: rest =>
    if to_delete.getD i false then
      Event.auto_entry (i + 1) ((kernels[i]?).map KernelInfo.version) ::
        auto_listing kernels to_delete rest
    else auto_listing kernels to_delete rest

/-- The messages `auto_clean` prints between its loops and the batch prompt:
the listing of the kernels to delete and the "Keeping" report.  A record read
outside the table shows as `none`. -/
def auto_announcement (kernels : List KernelInfo) (sel : AutoState) : List Event :=
  Event.auto_header ::
    auto_listing kernels sel.to_delete (List.range kernels.length) ++
  [Event.keeping_header,
    Event.keeping_latest ((kernel_at kernels 0).map KernelInfo.version)] ++
  (if sel.running_index ≠ 0 then
    [Event.keeping_running
      ((kernel_at kernels sel.running_index).map KernelInfo.version)]
  else [])

/-- Source function `auto_clean`.  The result is the trace of the run and the
input left unread. -/
def auto_clean (env : Env) (kernels : List KernelInfo) (stdin : List Char) :
    List Event × List Char :=
  if !env.is_root then ([Event.root_required], stdin)
  else if kernels.length ≤ 2 then
    ([Event.not_enough kernels.length, Event.keeps_note], stdin)
  else if (auto_select kernels).delete_count = 0 then ([Event.nothing_to_clean], stdin)
  else
    match confirm_deletion Prompt.proceed stdin with
    | (false, ev, rest) =>
      (auto_announcement kernels (auto_select kernels) ++ ev ++ [Event.auto_cancelled], rest)
    | (true, ev, rest) =>
      let run :=
        delete_loop env kernels (auto_select kernels).to_delete
          (List.range kernels.length) rest
      (auto_announcement kernels (auto_select kernels) ++ ev ++ run.1 ++
          [Event.auto_completed] ++ update_grub env,
        run.2)

/-! ## Observations on traces -/

/-- The event is an invocation of the removal command. -/
def Event.is_rm : Event → Bool
  | Event.rm _ _ => true
  | _ => false

/-- The event is a confirmation prompt. -/
def Event.is_prompt : Event → Bool
  | Event.prompt _ => true
  | _ => false

/-- The event is the first action of `update_grub` (the probe
`which update-grub`): there is one per call of `update_grub`. -/
def Event.is_update_grub : Event → Bool
  | Event.which_update_grub => true
  | _ => false

/-- The event is one of the three parse failure reports. -/
def Event.is_parse_failure : Event → Bool
  | Event.invalid_character _ => true
  | Event.invalid_range _ _ => true
  | Event.invalid_number _ => true
  | _ => false

/-- The event belongs to the deletion phase: it is printed or performed by
`delete_kernel`. -/
def Event.is_deletion_step : Event → Bool
  | Event.prompt Prompt.running_kernel => true
  | Event.read _ => true
  | Event.read_error => true
  | Event.invalid_index _ => true
  | Event.skipping _ _ => true
  | Event.deleting _ _ => true
  | Event.rm _ _ => true
  | Event.rm_succeeded _ => true
  | Event.rm_failed _ _ => true
  | _ => false

/-- The two destructive actions of the program. -/
inductive Action where
  | remove (index : Nat)
  | refresh
deriving DecidableEq

/-- The destructive actions of a trace, in trace order: the invocations of the
removal command, with the index of the record, and the calls of
`update_grub`. -/
def actions : List Event → List Action
  | [] => []
  | Event.rm i _ :: rest => Action.remove i :: actions rest
  | Event.which_update_grub :: rest => Action.refresh :: actions rest
  | _ :: rest => actions rest

/-- The record at index `i` is marked running. -/
def running_at (kernels : List KernelInfo) (i : Nat) : Bool :=
  match kernels[i]? with
  | some k => k.running
  | none => false

/-- The input left unread when the deletion loop over `to_delete`, started on
`stdin`, reaches index `i`. -/
def input_at (env : Env) (kernels : List KernelInfo) (to_delete : List Bool) (i : Nat)
    (stdin : List Char) : List Char :=
  (delete_loop env kernels to_delete (List.range i) stdin).2

/-- The first character of the input is `y` or `Y`: what `confirm_deletion`
tests. -/
def affirmative (stdin : List Char) : Bool :=
  stdin.head? == some 'y' || stdin.head? == some 'Y'

/-! ## Sample data -/

/-- A host on which the program runs as root and every command succeeds. -/
def root_env : Env :=
  { is_root := true, rm_status := fun _ => 0, has_update_grub := true, update_grub_status := 0 }

/-- A record for version `v` at its path under `/boot`. -/
def kernel (v : String) (r : Bool) : KernelInfo :=
  { version := v, path := "/boot/vmlinuz-" ++ v, running := r }

/-- Five kernels in descending order, the third one running. -/
def five_kernels : List KernelInfo :=
  [kernel "6.5.0" false, kernel "6.4.0" false, kernel "6.3.0" true, kernel "6.2.0" false,
    kernel "6.1.0" false]

/-- What the parsing loop maintains: the flag array keeps its size, the two
counters add up to `kernel_count`, `delete_count` is the number of flags set,
every flag set is the flag of a record, and `deleting_running` tells whether a
flagged record is running. -/
structure ParseInv (kernels : List KernelInfo) (st : ParseState) : Prop where
  length_eq : st.to_delete.length = MAX_KERNELS
  sum_eq : st.remaining_count + st.delete_count = kernels.length
  count_eq : st.delete_count = st.to_delete.count true
  in_range : ∀ j, st.to_delete.getD j false = true → j < kernels.length
  running_iff : st.deleting_running = true ↔
    ∃ j k, st.to_delete.getD j false = true ∧ kernels[j]? = some k ∧ k.running = true

/-- The zero-based indices a token marks when it passes validation. -/
def token_indices (token : List Char) : List Nat :=
  match split_hyphen token with
  | some (first, second) =>
    (List.range' (atoi first).toNat ((atoi second).toNat + 1 - (atoi first).toNat)).map
      (fun i => i - 1)
  | none => [(atoi token).toNat - 1]

/-! ## The selection grammar of the specification -/

/-- A decimal numeral: a non-empty string of decimal digits. -/
def is_numeral (s : List Char) : Prop :=
  s ≠ [] ∧ ∀ c ∈ s, c.isDigit = true

/-- The decimal value of a numeral. -/
def numeral_value (s : List Char) : Nat :=
  s.foldl (fun v c => 10 * v + (c.toNat - 48)) 0

/-- A token of the grammar `token := INT | INT '-' INT`, given by the text of
its numerals. -/
inductive Token where
  | index (n : List Char)
  | range (first last : List Char)

/-- The text of a token. -/
def Token.text : Token → List Char
  | Token.index n => n
  | Token.range a b => a ++ '-' :: b

/-- The parts of the token are numerals with a value below `2 ^ 31`. -/
def Token.well_formed : Token → Prop
  | Token.index n => is_numeral n ∧ numeral_value n < 2 ^ 31
  | Token.range a b =>
    is_numeral a ∧ numeral_value a < 2 ^ 31 ∧ is_numeral b ∧ numeral_value b < 2 ^ 31

/-- The validation rules of the specification for a collection of `N`
kernels: `1 <= idx <= N` for a bare index and `1 <= start <= end <= N` for a
range. -/
def Token.valid (N : Nat) : Token → Prop
  | Token.index n => 1 ≤ numeral_value n ∧ numeral_value n ≤ N
  | Token.range a b =>
    1 ≤ numeral_value a ∧ numeral_value a ≤ numeral_value b ∧ numeral_value b ≤ N

/-- The one-based kernel number `j` is named by the token. -/
def Token.names : Token → Nat → Prop
  | Token.index n, j => j = numeral_value n
  | Token.range a b, j => numeral_value a ≤ j ∧ j ≤ numeral_value b

/-- The text of an expression `expr := token (',' token)*` with the given
tokens. -/
def expression : List Token → List Char
  | [] => []
  | [t] => t.text
  | t :: t2 :: rest => t.text ++ ',' :: expression (t2 :: rest)

/-! ## Tokens that break the validation rules -/

/-- The token breaks the validation rules of the specification for `N`
kernels: a bare index outside `[1, N]`, or a range that violates
`1 <= start <= end <= N`. -/
def Token.invalid (N : Nat) : Token → Prop
  | Token.index n => numeral_value n < 1 ∨ N < numeral_value n
  | Token.range a b =>
    numeral_value a < 1 ∨ N < numeral_value b ∨ numeral_value b < numeral_value a

/-- Three kernels in descending order, none of them running. -/
def three_idle : List KernelInfo :=
  [kernel "6.3.0" false, kernel "6.2.0" false, kernel "6.1.0" false]

/-- The token is derivable from `token := INT | INT '-' INT`: its parts are
numerals, of any value. -/
def Token.conforms : Token → Prop
  | Token.index n => is_numeral n
  | Token.range a b => is_numeral a ∧ is_numeral b

/-! ## Discovery of the kernels -/

/-- Size of the line buffer of `get_running_kernel`
(`#define BUFFER_SIZE 1024`). -/
def BUFFER_SIZE : Nat := 1024

/-- The function `strcmp`, up to the magnitude of a non-zero result: strings
are compared character by character, and a string that ends first is the
smaller one. -/
def strcmp : List Char → List Char → Int
  | [], [] => 0
  | [], _ :: _ => -1
  | _ :: _, [] => 1
  | a :: as, b :: bs =>
    if a = b then strcmp as bs else (a.toNat : Int) - (b.toNat : Int)

/-- The function `strncmp`: as `strcmp`, on at most `n` characters. -/
def strncmp : Nat → List Char → List Char → Int
  | 0, _, _ => 0
  | _ + 1, [], [] => 0
  | _ + 1, [], _ :: _ => -1
  | _ + 1, _ :: _, [] => 1
  | n + 1, a :: as, b :: bs =>
    if a = b then strncmp n as bs else (a.toNat : Int) - (b.toNat : Int)

/-- The text `needle` stands at the start of `text`. -/
def starts_with : List Char → List Char → Bool
  | [], _ => true
  | _ :: _, [] => false
  | a :: as, b :: bs => a == b && starts_with as bs

/-- The function `strstr`: the part of `text` from the first occurrence of
`needle` on, if there is one. -/
def strstr (needle : List Char) : List Char → Option (List Char)
  | [] => if starts_with needle [] then some [] else none
  | c :: cs => if starts_with needle (c :: cs) then some (c :: cs) else strstr needle cs

/-- The function `strchr`: the part of `text` from the first occurrence of
the character `c` on, if there is one. -/
def strchr (c : Char) : List Char → Option (List Char)
  | [] => none
  | d :: ds => if d = c then some (d :: ds) else strchr c ds

/-- Source function `get_running_kernel`, on the content of `/proc/version`
(`none` when the file cannot be opened): the value of `running_kernel`
afterwards, which stays empty unless a version is found.  The version is
taken to fit the 256 bytes of `running_kernel`. -/
def get_running_kernel (proc_version : Option (List Char)) : List Char :=
  match proc_version with
  | none => []
  | some content =>
    match fgets BUFFER_SIZE content with
    | none => []
    | some (buffer, _) =>
      match strstr "Linux version ".toList buffer with
      | none => []
      | some found =>
        match strchr ' ' (found.drop 14) with
        | none => []
        | some version_end =>
          (found.drop 14).take ((found.drop 14).length - version_end.length)

/-- The record that `find_kernels` builds for a directory entry whose name
starts with `vmlinuz-`. -/
def kernel_record (running_kernel name : List Char) : KernelInfo :=
  { version := String.mk (name.drop 8)
    path := String.mk ("/boot/".toList ++ name)
    running := strcmp (name.drop 8) running_kernel == 0 }

/-- The `readdir` loop of `find_kernels` over the directory entries still to
read, with the table built so far. -/
def read_entries (running_kernel : List Char) :
    List (List Char) → List KernelInfo → List KernelInfo
  | [], kernels => kernels
  | name :: rest, kernels =>
    if kernels.length < MAX_KERNELS then
      if strncmp 8 name "vmlinuz-".toList = 0 then
        read_entries running_kernel rest (kernels ++ [kernel_record running_kernel name])
      else read_entries running_kernel rest kernels
    else kernels

/-- Source function `compare_kernel_versions`. -/
def compare_kernel_versions (a b : KernelInfo) : Int :=
  strcmp b.version.toList a.version.toList

/-- The call `qsort(kernels, kernel_count, sizeof(KernelInfo), cmp)`, as an
insertion sort: an element goes before the elements it does not compare
greater than.  When no two records compare equal, every sorting procedure
yields the same table (see `sorted_table_unique`). -/
def qsort (cmp : KernelInfo → KernelInfo → Int) (table : List KernelInfo) :
    List KernelInfo :=
  table.insertionSort (fun a b => cmp a b ≤ 0)

/-- Source function `find_kernels`, on the listing of `/boot` (`none` when the
directory cannot be opened) and the value of `running_kernel`: the kernel
table afterwards. -/
def find_kernels (boot : Option (List (List Char))) (running_kernel : List Char) :
    List KernelInfo :=
  match boot with
  | none => []
  | some entries =>
    qsort compare_kernel_versions (read_entries running_kernel entries [])

/-- The record of the specification for an entry name: the version is the name
without its 8-character prefix, the path is `/boot/` followed by the name, and
the record is running when the version equals the running version. -/
def reference_record (running_version name : List Char) : KernelInfo :=
  { version := String.mk (name.drop 8)
    path := String.mk ("/boot/".toList ++ name)
    running := decide (name.drop 8 = running_version) }

/-- The records of the specification for a directory listing, before sorting:
those of the first 100 entries, in listing order, whose name starts with
`vmlinuz-`. -/
def reference_records (entries : List (List Char)) (running_version : List Char) :
    List KernelInfo :=
  ((entries.filter (fun name => decide (name.take 8 = "vmlinuz-".toList))).take 100).map
    (reference_record running_version)

/-- The versions of a table, as texts. -/
def versions (table : List KernelInfo) : List String :=
  table.map KernelInfo.version

/-! ## Basic facts about the confirmation prompt -/

theorem fgets_take_head (n : Nat) (c : Char) (cs : List Char) :
    (fgets_take (n + 1) (c :: cs)).1.head? = some c := by
  simp only [fgets_take]
  split <;> simp

theorem confirm_deletion_answer (p : Prompt) (stdin : List Char) :
    (confirm_deletion p stdin).1 = affirmative stdin := by
  cases stdin with
  | nil => simp [confirm_deletion, fgets, affirmative]
  | cons c cs =>
    simp only [confirm_deletion, fgets, affirmative]
    rw [fgets_take_head]
    simp

theorem confirm_deletion_events (p : Prompt) (stdin : List Char) (e : Event)
    (he : e ∈ (confirm_deletion p stdin).2.1) :
    e = Event.prompt p ∨ (∃ l, e = Event.read l) ∨ e = Event.read_error := by
  cases stdin with
  | nil =>
    simp [confirm_deletion, fgets] at he
    rcases he with h | h | h <;> simp [h]
  | cons c cs =>
    simp [confirm_deletion, fgets] at he
    rcases he with h | h <;> simp [h]

theorem remove_kernel_steps (env : Env) (i : Nat) (k : KernelInfo) (e : Event)
    (he : e ∈ remove_kernel env i k) : e.is_deletion_step = true := by
  simp only [remove_kernel, List.mem_cons, List.mem_singleton, List.not_mem_nil, or_false] at he
  rcases he with h | h | h
  · rw [h]; rfl
  · rw [h]; rfl
  · rw [h]; split <;> rfl

theorem delete_kernel_steps (env : Env) (kernels : List KernelInfo) (i : Nat)
    (stdin : List Char) (e : Event) (he : e ∈ (delete_kernel env kernels i stdin).1) :
    e.is_deletion_step = true := by
  unfold delete_kernel at he
  split at he
  · simp at he; rw [he]; rfl
  · rename_i k hk
    split at he
    · split at he
      all_goals
        rename_i ev rest hc
        have hev : ev = (confirm_deletion Prompt.running_kernel stdin).2.1 := by rw [hc]
        simp only [List.mem_append, List.mem_singleton] at he
        rcases he with h | h
        · rw [hev] at h
          rcases confirm_deletion_events _ _ _ h with h1 | ⟨l, h1⟩ | h1 <;> rw [h1] <;> rfl
        · first
            | (rw [h]; rfl)
            | exact remove_kernel_steps _ _ _ _ h
    · exact remove_kernel_steps _ _ _ _ he

theorem delete_loop_steps (env : Env) (kernels : List KernelInfo) (td : List Bool)
    (is : List Nat) : ∀ (stdin : List Char) (e : Event),
    e ∈ (delete_loop env kernels td is stdin).1 → e.is_deletion_step = true := by
  induction is with
  | nil => intro stdin e he; simp [delete_loop] at he
  | cons i rest ih =>
    intro stdin e he
    simp only [delete_loop] at he
    split at he
    · simp only [List.mem_append] at he
      rcases he with h | h
      · exact delete_kernel_steps _ _ _ _ _ h
      · exact ih _ _ h
    · exact ih _ _ he

theorem execute_selection_declined (env : Env) (kernels : List KernelInfo)
    (st : ParseState) (stdin : List Char) (hc : st.delete_count ≠ 0)
    (ha : affirmative stdin = false) :
    execute_selection env kernels st stdin =
      (announcement kernels st ++ (confirm_deletion Prompt.proceed stdin).2.1 ++
        [Event.cancelled], (confirm_deletion Prompt.proceed stdin).2.2) := by
  have h := confirm_deletion_answer Prompt.proceed stdin
  rw [ha] at h
  unfold execute_selection
  rw [if_neg hc]
  rcases hcd : confirm_deletion Prompt.proceed stdin with ⟨b, ev, rest⟩
  rw [hcd] at h
  simp only at h
  subst h
  simp [announcement]

theorem execute_selection_confirmed (env : Env) (kernels : List KernelInfo)
    (st : ParseState) (stdin : List Char) (hc : st.delete_count ≠ 0)
    (ha : affirmative stdin = true) :
    execute_selection env kernels st stdin =
      (announcement kernels st ++ (confirm_deletion Prompt.proceed stdin).2.1 ++
        (delete_loop env kernels st.to_delete (List.range kernels.length)
          (confirm_deletion Prompt.proceed stdin).2.2).1 ++
        [Event.deletion_completed] ++
        (if st.delete_count > 0 then update_grub env else []),
       (delete_loop env kernels st.to_delete (List.range kernels.length)
          (confirm_deletion Prompt.proceed stdin).2.2).2) := by
  have h := confirm_deletion_answer Prompt.proceed stdin
  rw [ha] at h
  unfold execute_selection
  rw [if_neg hc]
  rcases hcd : confirm_deletion Prompt.proceed stdin with ⟨b, ev, rest⟩
  rw [hcd] at h
  simp only at h
  subst h
  simp [announcement]

theorem selected_listing_events (kernels : List KernelInfo) (td : List Bool) (is : List Nat)
    (e : Event) (he : e ∈ selected_listing kernels td is) :
    (∃ n v r, e = Event.selected_entry n v r) ∨ ∃ i, e = Event.invalid_index i := by
  induction is with
  | nil => simp [selected_listing] at he
  | cons i rest ih =>
    simp only [selected_listing] at he
    split at he
    · simp only [List.mem_cons] at he
      rcases he with h | h
      · split at h
        · exact Or.inl ⟨_, _, _, h⟩
        · exact Or.inr ⟨_, h⟩
      · exact ih h
    · exact ih he

theorem announcement_events (kernels : List KernelInfo) (st : ParseState) (e : Event)
    (he : e ∈ announcement kernels st) :
    e = Event.selected_header ∨ (∃ n v r, e = Event.selected_entry n v r) ∨
      (∃ i, e = Event.invalid_index i) ∨ e = Event.warn_running ∨ e = Event.warn_all := by
  simp only [announcement, List.cons_append, List.mem_cons, List.mem_append] at he
  rcases he with h | (h | h) | h
  · exact Or.inl h
  · rcases selected_listing_events _ _ _ _ h with h1 | h1
    · exact Or.inr (Or.inl h1)
    · exact Or.inr (Or.inr (Or.inl h1))
  · split at h
    · simp at h; simp [h]
    · simp at h
  · split at h
    · simp at h; simp [h]
    · simp at h

theorem update_grub_events (env : Env) (e : Event) (he : e ∈ update_grub env) :
    e.is_parse_failure = false ∧ e.is_rm = false ∧ e.is_prompt = false := by
  unfold update_grub at he
  split at he
  · simp only [List.mem_cons, List.mem_singleton, List.not_mem_nil, or_false] at he
    rcases he with h | h | h | h
    · rw [h]; exact ⟨rfl, rfl, rfl⟩
    · rw [h]; exact ⟨rfl, rfl, rfl⟩
    · rw [h]; exact ⟨rfl, rfl, rfl⟩
    · rw [h]; split <;> exact ⟨rfl, rfl, rfl⟩
  · simp only [List.mem_cons, List.mem_singleton, List.not_mem_nil, or_false] at he
    rcases he with h | h <;> rw [h] <;> exact ⟨rfl, rfl, rfl⟩

theorem deletion_step_not_failure (e : Event) (h : e.is_deletion_step = true) :
    e.is_parse_failure = false ∧ e.is_update_grub = false := by
  cases e <;> first | exact ⟨rfl, rfl⟩ | (simp [Event.is_deletion_step] at h)

/-- A run of `execute_selection` reports no parse failure. -/
theorem execute_selection_no_failure (env : Env) (kernels : List KernelInfo)
    (st : ParseState) (stdin : List Char) (e : Event)
    (he : e ∈ (execute_selection env kernels st stdin).1) : e.is_parse_failure = false := by
  by_cases hc : st.delete_count = 0
  · simp [execute_selection, hc] at he
    rw [he]; rfl
  · have hann : ∀ e ∈ announcement kernels st, e.is_parse_failure = false := by
      intro e h
      rcases announcement_events _ _ _ h with h | ⟨_, _, _, h⟩ | ⟨_, h⟩ | h | h <;> rw [h] <;> rfl
    have hcon : ∀ e ∈ (confirm_deletion Prompt.proceed stdin).2.1,
        e.is_parse_failure = false := by
      intro e h
      rcases confirm_deletion_events _ _ _ h with h | ⟨_, h⟩ | h <;> rw [h] <;> rfl
    cases ha : affirmative stdin with
    | false =>
      rw [execute_selection_declined env kernels st stdin hc ha] at he
      simp only [List.mem_append, List.mem_singleton] at he
      rcases he with (h | h) | h
      · exact hann _ h
      · exact hcon _ h
      · rw [h]; rfl
    | true =>
      rw [execute_selection_confirmed env kernels st stdin hc ha] at he
      simp only [List.mem_append, List.mem_singleton] at he
      rcases he with (((h | h) | h) | h) | h
      · exact hann _ h
      · exact hcon _ h
      · exact (deletion_step_not_failure _ (delete_loop_steps _ _ _ _ _ _ h)).1
      · rw [h]; rfl
      · split at h
        · exact (update_grub_events _ _ h).1
        · simp at h

/-- When the batch prompt is not answered affirmatively, `execute_selection`
removes nothing and does not call `update_grub`. -/
theorem execute_selection_declined_safe (env : Env) (kernels : List KernelInfo)
    (st : ParseState) (stdin : List Char) (ha : affirmative stdin = false) (e : Event)
    (he : e ∈ (execute_selection env kernels st stdin).1) :
    e.is_rm = false ∧ e.is_update_grub = false := by
  by_cases hc : st.delete_count = 0
  · simp [execute_selection, hc] at he
    rw [he]; exact ⟨rfl, rfl⟩
  · rw [execute_selection_declined env kernels st stdin hc ha] at he
    simp only [List.mem_append, List.mem_singleton] at he
    rcases he with (h | h) | h
    · rcases announcement_events _ _ _ h with h | ⟨_, _, _, h⟩ | ⟨_, h⟩ | h | h <;> rw [h] <;>
        exact ⟨rfl, rfl⟩
    · rcases confirm_deletion_events _ _ _ h with h | ⟨_, h⟩ | h <;> rw [h] <;> exact ⟨rfl, rfl⟩
    · rw [h]; exact ⟨rfl, rfl⟩

theorem auto_listing_events (kernels : List KernelInfo) (td : List Bool) (is : List Nat)
    (e : Event) (he : e ∈ auto_listing kernels td is) : ∃ n v, e = Event.auto_entry n v := by
  induction is with
  | nil => simp [auto_listing] at he
  | cons i rest ih =>
    simp only [auto_listing] at he
    split at he
    · simp only [List.mem_cons] at he
      rcases he with h | h
      · exact ⟨_, _, h⟩
      · exact ih h
    · exact ih he

theorem auto_announcement_events (kernels : List KernelInfo) (sel : AutoState) (e : Event)
    (he : e ∈ auto_announcement kernels sel) :
    e = Event.auto_header ∨ (∃ n v, e = Event.auto_entry n v) ∨ e = Event.keeping_header ∨
      (∃ v, e = Event.keeping_latest v) ∨ ∃ v, e = Event.keeping_running v := by
  simp only [auto_announcement, List.cons_append, List.mem_cons, List.mem_append,
    List.mem_singleton, List.not_mem_nil, or_false] at he
  rcases he with h | (h | h | h) | h
  · exact Or.inl h
  · exact Or.inr (Or.inl (auto_listing_events _ _ _ _ h))
  · exact Or.inr (Or.inr (Or.inl h))
  · exact Or.inr (Or.inr (Or.inr (Or.inl ⟨_, h⟩)))
  · split at h
    · simp at h; exact Or.inr (Or.inr (Or.inr (Or.inr ⟨_, h⟩)))
    · simp at h

/-- When the batch prompt is not answered affirmatively, `auto_clean` removes
nothing and does not call `update_grub`. -/
theorem auto_clean_declined_safe (env : Env) (kernels : List KernelInfo)
    (stdin : List Char) (ha : affirmative stdin = false) (e : Event)
    (he : e ∈ (auto_clean env kernels stdin).1) :
    e.is_rm = false ∧ e.is_update_grub = false := by
  have h := confirm_deletion_answer Prompt.proceed stdin
  rw [ha] at h
  unfold auto_clean at he
  split at he
  · simp at he; rw [he]; exact ⟨rfl, rfl⟩
  split at he
  · simp at he; rcases he with h1 | h1 <;> rw [h1] <;> exact ⟨rfl, rfl⟩
  split at he
  · simp at he; rw [he]; exact ⟨rfl, rfl⟩
  split at he
  · rename_i ev rest hcd
    have hev : ev = (confirm_deletion Prompt.proceed stdin).2.1 := by rw [hcd]
    simp only [List.mem_append, List.mem_singleton] at he
    rcases he with (h1 | h1) | h1
    · rcases auto_announcement_events _ _ _ h1 with h2 | ⟨_, _, h2⟩ | h2 | ⟨_, h2⟩ | ⟨_, h2⟩ <;>
        rw [h2] <;> exact ⟨rfl, rfl⟩
    · rw [hev] at h1
      rcases confirm_deletion_events _ _ _ h1 with h2 | ⟨_, h2⟩ | h2 <;> rw [h2] <;>
        exact ⟨rfl, rfl⟩
    · rw [h1]; exact ⟨rfl, rfl⟩
  · rename_i ev rest hcd
    rw [hcd] at h
    simp at h

/-! ## Character validation and parse failures -/

theorem first_invalid_split (pre : List Char) (c : Char) (post : List Char)
    (hpre : ∀ d ∈ pre, is_digit_or_separator d = true)
    (hc : is_digit_or_separator c = false) :
    first_invalid (pre ++ c :: post) = some c := by
  induction pre with
  | nil => simp [first_invalid, hc]
  | cons d ds ih =>
    have hd : is_digit_or_separator d = true := hpre d (List.mem_cons_self _ _)
    simp only [List.cons_append, first_invalid, hd, if_true]
    exact ih (fun x hx => hpre x (List.mem_cons_of_mem _ hx))

theorem first_invalid_none (sel : List Char)
    (h : ∀ d ∈ sel, is_digit_or_separator d = true) : first_invalid sel = none := by
  induction sel with
  | nil => rfl
  | cons d ds ih =>
    have hd : is_digit_or_separator d = true := h d (List.mem_cons_self _ _)
    simp only [first_invalid, hd, if_true]
    exact ih (fun x hx => h x (List.mem_cons_of_mem _ hx))

theorem is_digit_or_separator_iff (c : Char) :
    is_digit_or_separator c = true ↔ (c.isDigit = true ∨ c = ',' ∨ c = '-') := by
  simp [is_digit_or_separator, or_assoc]

theorem delete_kernels_not_root (env : Env) (kernels : List KernelInfo)
    (sel stdin : List Char) (hroot : env.is_root = false) :
    delete_kernels env kernels sel stdin = ([Event.root_required], stdin) := by
  simp [delete_kernels, hroot]

theorem delete_kernels_invalid_char (env : Env) (kernels : List KernelInfo)
    (sel stdin : List Char) (c : Char) (hroot : env.is_root = true)
    (hc : first_invalid sel = some c) :
    delete_kernels env kernels sel stdin = ([Event.invalid_character c], stdin) := by
  simp [delete_kernels, hroot, hc]

theorem delete_kernels_parse_error (env : Env) (kernels : List KernelInfo)
    (sel stdin : List Char) (err : ParseError) (hroot : env.is_root = true)
    (hc : first_invalid sel = none) (hp : parse_selection kernels sel = Except.error err) :
    delete_kernels env kernels sel stdin = ([err.event], stdin) := by
  simp [delete_kernels, hroot, hc, hp]

theorem delete_kernels_parsed (env : Env) (kernels : List KernelInfo)
    (sel stdin : List Char) (st : ParseState) (hroot : env.is_root = true)
    (hc : first_invalid sel = none) (hp : parse_selection kernels sel = Except.ok st) :
    delete_kernels env kernels sel stdin = execute_selection env kernels st stdin := by
  simp [delete_kernels, hroot, hc, hp]

theorem parse_error_event (err : ParseError) :
    err.event.is_parse_failure = true ∧ err.event.is_prompt = false ∧
      err.event.is_rm = false ∧ err.event.is_update_grub = false := by
  cases err <;> exact ⟨rfl, rfl, rfl, rfl⟩

/-- C3: run as root, `delete_kernels` on a selection with a character that is
not a decimal digit, a comma or a hyphen prints only "Invalid character in
selection" for the first such character, whatever the kernels and the other
characters are, and reads no input; and on a selection made only of digits,
commas and hyphens that message is never printed. -/
theorem invalid_character_reported (env : Env) (kernels : List KernelInfo)
    (sel stdin : List Char) :
    (env.is_root = true →
      ∀ (pre : List Char) (c : Char) (post : List Char), sel = pre ++ c :: post →
        (∀ d ∈ pre, d.isDigit = true ∨ d = ',' ∨ d = '-') →
        ¬ (c.isDigit = true ∨ c = ',' ∨ c = '-') →
        delete_kernels env kernels sel stdin = ([Event.invalid_character c], stdin)) ∧
    ((∀ d ∈ sel, d.isDigit = true ∨ d = ',' ∨ d = '-') →
      ∀ c, Event.invalid_character c ∉ (delete_kernels env kernels sel stdin).1) := by
  constructor
  · intro hroot pre c post hsel hpre hc
    have h1 : first_invalid sel = some c := by
      rw [hsel]
      apply first_invalid_split
      · intro d hd; exact (is_digit_or_separator_iff d).2 (hpre d hd)
      · cases hb : is_digit_or_separator c with
        | false => rfl
        | true => exact absurd ((is_digit_or_separator_iff c).1 hb) hc
    simp [delete_kernels, hroot, h1]
  · intro hall c hmem
    have h1 : first_invalid sel = none :=
      first_invalid_none sel (fun d hd => (is_digit_or_separator_iff d).2 (hall d hd))
    cases hroot : env.is_root with
    | false =>
      rw [delete_kernels_not_root _ _ _ _ hroot] at hmem
      simp at hmem
    | true =>
      cases hp : parse_selection kernels sel with
      | error err =>
        rw [delete_kernels_parse_error _ _ _ _ err hroot h1 hp] at hmem
        cases err <;> simp [ParseError.event] at hmem
      | ok st =>
        rw [delete_kernels_parsed _ _ _ _ st hroot h1 hp] at hmem
        have := execute_selection_no_failure _ _ _ _ _ hmem
        simp [Event.is_parse_failure] at this

theorem invalid_character_reported_witness :
    delete_kernels root_env five_kernels "1,x-2;".toList "y\n".toList =
      ([Event.invalid_character 'x'], "y\n".toList) :=
  (invalid_character_reported root_env five_kernels "1,x-2;".toList "y\n".toList).1 rfl
    "1,".toList 'x' "-2;".toList rfl (by decide) (by decide)

/-- C4: a run of `delete_kernels` that reports an invalid character, an
invalid kernel number or an invalid range issues no confirmation prompt,
invokes the removal command for no kernel, does not call `update_grub` and
reads no input, whatever tokens precede the bad one. -/
theorem parse_failure_atomic (env : Env) (kernels : List KernelInfo)
    (sel stdin : List Char)
    (h : ∃ e ∈ (delete_kernels env kernels sel stdin).1, e.is_parse_failure = true) :
    (∀ e ∈ (delete_kernels env kernels sel stdin).1,
      e.is_prompt = false ∧ e.is_rm = false ∧ e.is_update_grub = false) ∧
    (delete_kernels env kernels sel stdin).2 = stdin := by
  obtain ⟨e0, hmem, hfail⟩ := h
  cases hroot : env.is_root with
  | false =>
    rw [delete_kernels_not_root _ _ _ _ hroot]
    simp only [List.mem_singleton]
    exact ⟨fun e he => by rw [he]; exact ⟨rfl, rfl, rfl⟩, trivial⟩
  | true =>
    cases hc : first_invalid sel with
    | some c =>
      rw [delete_kernels_invalid_char _ _ _ _ c hroot hc]
      simp only [List.mem_singleton]
      exact ⟨fun e he => by rw [he]; exact ⟨rfl, rfl, rfl⟩, trivial⟩
    | none =>
      cases hp : parse_selection kernels sel with
      | error err =>
        rw [delete_kernels_parse_error _ _ _ _ err hroot hc hp]
        simp only [List.mem_singleton]
        exact ⟨fun e he => by rw [he]; exact (parse_error_event err).2, trivial⟩
      | ok st =>
        rw [delete_kernels_parsed _ _ _ _ st hroot hc hp] at hmem
        have := execute_selection_no_failure _ _ _ _ _ hmem
        rw [this] at hfail
        cases hfail

theorem parse_failure_atomic_witness :
    (∀ e ∈ (delete_kernels root_env five_kernels "1,2-3,9".toList "y\ny\n".toList).1,
      e.is_prompt = false ∧ e.is_rm = false ∧ e.is_update_grub = false) ∧
    (delete_kernels root_env five_kernels "1,2-3,9".toList "y\ny\n".toList).2 =
      "y\ny\n".toList :=
  parse_failure_atomic root_env five_kernels "1,2-3,9".toList "y\ny\n".toList
    ⟨Event.invalid_number ['9'], by decide, rfl⟩

theorem confirm_deletion_affirmative (p : Prompt) (stdin : List Char)
    (ha : affirmative stdin = true) :
    ∃ r, (confirm_deletion p stdin).2.1 = [Event.prompt p, Event.read (some r)] ∧
      affirmative r = true := by
  cases stdin with
  | nil => simp [affirmative] at ha
  | cons c cs =>
    refine ⟨(fgets_take 9 (c :: cs)).1, by simp [confirm_deletion, fgets], ?_⟩
    simp only [affirmative] at ha ⊢
    rw [fgets_take_head]
    simpa using ha

theorem auto_clean_declined (env : Env) (kernels : List KernelInfo) (stdin : List Char)
    (hroot : env.is_root = true) (hlen : 2 < kernels.length)
    (hc : (auto_select kernels).delete_count ≠ 0) (ha : affirmative stdin = false) :
    auto_clean env kernels stdin =
      (auto_announcement kernels (auto_select kernels) ++
        (confirm_deletion Prompt.proceed stdin).2.1 ++ [Event.auto_cancelled],
        (confirm_deletion Prompt.proceed stdin).2.2) := by
  have h := confirm_deletion_answer Prompt.proceed stdin
  rw [ha] at h
  unfold auto_clean
  rw [if_neg (by simp [hroot]), if_neg (by omega), if_neg hc]
  rcases hcd : confirm_deletion Prompt.proceed stdin with ⟨b, ev, rest⟩
  rw [hcd] at h
  simp only at h
  subst h
  rfl

theorem auto_clean_confirmed (env : Env) (kernels : List KernelInfo) (stdin : List Char)
    (hroot : env.is_root = true) (hlen : 2 < kernels.length)
    (hc : (auto_select kernels).delete_count ≠ 0) (ha : affirmative stdin = true) :
    auto_clean env kernels stdin =
      (auto_announcement kernels (auto_select kernels) ++
        (confirm_deletion Prompt.proceed stdin).2.1 ++
        (delete_loop env kernels (auto_select kernels).to_delete (List.range kernels.length)
          (confirm_deletion Prompt.proceed stdin).2.2).1 ++
        [Event.auto_completed] ++ update_grub env,
       (delete_loop env kernels (auto_select kernels).to_delete (List.range kernels.length)
          (confirm_deletion Prompt.proceed stdin).2.2).2) := by
  have h := confirm_deletion_answer Prompt.proceed stdin
  rw [ha] at h
  unfold auto_clean
  rw [if_neg (by simp [hroot]), if_neg (by omega), if_neg hc]
  rcases hcd : confirm_deletion Prompt.proceed stdin with ⟨b, ev, rest⟩
  rw [hcd] at h
  simp only at h
  subst h
  rfl

/-- A prefix whose events all differ in kind from `e` lies before `e`. -/
theorem front_part_before (l1 l2 pre post : List Event) (e : Event)
    (h : l1 ++ l2 = pre ++ e :: post) (hne : ∀ x ∈ l1, x ≠ e) : ∃ b, pre = l1 ++ b := by
  induction l1 generalizing pre with
  | nil => exact ⟨pre, rfl⟩
  | cons x xs ih =>
    cases pre with
    | nil =>
      simp only [List.cons_append, List.nil_append, List.cons.injEq] at h
      exact absurd h.1 (hne x (List.mem_cons_self _ _))
    | cons q qs =>
      simp only [List.cons_append, List.cons.injEq] at h
      obtain ⟨b, hb⟩ := ih qs h.2 (fun y hy => hne y (List.mem_cons_of_mem _ hy))
      exact ⟨b, by rw [h.1, hb]; rfl⟩

theorem announcement_no_rm (kernels : List KernelInfo) (st : ParseState) (e : Event)
    (he : e ∈ announcement kernels st) : e.is_rm = false := by
  rcases announcement_events _ _ _ he with h | ⟨_, _, _, h⟩ | ⟨_, h⟩ | h | h <;> rw [h] <;> rfl

theorem auto_announcement_no_rm (kernels : List KernelInfo) (sel : AutoState) (e : Event)
    (he : e ∈ auto_announcement kernels sel) : e.is_rm = false := by
  rcases auto_announcement_events _ _ _ he with h | ⟨_, _, h⟩ | h | ⟨_, h⟩ | ⟨_, h⟩ <;>
    rw [h] <;> rfl

/-- In a trace that starts with an announcement free of removals and an
affirmatively answered batch prompt, every removal comes behind that prompt
and its answer. -/
theorem removal_behind_prompt (ann tail pre post : List Event) (stdin : List Char)
    (e : Event) (ha : affirmative stdin = true)
    (hann : ∀ x ∈ ann, x.is_rm = false) (he : e.is_rm = true)
    (h : ann ++ (confirm_deletion Prompt.proceed stdin).2.1 ++ tail = pre ++ e :: post) :
    ∃ a r b, pre = a ++ Event.prompt Prompt.proceed :: Event.read (some r) :: b ∧
      affirmative r = true := by
  obtain ⟨r, hr, har⟩ := confirm_deletion_affirmative Prompt.proceed stdin ha
  rw [hr] at h
  have hne : ∀ x ∈ ann ++ [Event.prompt Prompt.proceed, Event.read (some r)], x ≠ e := by
    intro x hx hxe
    rw [← hxe] at he
    simp only [List.mem_append, List.mem_cons, List.mem_singleton, List.not_mem_nil,
      or_false] at hx
    rcases hx with hx | hx | hx
    · rw [hann x hx] at he; cases he
    · rw [hx] at he; cases he
    · rw [hx] at he; cases he
  obtain ⟨b, hb⟩ := front_part_before _ _ _ _ _ h hne
  exact ⟨ann, r, b, by rw [hb]; simp, har⟩

/-- C5: when the input at the "Proceed with deletion?" prompt is exhausted or
starts with a character other than `y` and `Y`, neither `delete_kernels` nor
`auto_clean` invokes the removal command or calls `update_grub`; and in every
run of either, each removal invocation comes behind a batch prompt whose
answer starts with `y` or `Y`. -/
theorem no_deletion_without_confirmation (env : Env) (kernels : List KernelInfo)
    (sel stdin : List Char) :
    ((stdin.head? ≠ some 'y' ∧ stdin.head? ≠ some 'Y') →
      (∀ e ∈ (delete_kernels env kernels sel stdin).1,
        e.is_rm = false ∧ e.is_update_grub = false) ∧
      (∀ e ∈ (auto_clean env kernels stdin).1,
        e.is_rm = false ∧ e.is_update_grub = false)) ∧
    (∀ pre e post, (delete_kernels env kernels sel stdin).1 = pre ++ e :: post →
      e.is_rm = true →
      ∃ a r b, pre = a ++ Event.prompt Prompt.proceed :: Event.read (some r) :: b ∧
        (r.head? = some 'y' ∨ r.head? = some 'Y')) ∧
    (∀ pre e post, (auto_clean env kernels stdin).1 = pre ++ e :: post →
      e.is_rm = true →
      ∃ a r b, pre = a ++ Event.prompt Prompt.proceed :: Event.read (some r) :: b ∧
        (r.head? = some 'y' ∨ r.head? = some 'Y')) := by
  have hdel : affirmative stdin = false →
      ∀ e ∈ (delete_kernels env kernels sel stdin).1,
        e.is_rm = false ∧ e.is_update_grub = false := by
    intro ha e he
    cases hroot : env.is_root with
    | false =>
      rw [delete_kernels_not_root _ _ _ _ hroot] at he
      simp only [List.mem_singleton] at he
      rw [he]; exact ⟨rfl, rfl⟩
    | true =>
      cases hc : first_invalid sel with
      | some c =>
        rw [delete_kernels_invalid_char _ _ _ _ c hroot hc] at he
        simp only [List.mem_singleton] at he
        rw [he]; exact ⟨rfl, rfl⟩
      | none =>
        cases hp : parse_selection kernels sel with
        | error err =>
          rw [delete_kernels_parse_error _ _ _ _ err hroot hc hp] at he
          simp only [List.mem_singleton] at he
          rw [he]; exact ⟨(parse_error_event err).2.2.1, (parse_error_event err).2.2.2⟩
        | ok st =>
          rw [delete_kernels_parsed _ _ _ _ st hroot hc hp] at he
          exact execute_selection_declined_safe _ _ _ _ ha _ he
  have haff : ∀ r : List Char, affirmative r = true →
      (r.head? = some 'y' ∨ r.head? = some 'Y') := by
    intro r hr
    simpa [affirmative] using hr
  refine ⟨?_, ?_, ?_⟩
  · intro h
    have ha : affirmative stdin = false := by
      simp [affirmative, h.1, h.2]
    exact ⟨hdel ha, fun e he => auto_clean_declined_safe _ _ _ ha _ he⟩
  · intro pre e post htr he
    cases ha : affirmative stdin with
    | false =>
      have := (hdel ha e (by rw [htr]; simp)).1
      rw [this] at he; cases he
    | true =>
      cases hroot : env.is_root with
      | false =>
        have hm : e ∈ (delete_kernels env kernels sel stdin).1 := by rw [htr]; simp
        rw [delete_kernels_not_root _ _ _ _ hroot] at hm
        simp only [List.mem_singleton] at hm
        rw [hm] at he; cases he
      | true =>
        cases hc : first_invalid sel with
        | some c =>
          have hm : e ∈ (delete_kernels env kernels sel stdin).1 := by rw [htr]; simp
          rw [delete_kernels_invalid_char _ _ _ _ c hroot hc] at hm
          simp only [List.mem_singleton] at hm
          rw [hm] at he; cases he
        | none =>
          cases hp : parse_selection kernels sel with
          | error err =>
            have hm : e ∈ (delete_kernels env kernels sel stdin).1 := by rw [htr]; simp
            rw [delete_kernels_parse_error _ _ _ _ err hroot hc hp] at hm
            simp only [List.mem_singleton] at hm
            rw [hm, (parse_error_event err).2.2.1] at he; cases he
          | ok st =>
            rw [delete_kernels_parsed _ _ _ _ st hroot hc hp] at htr
            by_cases hcount : st.delete_count = 0
            · have hm : e ∈ (execute_selection env kernels st stdin).1 := by rw [htr]; simp
              simp [execute_selection, hcount] at hm
              rw [hm] at he; cases he
            · rw [execute_selection_confirmed _ _ _ _ hcount ha] at htr
              simp only [List.append_assoc] at htr
              rw [← List.append_assoc] at htr
              obtain ⟨a, r, b, h1, h2⟩ :=
                removal_behind_prompt _ _ _ _ _ _ ha (announcement_no_rm kernels st) he htr
              exact ⟨a, r, b, h1, haff r h2⟩
  · intro pre e post htr he
    cases ha : affirmative stdin with
    | false =>
      have := (auto_clean_declined_safe _ _ _ ha e (by rw [htr]; simp)).1
      rw [this] at he; cases he
    | true =>
      have hm : e ∈ (auto_clean env kernels stdin).1 := by rw [htr]; simp
      cases hroot : env.is_root with
      | false =>
        simp [auto_clean, hroot] at hm
        rw [hm] at he; cases he
      | true =>
        by_cases hlen : kernels.length ≤ 2
        · simp [auto_clean, hroot, hlen] at hm
          rcases hm with hm | hm <;> rw [hm] at he <;> cases he
        · by_cases hcount : (auto_select kernels).delete_count = 0
          · simp [auto_clean, hroot, hlen, hcount] at hm
            rw [hm] at he; cases he
          · rw [auto_clean_confirmed _ _ _ hroot (by omega) hcount ha] at htr
            simp only [List.append_assoc] at htr
            rw [← List.append_assoc] at htr
            obtain ⟨a, r, b, h1, h2⟩ :=
              removal_behind_prompt _ _ _ _ _ _ ha
                (auto_announcement_no_rm kernels (auto_select kernels)) he htr
            exact ⟨a, r, b, h1, haff r h2⟩

theorem no_deletion_without_confirmation_witness :
    (∀ e ∈ (delete_kernels root_env five_kernels "1-2,4".toList "no\ny\n".toList).1,
      e.is_rm = false ∧ e.is_update_grub = false) ∧
    (∀ e ∈ (auto_clean root_env five_kernels "no\ny\n".toList).1,
      e.is_rm = false ∧ e.is_update_grub = false) :=
  (no_deletion_without_confirmation root_env five_kernels "1-2,4".toList
    "no\ny\n".toList).1 ⟨by decide, by decide⟩

/-- C7: run as root on a collection of at most two kernels (the empty one
included), `auto_clean` prints the "Not enough kernels to clean" message with
the count and its explanation and does nothing else: no confirmation prompt,
no removal command, no call of `update_grub`, and no input is read. -/
theorem auto_clean_not_enough (env : Env) (kernels : List KernelInfo) (stdin : List Char)
    (hroot : env.is_root = true) (hlen : kernels.length ≤ 2) :
    auto_clean env kernels stdin =
      ([Event.not_enough kernels.length, Event.keeps_note], stdin) ∧
    (∀ e ∈ (auto_clean env kernels stdin).1,
      e.is_prompt = false ∧ e.is_rm = false ∧ e.is_update_grub = false) := by
  have h : auto_clean env kernels stdin =
      ([Event.not_enough kernels.length, Event.keeps_note], stdin) := by
    simp [auto_clean, hroot, hlen]
  refine ⟨h, ?_⟩
  rw [h]
  intro e he
  simp only [List.mem_cons, List.mem_singleton, List.not_mem_nil, or_false] at he
  rcases he with he | he <;> rw [he] <;> exact ⟨rfl, rfl, rfl⟩

theorem auto_clean_not_enough_witness :
    auto_clean root_env [kernel "6.5.0" false, kernel "6.4.0" true] "y\n".toList =
      ([Event.not_enough 2, Event.keeps_note], "y\n".toList) ∧
    (∀ e ∈ (auto_clean root_env [kernel "6.5.0" false, kernel "6.4.0" true] "y\n".toList).1,
      e.is_prompt = false ∧ e.is_rm = false ∧ e.is_update_grub = false) :=
  auto_clean_not_enough root_env [kernel "6.5.0" false, kernel "6.4.0" true] "y\n".toList
    rfl (by decide)

/-! ## Arrays of flags -/

theorem getD_set_true (l : List Bool) (i j : Nat) :
    (l.set i true).getD j false = true ↔ (i = j ∧ i < l.length) ∨ l.getD j false = true := by
  induction l generalizing i j with
  | nil => simp
  | cons x xs ih =>
    cases i with
    | zero =>
      cases j with
      | zero => simp
      | succ j => simp
    | succ i =>
      cases j with
      | zero => simp
      | succ j =>
        simp only [List.set_cons_succ, List.getD_cons_succ, List.length_cons,
          Nat.add_lt_add_iff_right, Nat.add_right_cancel_iff]
        exact ih i j

theorem getD_replicate_false (n j : Nat) : (List.replicate n false).getD j false = false := by
  induction n generalizing j with
  | zero => simp
  | succ n ih =>
    cases j with
    | zero => simp [List.replicate_succ]
    | succ j => simp only [List.replicate_succ, List.getD_cons_succ]; exact ih j

/-! ## The loops of `auto_clean` -/

theorem auto_mark_fold (ri : Int) (is : List Nat) :
    ∀ (st : List Bool × Int) (j : Nat),
      ((is.foldl (auto_mark ri) st).1.length = st.1.length) ∧
      (((is.foldl (auto_mark ri) st).1.getD j false = true) ↔
        (st.1.getD j false = true ∨ (j ∈ is ∧ j ≠ 0 ∧ (j : Int) ≠ ri ∧ j < st.1.length))) := by
  induction is with
  | nil => intro st j; simp
  | cons i rest ih =>
    intro st j
    simp only [List.foldl_cons]
    obtain ⟨hlen, hget⟩ := ih (auto_mark ri st i) j
    have hl : (auto_mark ri st i).1.length = st.1.length := by
      unfold auto_mark; split <;> simp
    refine ⟨by rw [hlen, hl], ?_⟩
    rw [hget, hl]
    unfold auto_mark
    split
    · rename_i hc
      simp only [getD_set_true, List.mem_cons]
      constructor
      · rintro ((⟨h1, h2⟩ | h) | ⟨h1, h2⟩)
        · subst h1; exact Or.inr ⟨Or.inl rfl, hc.1, hc.2, h2⟩
        · exact Or.inl h
        · exact Or.inr ⟨Or.inr h1, h2⟩
      · rintro (h | ⟨h1 | h1, h2, h3, h4⟩)
        · exact Or.inl (Or.inr h)
        · subst h1; exact Or.inl (Or.inl ⟨rfl, h4⟩)
        · exact Or.inr ⟨h1, h2, h3, h4⟩
    · rename_i hc
      simp only [List.mem_cons]
      constructor
      · rintro (h | ⟨h1, h2⟩)
        · exact Or.inl h
        · exact Or.inr ⟨Or.inr h1, h2⟩
      · rintro (h | ⟨h1 | h1, h2, h3, h4⟩)
        · exact Or.inl h
        · subst h1; exact absurd ⟨h2, h3⟩ hc
        · exact Or.inr ⟨h1, h2, h3, h4⟩

/-- The flags set by `auto_clean`: every index of the table other than `0`
and `running_index`. -/
theorem auto_select_marks (kernels : List KernelInfo) (h100 : kernels.length ≤ MAX_KERNELS)
    (j : Nat) :
    (auto_select kernels).to_delete.getD j false = true ↔
      (j < kernels.length ∧ j ≠ 0 ∧ (j : Int) ≠ (auto_select kernels).running_index) := by
  simp only [auto_select]
  rw [(auto_mark_fold _ _ _ j).2]
  simp only [getD_replicate_false, List.mem_range, List.length_replicate, Bool.false_eq_true,
    false_or]
  constructor
  · rintro ⟨h1, h2, h3, _⟩; exact ⟨h1, h2, h3⟩
  · rintro ⟨h1, h2, h3⟩; exact ⟨h1, h2, h3, by omega⟩

/-- The result of the search for the running record: `-1` when no record is
marked running, otherwise the index of the first record marked running. -/
theorem find_running_spec (ks : List KernelInfo) :
    ∀ off : Nat,
      (find_running ks off = -1 ∧ ∀ k ∈ ks, k.running = false) ∨
      (∃ i k, find_running ks off = ((off + i : Nat) : Int) ∧ ks[i]? = some k ∧
        k.running = true ∧ ∀ j kj, j < i → ks[j]? = some kj → kj.running = false) := by
  induction ks with
  | nil => intro off; exact Or.inl ⟨rfl, by simp⟩
  | cons k ks ih =>
    intro off
    cases hk : k.running with
    | true =>
      refine Or.inr ⟨0, k, by simp [find_running, hk], by simp, hk, ?_⟩
      intro j kj hj; omega
    | false =>
      rcases ih (off + 1) with ⟨h1, h2⟩ | ⟨i, ki, h1, h2, h3, h4⟩
      · refine Or.inl ⟨by simp [find_running, hk, h1], ?_⟩
        intro x hx
        rcases List.mem_cons.1 hx with h | h
        · rw [h]; exact hk
        · exact h2 x h
      · refine Or.inr ⟨i + 1, ki, ?_, by simpa using h2, h3, ?_⟩
        · simp only [find_running, hk, Bool.false_eq_true, if_false, h1]
          congr 1; omega
        · intro j kj hj hget
          cases j with
          | zero =>
            simp only [List.getElem?_cons_zero, Option.some.injEq] at hget
            rw [← hget]; exact hk
          | succ j =>
            simp only [List.getElem?_cons_succ] at hget
            exact h4 j kj (by omega) hget

/-- C6: for a collection of 3 to 100 records with at most one record marked
running, `auto_clean` sets `to_delete[i]` exactly for the indices `i` of the
collection other than `0` whose record is not running; the indices it retains
are `0` and the index of the running record, if any.  On a collection
`[v3, v2 (running), v1]` it sets the flag of `v1` only. -/
theorem auto_clean_selection (kernels : List KernelInfo) :
    (3 ≤ kernels.length → kernels.length ≤ 100 →
      (∀ (i j : Nat) (ki kj : KernelInfo), kernels[i]? = some ki → kernels[j]? = some kj →
        ki.running = true → kj.running = true → i = j) →
      (∀ i, (auto_select kernels).to_delete.getD i false = true ↔
        (i ≠ 0 ∧ ∃ k, kernels[i]? = some k ∧ k.running = false)) ∧
      (∀ i, i < kernels.length →
        ((auto_select kernels).to_delete.getD i false = false ↔
          (i = 0 ∨ ∃ k, kernels[i]? = some k ∧ k.running = true)))) ∧
    (∀ v3 v2 v1 p3 p2 p1 : String,
      (auto_select [⟨v3, p3, false⟩, ⟨v2, p2, true⟩, ⟨v1, p1, false⟩]).to_delete =
        false :: false :: true :: List.replicate 97 false) := by
  constructor
  · intro h3 h100 huniq
    have hmain : ∀ i, (auto_select kernels).to_delete.getD i false = true ↔
        (i ≠ 0 ∧ ∃ k, kernels[i]? = some k ∧ k.running = false) := by
      intro i
      rw [auto_select_marks kernels h100 i]
      have hri : (auto_select kernels).running_index = find_running kernels 0 := rfl
      rw [hri]
      constructor
      · rintro ⟨hlt, hne, hr⟩
        refine ⟨hne, kernels[i], List.getElem?_eq_getElem hlt, ?_⟩
        rcases find_running_spec kernels 0 with ⟨_, h2⟩ | ⟨r, kr, h1, h2, h3, _⟩
        · exact h2 _ (List.getElem_mem hlt)
        · cases hk : (kernels[i]).running with
          | false => rfl
          | true =>
            have := huniq i r _ kr (List.getElem?_eq_getElem hlt) h2 hk h3
            rw [h1] at hr
            exact absurd (by rw [this]; simp) hr
      · rintro ⟨hne, k, hk, hrun⟩
        have hlt : i < kernels.length := by
          rcases Nat.lt_or_ge i kernels.length with h | h
          · exact h
          · rw [List.getElem?_eq_none h] at hk; cases hk
        refine ⟨hlt, hne, ?_⟩
        rcases find_running_spec kernels 0 with ⟨h1, _⟩ | ⟨r, kr, h1, h2, h3, _⟩
        · rw [h1]; omega
        · rw [h1]
          intro heq
          have : i = r := by omega
          subst this
          rw [hk] at h2
          cases h2
          rw [hrun] at h3; cases h3
    refine ⟨hmain, ?_⟩
    intro i hlt
    have hk : kernels[i]? = some kernels[i] := List.getElem?_eq_getElem hlt
    constructor
    · intro hf
      by_cases h0 : i = 0
      · exact Or.inl h0
      · right
        refine ⟨kernels[i], hk, ?_⟩
        cases hr : (kernels[i]).running with
        | true => rfl
        | false =>
          have := (hmain i).2 ⟨h0, kernels[i], hk, hr⟩
          rw [this] at hf; cases hf
    · intro h
      cases hb : (auto_select kernels).to_delete.getD i false with
      | false => rfl
      | true =>
        obtain ⟨h0, k, hk2, hr⟩ := (hmain i).1 hb
        rcases h with h | ⟨k3, hk3, hr3⟩
        · exact absurd h h0
        · rw [hk2] at hk3
          cases hk3
          rw [hr] at hr3; cases hr3
  · intro v3 v2 v1 p3 p2 p1
    rfl

theorem auto_clean_selection_witness :
    (∀ i, (auto_select five_kernels).to_delete.getD i false = true ↔
      (i ≠ 0 ∧ ∃ k, five_kernels[i]? = some k ∧ k.running = false)) ∧
    (∀ i, i < five_kernels.length →
      ((auto_select five_kernels).to_delete.getD i false = false ↔
        (i = 0 ∨ ∃ k, five_kernels[i]? = some k ∧ k.running = true))) :=
  (auto_clean_selection five_kernels).1 (by decide) (by decide) (by
    intro i j ki kj hi hj hri hrj
    have h : ∀ n k, five_kernels[n]? = some k → k.running = true → n = 2 := by
      intro n k hn hr
      match n, hn with
      | 0, hn => simp [five_kernels, kernel] at hn; rw [← hn] at hr; cases hr
      | 1, hn => simp [five_kernels, kernel] at hn; rw [← hn] at hr; cases hr
      | 2, _ => rfl
      | 3, hn => simp [five_kernels, kernel] at hn; rw [← hn] at hr; cases hr
      | 4, hn => simp [five_kernels, kernel] at hn; rw [← hn] at hr; cases hr
      | n + 5, hn => simp [five_kernels] at hn
    rw [h i ki hi hri, h j kj hj hrj])

/-! ## Invariants of the parsing loop -/

theorem count_set_true (l : List Bool) (i : Nat) (hi : i < l.length)
    (h : l.getD i false = false) : (l.set i true).count true = l.count true + 1 := by
  induction l generalizing i with
  | nil => simp at hi
  | cons x xs ih =>
    cases i with
    | zero =>
      simp only [List.getD_cons_zero] at h
      subst h
      simp [List.count_cons]
    | succ i =>
      simp only [List.getD_cons_succ] at h
      simp only [List.length_cons, Nat.add_lt_add_iff_right] at hi
      simp only [List.set_cons_succ, List.count_cons, ih i hi h]
      omega

theorem initial_state_inv (kernels : List KernelInfo) :
    ParseInv kernels (initial_state kernels) := by
  refine ⟨by simp [initial_state], by simp [initial_state], ?_, ?_, ?_⟩
  · simp [initial_state, List.count_replicate]
  · intro j hj
    simp [initial_state, getD_replicate_false] at hj
  · simp [initial_state, getD_replicate_false]

theorem mark_flags (kernels : List KernelInfo) (st : ParseState) (i : Nat)
    (hi : i < st.to_delete.length) (j : Nat) :
    (mark kernels st i).to_delete.getD j false = true ↔
      (j = i ∨ st.to_delete.getD j false = true) := by
  unfold mark
  split
  · rename_i h
    constructor
    · intro hj; exact Or.inr hj
    · rintro (hj | hj)
      · rw [hj]; exact h
      · exact hj
  · simp only [getD_set_true]
    constructor
    · rintro (⟨h1, _⟩ | h)
      · exact Or.inl h1.symm
      · exact Or.inr h
    · rintro (h | h)
      · exact Or.inl ⟨h.symm, hi⟩
      · exact Or.inr h

theorem mark_of_set (kernels : List KernelInfo) (st : ParseState) (i : Nat)
    (h : st.to_delete.getD i false = true) : mark kernels st i = st := by
  unfold mark
  rw [if_pos h]

theorem mark_of_unset (kernels : List KernelInfo) (st : ParseState) (i : Nat)
    (h : st.to_delete.getD i false = false) :
    mark kernels st i =
      { to_delete := st.to_delete.set i true
        delete_count := st.delete_count + 1
        deleting_running :=
          match kernels[i]? with
          | some k => if k.running then true else st.deleting_running
          | none => st.deleting_running
        remaining_count := st.remaining_count - 1 } := by
  unfold mark
  rw [if_neg (by rw [h]; exact Bool.false_ne_true)]
  try rfl

theorem mark_inv (kernels : List KernelInfo) (hN : kernels.length ≤ MAX_KERNELS)
    (st : ParseState) (i : Nat) (hi : i < kernels.length) (inv : ParseInv kernels st) :
    ParseInv kernels (mark kernels st i) := by
  have hlen : i < st.to_delete.length := by rw [inv.length_eq]; omega
  have hflags := mark_flags kernels st i hlen
  by_cases hset : st.to_delete.getD i false = true
  · rw [mark_of_set kernels st i hset]; exact inv
  · have hset' : st.to_delete.getD i false = false := by simpa using hset
    obtain ⟨k, hk⟩ : ∃ k, kernels[i]? = some k := ⟨kernels[i], List.getElem?_eq_getElem hi⟩
    have hm := mark_of_unset kernels st i hset'
    refine ⟨?_, ?_, ?_, ?_, ?_⟩
    · rw [hm]; simp only [List.length_set]; exact inv.length_eq
    · rw [hm]
      have := inv.sum_eq
      simp only
      omega
    · rw [hm]
      simp only
      rw [count_set_true _ _ hlen hset', inv.count_eq]
      simp
    · intro j hj
      rcases (hflags j).1 hj with h | h
      · rw [h]; exact hi
      · exact inv.in_range j h
    · have hdr : (mark kernels st i).deleting_running =
          (if k.running then true else st.deleting_running) := by
        rw [hm, hk]
      rw [hdr]
      constructor
      · intro h
        cases hr : k.running with
        | true => exact ⟨i, k, (hflags i).2 (Or.inl rfl), hk, hr⟩
        | false =>
          rw [hr] at h
          simp only [Bool.false_eq_true, if_false] at h
          obtain ⟨j, kj, h1, h2, h3⟩ := inv.running_iff.1 h
          exact ⟨j, kj, (hflags j).2 (Or.inr h1), h2, h3⟩
      · rintro ⟨j, kj, h1, h2, h3⟩
        rcases (hflags j).1 h1 with h | h
        · subst h
          rw [hk] at h2
          cases h2
          simp [h3]
        · have := inv.running_iff.2 ⟨j, kj, h, h2, h3⟩
          simp [this]

/-- Marking a list of record indices keeps the invariant and sets exactly the
flags of these indices. -/
theorem mark_all_inv (kernels : List KernelInfo) (hN : kernels.length ≤ MAX_KERNELS)
    (idxs : List Nat) : ∀ (st : ParseState), (∀ i ∈ idxs, i < kernels.length) →
    ParseInv kernels st →
    ParseInv kernels (idxs.foldl (mark kernels) st) ∧
    ∀ j, (idxs.foldl (mark kernels) st).to_delete.getD j false = true ↔
      (j ∈ idxs ∨ st.to_delete.getD j false = true) := by
  induction idxs with
  | nil => intro st _ inv; exact ⟨inv, by simp⟩
  | cons i rest ih =>
    intro st hall inv
    have hi : i < kernels.length := hall i (List.mem_cons_self _ _)
    have inv1 := mark_inv kernels hN st i hi inv
    obtain ⟨inv2, hfl⟩ := ih (mark kernels st i)
      (fun x hx => hall x (List.mem_cons_of_mem _ hx)) inv1
    refine ⟨inv2, ?_⟩
    intro j
    simp only [List.foldl_cons]
    rw [hfl j, mark_flags kernels st i (by rw [inv.length_eq]; omega) j]
    simp only [List.mem_cons]
    tauto

theorem process_token_ok (kernels : List KernelInfo) (st st1 : ParseState)
    (token : List Char) (h : process_token kernels st token = Except.ok st1) :
    st1 = (token_indices token).foldl (mark kernels) st ∧
      ∀ i ∈ token_indices token, i < kernels.length := by
  unfold process_token at h
  unfold token_indices
  split at h
  · rename_i first second hs
    try simp only [hs]
    split at h
    · cases h
    · rename_i hv
      simp only [Except.ok.injEq] at h
      simp only [not_or, not_lt] at hv
      constructor
      · rw [← h, List.foldl_map]
      · intro i hi
        simp only [List.mem_map, List.mem_range'_1] at hi
        obtain ⟨a, ⟨h1, h2⟩, h3⟩ := hi
        omega
  · rename_i hs
    try simp only [hs]
    split at h
    · cases h
    · rename_i hv
      simp only [Except.ok.injEq] at h
      simp only [not_or, not_lt] at hv
      constructor
      · rw [← h]; rfl
      · intro i hi
        simp only [List.mem_singleton] at hi
        omega

theorem parse_tokens_ok (kernels : List KernelInfo) (tokens : List (List Char)) :
    ∀ (st st1 : ParseState), parse_tokens kernels tokens st = Except.ok st1 →
      st1 = (tokens.flatMap token_indices).foldl (mark kernels) st ∧
        ∀ i ∈ tokens.flatMap token_indices, i < kernels.length := by
  induction tokens with
  | nil =>
    intro st st1 h
    simp only [parse_tokens, Except.ok.injEq] at h
    simp [h]
  | cons t rest ih =>
    intro st st1 h
    simp only [parse_tokens] at h
    split at h
    · cases h
    · rename_i st2 hp
      obtain ⟨h1, h2⟩ := process_token_ok kernels st st2 t hp
      obtain ⟨h3, h4⟩ := ih st2 st1 h
      constructor
      · rw [h3, h1, List.flatMap_cons, List.foldl_append]
      · intro i hi
        simp only [List.flatMap_cons, List.mem_append] at hi
        rcases hi with hi | hi
        · exact h2 i hi
        · exact h4 i hi

/-- A successful parse ends in a state that satisfies the loop invariant, and
the flags set are those of the indices of its tokens. -/
theorem parse_selection_inv (kernels : List KernelInfo) (hN : kernels.length ≤ MAX_KERNELS)
    (sel : List Char) (st : ParseState) (h : parse_selection kernels sel = Except.ok st) :
    ParseInv kernels st ∧
    ∀ j, st.to_delete.getD j false = true ↔ j ∈ (strtok_tokens sel).flatMap token_indices := by
  obtain ⟨h1, h2⟩ := parse_tokens_ok kernels _ _ _ h
  obtain ⟨inv, hfl⟩ := mark_all_inv kernels hN _ (initial_state kernels) h2
    (initial_state_inv kernels)
  rw [← h1] at inv hfl
  refine ⟨inv, ?_⟩
  intro j
  rw [hfl j]
  simp [initial_state, getD_replicate_false]

/-- The counter `delete_count` never decreases and starts at zero. -/
theorem mark_all_count_nonneg (kernels : List KernelInfo) (idxs : List Nat) :
    ∀ st : ParseState, 0 ≤ st.delete_count →
      0 ≤ (idxs.foldl (mark kernels) st).delete_count := by
  induction idxs with
  | nil => intro st h; exact h
  | cons i rest ih =>
    intro st h
    simp only [List.foldl_cons]
    apply ih
    unfold mark
    split
    · exact h
    · simp only; omega

theorem parse_selection_count_nonneg (kernels : List KernelInfo) (sel : List Char)
    (st : ParseState) (h : parse_selection kernels sel = Except.ok st) :
    0 ≤ st.delete_count := by
  obtain ⟨h1, _⟩ := parse_tokens_ok kernels _ _ _ h
  rw [h1]
  exact mark_all_count_nonneg kernels _ _ (by simp [initial_state])

/-! ## The deletion loop -/

theorem actions_append (a b : List Event) : actions (a ++ b) = actions a ++ actions b := by
  induction a with
  | nil => rfl
  | cons e rest ih =>
    cases e <;> simp [actions, ih]

theorem actions_eq_nil (l : List Event)
    (h : ∀ e ∈ l, e.is_rm = false ∧ e.is_update_grub = false) : actions l = [] := by
  induction l with
  | nil => rfl
  | cons e rest ih =>
    have he := h e (List.mem_cons_self _ _)
    have hr := ih (fun x hx => h x (List.mem_cons_of_mem _ hx))
    cases e <;> simp [actions, hr, Event.is_rm, Event.is_update_grub] at he ⊢

theorem actions_update_grub (env : Env) : actions (update_grub env) = [Action.refresh] := by
  unfold update_grub
  split
  · split <;> rfl
  · rfl

theorem actions_remove_kernel (env : Env) (i : Nat) (k : KernelInfo) :
    actions (remove_kernel env i k) = [Action.remove i] := by
  unfold remove_kernel
  split <;> rfl

theorem actions_confirm (p : Prompt) (stdin : List Char) :
    actions (confirm_deletion p stdin).2.1 = [] := by
  apply actions_eq_nil
  intro e he
  rcases confirm_deletion_events _ _ _ he with h | ⟨_, h⟩ | h <;> rw [h] <;> exact ⟨rfl, rfl⟩

theorem delete_kernel_running (env : Env) (kernels : List KernelInfo) (i : Nat)
    (k : KernelInfo) (stdin : List Char) (hk : kernels[i]? = some k)
    (hr : k.running = true) :
    delete_kernel env kernels i stdin =
      ((confirm_deletion Prompt.running_kernel stdin).2.1 ++
        (if affirmative stdin then remove_kernel env i k
          else [Event.skipping (i + 1) k.version]),
        (confirm_deletion Prompt.running_kernel stdin).2.2) := by
  have h := confirm_deletion_answer Prompt.running_kernel stdin
  unfold delete_kernel
  rw [hk]
  simp only [hr, if_true]
  rcases hcd : confirm_deletion Prompt.running_kernel stdin with ⟨b, ev, rest⟩
  rw [hcd] at h
  simp only at h
  rw [← h]
  cases b <;> rfl

theorem delete_kernel_not_running (env : Env) (kernels : List KernelInfo) (i : Nat)
    (k : KernelInfo) (stdin : List Char) (hk : kernels[i]? = some k)
    (hr : k.running = false) :
    delete_kernel env kernels i stdin = (remove_kernel env i k, stdin) := by
  unfold delete_kernel
  rw [hk]
  simp [hr]

theorem actions_delete_kernel (env : Env) (kernels : List KernelInfo) (i : Nat)
    (k : KernelInfo) (stdin : List Char) (hk : kernels[i]? = some k) :
    actions (delete_kernel env kernels i stdin).1 =
      if k.running = true ∧ affirmative stdin = false then [] else [Action.remove i] := by
  cases hr : k.running with
  | false =>
    rw [delete_kernel_not_running env kernels i k stdin hk hr, actions_remove_kernel]
    simp
  | true =>
    rw [delete_kernel_running env kernels i k stdin hk hr, actions_append, actions_confirm]
    cases ha : affirmative stdin with
    | true => simp [actions_remove_kernel]
    | false => simp [actions]

theorem delete_loop_cons (env : Env) (kernels : List KernelInfo) (td : List Bool)
    (i : Nat) (rest : List Nat) (stdin : List Char) :
    delete_loop env kernels td (i :: rest) stdin =
      if td.getD i false = true then
        ((delete_kernel env kernels i stdin).1 ++
            (delete_loop env kernels td rest (delete_kernel env kernels i stdin).2).1,
          (delete_loop env kernels td rest (delete_kernel env kernels i stdin).2).2)
      else delete_loop env kernels td rest stdin := by
  rw [delete_loop]

theorem delete_loop_append (env : Env) (kernels : List KernelInfo) (td : List Bool)
    (l1 l2 : List Nat) : ∀ stdin : List Char,
    delete_loop env kernels td (l1 ++ l2) stdin =
      ((delete_loop env kernels td l1 stdin).1 ++
        (delete_loop env kernels td l2 (delete_loop env kernels td l1 stdin).2).1,
       (delete_loop env kernels td l2 (delete_loop env kernels td l1 stdin).2).2) := by
  induction l1 with
  | nil => intro stdin; simp [delete_loop]
  | cons i rest ih =>
    intro stdin
    rw [List.cons_append, delete_loop_cons, delete_loop_cons]
    split
    · rw [ih]; simp
    · rw [ih]

theorem delete_loop_single (env : Env) (kernels : List KernelInfo) (td : List Bool)
    (i : Nat) (stdin : List Char) :
    delete_loop env kernels td [i] stdin =
      if td.getD i false = true then delete_kernel env kernels i stdin else ([], stdin) := by
  simp only [delete_loop]
  split <;> simp

/-- The removal command is invoked for index `i` in the deletion loop over the
first `n` indices exactly when `i` is one of them, is flagged, and its record
is not running or the answer read at its own prompt is affirmative. -/
theorem delete_loop_removes (env : Env) (kernels : List KernelInfo) (td : List Bool)
    (stdin : List Char) (i : Nat) (k : KernelInfo) (hk : kernels[i]? = some k) (n : Nat) :
    Action.remove i ∈ actions (delete_loop env kernels td (List.range n) stdin).1 ↔
      (i < n ∧ td.getD i false = true ∧
        (k.running = false ∨
          affirmative (delete_loop env kernels td (List.range i) stdin).2 = true)) := by
  induction n with
  | zero => simp [delete_loop, actions]
  | succ n ih =>
    rw [List.range_succ, delete_loop_append]
    simp only
    rw [actions_append, List.mem_append, ih, delete_loop_single]
    by_cases hsel : td.getD n false = true
    · rw [if_pos hsel]
      by_cases hn : n < kernels.length
      · have hkn : kernels[n]? = some kernels[n] := List.getElem?_eq_getElem hn
        rw [actions_delete_kernel env kernels n _ _ hkn]
        constructor
        · rintro (⟨h1, h2⟩ | h)
          · exact ⟨by omega, h2⟩
          · split at h
            · simp at h
            · rename_i hc
              simp only [List.mem_singleton, Action.remove.injEq] at h
              subst h
              rw [hkn] at hk
              cases hk
              refine ⟨by omega, hsel, ?_⟩
              by_cases hr : kernels[i].running = true
              · right
                cases hb : affirmative (delete_loop env kernels td (List.range i) stdin).2 with
                | true => rfl
                | false => exact absurd ⟨hr, hb⟩ hc
              · left; simpa using hr
        · rintro ⟨h1, h2, h3⟩
          rcases Nat.lt_or_ge i n with hlt | hge
          · exact Or.inl ⟨hlt, h2, h3⟩
          · have hin : i = n := by omega
            subst hin
            right
            rw [hkn] at hk
            cases hk
            rw [if_neg]
            · simp
            · rintro ⟨hr, hb⟩
              rcases h3 with h3 | h3
              · rw [hr] at h3; cases h3
              · rw [hb] at h3; cases h3
      · have hkn : kernels[n]? = none := List.getElem?_eq_none (by omega)
        have hd : (delete_kernel env kernels n
            (delete_loop env kernels td (List.range n) stdin).2).1 = [Event.invalid_index n] := by
          simp [delete_kernel, hkn]
        rw [hd]
        have hi : i < kernels.length := by
          rcases Nat.lt_or_ge i kernels.length with h | h
          · exact h
          · rw [List.getElem?_eq_none h] at hk; cases hk
        simp only [actions, List.not_mem_nil, or_false]
        constructor
        · rintro ⟨h1, h2⟩; exact ⟨by omega, h2⟩
        · rintro ⟨h1, h2⟩; exact ⟨by omega, h2⟩
    · rw [if_neg hsel]
      simp only [actions, List.not_mem_nil, or_false]
      constructor
      · rintro ⟨h1, h2⟩; exact ⟨by omega, h2⟩
      · rintro ⟨h1, h2, h3⟩
        rcases Nat.lt_or_ge i n with hlt | hge
        · exact ⟨hlt, h2, h3⟩
        · have hin : i = n := by omega
          subst hin
          exact absurd h2 hsel

/-- Only flagged indices are removed. -/
theorem delete_loop_removes_flagged (env : Env) (kernels : List KernelInfo)
    (td : List Bool) (is : List Nat) : ∀ (stdin : List Char) (i : Nat),
    Action.remove i ∈ actions (delete_loop env kernels td is stdin).1 →
      td.getD i false = true ∧ i ∈ is := by
  induction is with
  | nil => intro stdin i h; simp [delete_loop, actions] at h
  | cons j rest ih =>
    intro stdin i h
    simp only [delete_loop] at h
    split at h
    · rename_i hsel
      simp only [actions_append, List.mem_append] at h
      rcases h with h | h
      · cases hk : kernels[j]? with
        | none =>
          simp [delete_kernel, hk, actions] at h
        | some k =>
          rw [actions_delete_kernel env kernels j k stdin hk] at h
          split at h
          · simp at h
          · simp only [List.mem_singleton, Action.remove.injEq] at h
            subst h
            exact ⟨hsel, List.mem_cons_self _ _⟩
      · exact ⟨(ih _ _ h).1, List.mem_cons_of_mem _ (ih _ _ h).2⟩
    · exact ⟨(ih _ _ h).1, List.mem_cons_of_mem _ (ih _ _ h).2⟩

/-- When no flagged record is running, the removal command is invoked once for
every flagged index, in the order of the loop, whatever the exit statuses. -/
theorem delete_loop_no_running (env : Env) (kernels : List KernelInfo) (td : List Bool)
    (is : List Nat)
    (h : ∀ i ∈ is, td.getD i false = true → ∃ k, kernels[i]? = some k ∧ k.running = false) :
    ∀ stdin : List Char,
      actions (delete_loop env kernels td is stdin).1 =
        (is.filter (fun i => td.getD i false)).map Action.remove ∧
      (delete_loop env kernels td is stdin).2 = stdin := by
  induction is with
  | nil => intro stdin; simp [delete_loop, actions]
  | cons i rest ih =>
    intro stdin
    have ih1 := ih (fun x hx => h x (List.mem_cons_of_mem _ hx))
    simp only [delete_loop]
    by_cases hsel : td.getD i false = true
    · obtain ⟨k, hk, hr⟩ := h i (List.mem_cons_self _ _) hsel
      rw [if_pos hsel, delete_kernel_not_running env kernels i k stdin hk hr]
      simp only [actions_append, actions_remove_kernel, List.filter_cons, hsel, if_true,
        List.map_cons, List.singleton_append]
      exact ⟨by rw [(ih1 stdin).1], (ih1 stdin).2⟩
    · rw [if_neg hsel]
      simp only [List.filter_cons, hsel, Bool.false_eq_true, if_false]
      exact ih1 stdin

theorem count_confirm (p q : Prompt) (stdin : List Char) :
    (confirm_deletion p stdin).2.1.count (Event.prompt q) = if p = q then 1 else 0 := by
  cases stdin with
  | nil =>
    simp only [confirm_deletion, fgets]
    by_cases h : p = q
    · subst h; simp [List.count_cons]
    · simp [List.count_cons, h]
  | cons c cs =>
    simp only [confirm_deletion, fgets]
    by_cases h : p = q
    · subst h; simp [List.count_cons]
    · simp [List.count_cons, h]

theorem count_remove_kernel (env : Env) (i : Nat) (k : KernelInfo) (p : Prompt) :
    (remove_kernel env i k).count (Event.prompt p) = 0 := by
  rw [List.count_eq_zero]
  intro hm
  unfold remove_kernel at hm
  simp only [List.mem_cons, List.mem_singleton, List.not_mem_nil, or_false] at hm
  rcases hm with hm | hm | hm
  · cases hm
  · cases hm
  · split at hm <;> cases hm

theorem count_delete_kernel (env : Env) (kernels : List KernelInfo) (i : Nat)
    (stdin : List Char) :
    (delete_kernel env kernels i stdin).1.count (Event.prompt Prompt.running_kernel) =
      if running_at kernels i then 1 else 0 := by
  cases hk : kernels[i]? with
  | none => simp [delete_kernel, running_at, hk, List.count_cons]
  | some k =>
    cases hr : k.running with
    | false =>
      rw [delete_kernel_not_running env kernels i k stdin hk hr]
      simp only [running_at, hk, hr, Bool.false_eq_true, if_false]
      exact count_remove_kernel env i k _
    | true =>
      rw [delete_kernel_running env kernels i k stdin hk hr]
      simp only [running_at, hk, hr, if_true, List.count_append, count_confirm]
      have : (if affirmative stdin = true then remove_kernel env i k
          else [Event.skipping (i + 1) k.version]).count
            (Event.prompt Prompt.running_kernel) = 0 := by
        split
        · exact count_remove_kernel env i k _
        · simp [List.count_cons]
      rw [this]

/-- The running-kernel prompt is asked once for every flagged index whose
record is running, and never otherwise. -/
theorem delete_loop_prompts (env : Env) (kernels : List KernelInfo) (td : List Bool)
    (is : List Nat) : ∀ stdin : List Char,
    (delete_loop env kernels td is stdin).1.count (Event.prompt Prompt.running_kernel) =
      (is.filter (fun i => td.getD i false && running_at kernels i)).length := by
  induction is with
  | nil => intro stdin; simp [delete_loop]
  | cons i rest ih =>
    intro stdin
    simp only [delete_loop]
    by_cases hsel : td.getD i false = true
    · rw [if_pos hsel]
      simp only [List.count_append, count_delete_kernel, ih, List.filter_cons, hsel,
        Bool.true_and]
      split <;> (simp; try omega)
    · rw [if_neg hsel]
      have : td.getD i false = false := by simpa using hsel
      simp only [ih, List.filter_cons, this, Bool.false_and, Bool.false_eq_true, if_false]

theorem actions_announcement (kernels : List KernelInfo) (st : ParseState) :
    actions (announcement kernels st) = [] := by
  apply actions_eq_nil
  intro e he
  rcases announcement_events _ _ _ he with h | ⟨_, _, _, h⟩ | ⟨_, h⟩ | h | h <;> rw [h] <;>
    exact ⟨rfl, rfl⟩

/-- The destructive actions of a confirmed run of `execute_selection`: those of
the deletion loop, then the refresh when `delete_count` is positive. -/
theorem actions_execute_confirmed (env : Env) (kernels : List KernelInfo)
    (st : ParseState) (stdin : List Char) (hc : st.delete_count ≠ 0)
    (ha : affirmative stdin = true) :
    actions (execute_selection env kernels st stdin).1 =
      actions (delete_loop env kernels st.to_delete (List.range kernels.length)
        (confirm_deletion Prompt.proceed stdin).2.2).1 ++
      (if st.delete_count > 0 then [Action.refresh] else []) := by
  rw [execute_selection_confirmed env kernels st stdin hc ha]
  simp only [actions_append, actions_announcement, actions_confirm, List.nil_append]
  have hdone : actions [Event.deletion_completed] = [] := rfl
  have hnil : actions [] = [] := rfl
  split
  · rw [actions_update_grub, hdone, List.append_nil]
  · rw [hdone, hnil, List.append_nil]

theorem count_announcement (kernels : List KernelInfo) (st : ParseState) (p : Prompt) :
    (announcement kernels st).count (Event.prompt p) = 0 := by
  rw [List.count_eq_zero]
  intro he
  rcases announcement_events _ _ _ he with h | ⟨_, _, _, h⟩ | ⟨_, h⟩ | h | h <;> cases h

theorem count_update_grub (env : Env) (p : Prompt) :
    (update_grub env).count (Event.prompt p) = 0 := by
  rw [List.count_eq_zero]
  intro he
  have := (update_grub_events env _ he).2.2
  cases this

/-- C8: in a run of `delete_kernels` on a valid selection whose batch prompt is
answered affirmatively, the removal command is invoked for a selected record
exactly when the record is not running, or the answer read at its own
running-kernel prompt starts with `y` or `Y`; so a selected record that is not
running is removed whatever is answered to the running-kernel prompts.  Only
selected records are removed, and the running-kernel prompt is printed once
for each selected running record and for no other record. -/
theorem running_confirmation_skips_one (env : Env) (kernels : List KernelInfo)
    (sel stdin : List Char) (st : ParseState)
    (hroot : env.is_root = true) (hchars : first_invalid sel = none)
    (hparse : parse_selection kernels sel = Except.ok st) (hcount : st.delete_count ≠ 0)
    (hyes : affirmative stdin = true) :
    (∀ (i : Nat) (k : KernelInfo), kernels[i]? = some k → st.to_delete.getD i false = true →
      (Action.remove i ∈ actions (delete_kernels env kernels sel stdin).1 ↔
        (k.running = false ∨
          affirmative (input_at env kernels st.to_delete i
            (confirm_deletion Prompt.proceed stdin).2.2) = true))) ∧
    (∀ i : Nat, Action.remove i ∈ actions (delete_kernels env kernels sel stdin).1 →
      st.to_delete.getD i false = true) ∧
    (delete_kernels env kernels sel stdin).1.count (Event.prompt Prompt.running_kernel) =
      ((List.range kernels.length).filter
        (fun i => st.to_delete.getD i false && running_at kernels i)).length ∧
    (∀ (i : Nat) (k : KernelInfo) (input : List Char), kernels[i]? = some k →
      (delete_kernel env kernels i input).1.count (Event.prompt Prompt.running_kernel) =
        if k.running then 1 else 0) := by
  rw [delete_kernels_parsed env kernels sel stdin st hroot hchars hparse]
  have hmem : ∀ i : Nat,
      Action.remove i ∈ actions (execute_selection env kernels st stdin).1 ↔
      Action.remove i ∈ actions (delete_loop env kernels st.to_delete
        (List.range kernels.length) (confirm_deletion Prompt.proceed stdin).2.2).1 := by
    intro i
    rw [actions_execute_confirmed env kernels st stdin hcount hyes, List.mem_append]
    constructor
    · rintro (h | h)
      · exact h
      · split at h <;> simp at h
    · intro h; exact Or.inl h
  refine ⟨?_, ?_, ?_, ?_⟩
  · intro i k hk hsel
    have hi : i < kernels.length := by
      rcases Nat.lt_or_ge i kernels.length with h | h
      · exact h
      · rw [List.getElem?_eq_none h] at hk; cases hk
    rw [hmem i, delete_loop_removes env kernels st.to_delete _ i k hk kernels.length]
    unfold input_at
    constructor
    · rintro ⟨_, _, h⟩; exact h
    · intro h; exact ⟨hi, hsel, h⟩
  · intro i h
    exact (delete_loop_removes_flagged env kernels st.to_delete _ _ i ((hmem i).1 h)).1
  · rw [execute_selection_confirmed env kernels st stdin hcount hyes]
    simp only [List.count_append, count_announcement, count_confirm, delete_loop_prompts]
    have h1 : (if st.delete_count > 0 then update_grub env else []).count
        (Event.prompt Prompt.running_kernel) = 0 := by
      split
      · exact count_update_grub env _
      · rfl
    rw [h1]
    simp [List.count_cons]
  · intro i k input hk
    rw [count_delete_kernel]
    simp [running_at, hk]

theorem running_confirmation_skips_one_witness :
    (∀ (i : Nat) (k : KernelInfo), five_kernels[i]? = some k →
      (List.replicate 5 true ++ List.replicate 95 false).getD i false = true →
      (Action.remove i ∈
          actions (delete_kernels root_env five_kernels "1-5".toList "y\nn\n".toList).1 ↔
        (k.running = false ∨
          affirmative (input_at root_env five_kernels
            (List.replicate 5 true ++ List.replicate 95 false) i
            (confirm_deletion Prompt.proceed "y\nn\n".toList).2.2) = true))) ∧
    (∀ i : Nat,
      Action.remove i ∈
          actions (delete_kernels root_env five_kernels "1-5".toList "y\nn\n".toList).1 →
      (List.replicate 5 true ++ List.replicate 95 false).getD i false = true) ∧
    (delete_kernels root_env five_kernels "1-5".toList "y\nn\n".toList).1.count
        (Event.prompt Prompt.running_kernel) =
      ((List.range five_kernels.length).filter
        (fun i => (List.replicate 5 true ++ List.replicate 95 false).getD i false &&
          running_at five_kernels i)).length ∧
    (∀ (i : Nat) (k : KernelInfo) (input : List Char), five_kernels[i]? = some k →
      (delete_kernel root_env five_kernels i input).1.count
          (Event.prompt Prompt.running_kernel) =
        if k.running then 1 else 0) :=
  running_confirmation_skips_one root_env five_kernels "1-5".toList "y\nn\n".toList
    { to_delete := List.replicate 5 true ++ List.replicate 95 false
      delete_count := 5
      deleting_running := true
      remaining_count := 0 }
    rfl rfl rfl (by decide) rfl

/-- C9: in a run of `delete_kernels` on a valid selection that is confirmed and
selects no running kernel, the destructive actions are exactly one removal
invocation per selected record, in strictly ascending index order and
whatever the exit statuses of the removal command, followed by exactly one
call of `update_grub`. -/
theorem deletion_order_and_refresh (env : Env) (kernels : List KernelInfo)
    (sel stdin : List Char) (st : ParseState)
    (hroot : env.is_root = true) (hchars : first_invalid sel = none)
    (hparse : parse_selection kernels sel = Except.ok st) (hcount : st.delete_count ≠ 0)
    (hyes : affirmative stdin = true)
    (hnorun : ∀ (i : Nat) (k : KernelInfo), kernels[i]? = some k →
      st.to_delete.getD i false = true → k.running = false) :
    actions (delete_kernels env kernels sel stdin).1 =
      ((List.range kernels.length).filter (fun i => st.to_delete.getD i false)).map
        Action.remove ++ [Action.refresh] ∧
    List.Pairwise (fun a b => a < b)
      ((List.range kernels.length).filter (fun i => st.to_delete.getD i false)) := by
  constructor
  · rw [delete_kernels_parsed env kernels sel stdin st hroot hchars hparse,
      actions_execute_confirmed env kernels st stdin hcount hyes]
    have hpos : st.delete_count > 0 := by
      have := parse_selection_count_nonneg kernels sel st hparse
      omega
    rw [if_pos hpos]
    have h := delete_loop_no_running env kernels st.to_delete (List.range kernels.length)
      (by
        intro i hi hsel
        have hlt : i < kernels.length := List.mem_range.1 hi
        exact ⟨kernels[i], List.getElem?_eq_getElem hlt,
          hnorun i _ (List.getElem?_eq_getElem hlt) hsel⟩)
      (confirm_deletion Prompt.proceed stdin).2.2
    rw [h.1]
  · exact List.Pairwise.filter _ (List.pairwise_lt_range _)

theorem deletion_order_and_refresh_witness :
    actions (delete_kernels root_env five_kernels "2,4".toList "y\n".toList).1 =
      [Action.remove 1, Action.remove 3, Action.refresh] :=
  (deletion_order_and_refresh root_env five_kernels "2,4".toList "y\n".toList
    { to_delete := [false, true, false, true] ++ List.replicate 96 false
      delete_count := 2
      deleting_running := false
      remaining_count := 3 }
    rfl rfl rfl (by decide) rfl
    (by
      intro i k hk hsel
      match i, hk, hsel with
      | 0, _, hsel => simp at hsel
      | 1, hk, _ => simp [five_kernels, kernel] at hk; rw [← hk]
      | 2, _, hsel => simp at hsel
      | 3, hk, _ => simp [five_kernels, kernel] at hk; rw [← hk]
      | n + 4, hk, hsel =>
        have : (List.replicate 96 false).getD n false = false := getD_replicate_false 96 n
        simp only [List.cons_append, List.nil_append, List.getD_cons_succ] at hsel
        rw [this] at hsel
        cases hsel)).1

/-! ## The critical warning -/

theorem count_true_le (l : List Bool) :
    ∀ n : Nat, (∀ j, l.getD j false = true → j < n) → l.count true ≤ n := by
  induction l with
  | nil => intro n _; simp
  | cons x xs ih =>
    intro n h
    cases n with
    | zero =>
      have := h 0
      cases x with
      | true => simp at this
      | false =>
        have hxs := ih 0 (fun j hj => by have := h (j + 1) (by simpa using hj); omega)
        simp only [List.count_cons]
        simpa using hxs
    | succ n =>
      have hxs := ih n (fun j hj => by have := h (j + 1) (by simpa using hj); omega)
      simp only [List.count_cons]
      split <;> omega

/-- For an array whose set flags all lie below `n`, the number of set flags is
`n` exactly when all of the first `n` flags are set. -/
theorem count_true_eq_iff (l : List Bool) :
    ∀ n : Nat, (∀ j, l.getD j false = true → j < n) →
      (l.count true = n ↔ ∀ i, i < n → l.getD i false = true) := by
  induction l with
  | nil =>
    intro n _
    constructor
    · intro h i hi; simp at h; omega
    · intro h
      cases n with
      | zero => simp
      | succ n => have := h 0 (by omega); simp at this
  | cons x xs ih =>
    intro n h
    cases n with
    | zero =>
      have hle := count_true_le (x :: xs) 0 h
      constructor
      · intro _ i hi; omega
      · intro _; omega
    | succ n =>
      have hrest : ∀ j, xs.getD j false = true → j < n := fun j hj => by
        have := h (j + 1) (by simpa using hj); omega
      have hxs := ih n hrest
      have hle := count_true_le xs n hrest
      cases x with
      | true =>
        simp only [List.count_cons, beq_self_eq_true, if_true, Nat.add_right_cancel_iff]
        rw [hxs]
        constructor
        · intro hall i hi
          cases i with
          | zero => simp
          | succ i => simpa using hall i (by omega)
        · intro hall i hi
          simpa using hall (i + 1) (by omega)
      | false =>
        simp only [List.count_cons]
        constructor
        · intro hc; simp at hc; omega
        · intro hall
          have := hall 0 (by omega)
          simp at this

theorem confirm_deletion_head (p : Prompt) (stdin : List Char) :
    ∃ r, (confirm_deletion p stdin).2.1 = Event.prompt p :: r ∧
      ∀ e ∈ r, (∃ l, e = Event.read l) ∨ e = Event.read_error := by
  cases stdin with
  | nil =>
    exact ⟨[Event.read none, Event.read_error], by simp only [confirm_deletion, fgets],
      by simp⟩
  | cons c cs =>
    exact ⟨[Event.read (some (fgets_take (10 - 1) (c :: cs)).1)],
      by simp only [confirm_deletion, fgets], by simp⟩

/-- The trace of `execute_selection` when something is selected: the
announcement, the batch prompt, and behind it no warning. -/
theorem execute_selection_shape (env : Env) (kernels : List KernelInfo)
    (st : ParseState) (stdin : List Char) (hc : st.delete_count ≠ 0) :
    ∃ post, (execute_selection env kernels st stdin).1 =
        announcement kernels st ++ Event.prompt Prompt.proceed :: post ∧
      ∀ e ∈ post, e ≠ Event.warn_all ∧ e ≠ Event.warn_running := by
  obtain ⟨r, hr, hrest⟩ := confirm_deletion_head Prompt.proceed stdin
  have hr2 : ∀ e ∈ r, e ≠ Event.warn_all ∧ e ≠ Event.warn_running := by
    intro e he
    rcases hrest e he with ⟨_, h⟩ | h <;> rw [h] <;> exact ⟨by simp, by simp⟩
  cases ha : affirmative stdin with
  | false =>
    refine ⟨r ++ [Event.cancelled], ?_, ?_⟩
    · rw [execute_selection_declined env kernels st stdin hc ha, hr]
      simp
    · intro e he
      simp only [List.mem_append, List.mem_singleton] at he
      rcases he with he | he
      · exact hr2 e he
      · rw [he]; exact ⟨by simp, by simp⟩
  | true =>
    refine ⟨r ++ (delete_loop env kernels st.to_delete (List.range kernels.length)
        (confirm_deletion Prompt.proceed stdin).2.2).1 ++ [Event.deletion_completed] ++
        (if st.delete_count > 0 then update_grub env else []), ?_, ?_⟩
    · rw [execute_selection_confirmed env kernels st stdin hc ha, hr]
      simp
    · intro e he
      simp only [List.mem_append, List.mem_singleton] at he
      rcases he with ((he | he) | he) | he
      · exact hr2 e he
      · have := delete_loop_steps _ _ _ _ _ _ he
        constructor <;> (intro h; rw [h] at this; cases this)
      · rw [he]; exact ⟨by simp, by simp⟩
      · split at he
        · unfold update_grub at he
          split at he
          · simp only [List.mem_cons, List.mem_singleton, List.not_mem_nil, or_false] at he
            rcases he with h | h | h | h
            · rw [h]; exact ⟨by simp, by simp⟩
            · rw [h]; exact ⟨by simp, by simp⟩
            · rw [h]; exact ⟨by simp, by simp⟩
            · rw [h]; split <;> exact ⟨by simp, by simp⟩
          · simp only [List.mem_cons, List.mem_singleton, List.not_mem_nil, or_false] at he
            rcases he with h | h <;> rw [h] <;> exact ⟨by simp, by simp⟩
        · simp at he

theorem warn_all_mem_announcement (kernels : List KernelInfo) (st : ParseState) :
    Event.warn_all ∈ announcement kernels st ↔ st.remaining_count = 0 := by
  have hl : Event.warn_all ∉ selected_listing kernels st.to_delete (List.range kernels.length) := by
    intro h
    rcases selected_listing_events _ _ _ _ h with ⟨_, _, _, h⟩ | ⟨_, h⟩ <;> cases h
  simp only [announcement, List.cons_append, List.mem_cons, List.mem_append, hl, false_or]
  constructor
  · rintro (h | h | h)
    · cases h
    · split at h <;> simp at h
    · split at h
      · assumption
      · simp at h
  · intro h
    right; right
    rw [if_pos h]
    simp

theorem warn_running_mem_announcement (kernels : List KernelInfo) (st : ParseState) :
    Event.warn_running ∈ announcement kernels st ↔ st.deleting_running = true := by
  have hl : Event.warn_running ∉
      selected_listing kernels st.to_delete (List.range kernels.length) := by
    intro h
    rcases selected_listing_events _ _ _ _ h with ⟨_, _, _, h⟩ | ⟨_, h⟩ <;> cases h
  simp only [announcement, List.cons_append, List.mem_cons, List.mem_append, hl, false_or]
  constructor
  · rintro (h | h | h)
    · cases h
    · split at h
      · assumption
      · simp at h
    · split at h <;> simp at h
  · intro h
    right; left
    rw [if_pos h]
    simp

/-- C10: each step of the parsing loop keeps `remaining_count + delete_count`
equal to `kernel_count`.  So, in a run of `delete_kernels` as root on a valid
selection that selects at least one kernel of a table of at most 100 records,
the critical "This will delete ALL kernels" warning is printed exactly when
the number of flags set equals the number of records, that is, when every
record is selected; the warnings are printed before the batch prompt and not
behind it; and when every record is selected and one of the selected records
is running, both the running-kernel warning and the critical warning are
printed. -/
theorem critical_warning_iff_all (env : Env) (kernels : List KernelInfo)
    (sel stdin : List Char) (st : ParseState)
    (hN : kernels.length ≤ 100) (hroot : env.is_root = true)
    (hchars : first_invalid sel = none)
    (hparse : parse_selection kernels sel = Except.ok st) (hcount : st.delete_count ≠ 0) :
    (∀ (s : ParseState) (i : Nat),
      (mark kernels s i).remaining_count + (mark kernels s i).delete_count =
        s.remaining_count + s.delete_count) ∧
    st.remaining_count + st.delete_count = kernels.length ∧
    st.delete_count = st.to_delete.count true ∧
    (Event.warn_all ∈ (delete_kernels env kernels sel stdin).1 ↔
      st.to_delete.count true = kernels.length) ∧
    (st.to_delete.count true = kernels.length ↔
      ∀ i, i < kernels.length → st.to_delete.getD i false = true) ∧
    (∃ pre post, (delete_kernels env kernels sel stdin).1 =
        pre ++ Event.prompt Prompt.proceed :: post ∧
      (∀ e ∈ pre, e.is_prompt = false) ∧
      (∀ e ∈ post, e ≠ Event.warn_all ∧ e ≠ Event.warn_running) ∧
      (st.to_delete.count true = kernels.length → Event.warn_all ∈ pre) ∧
      (st.to_delete.count true = kernels.length →
        (∃ (i : Nat) (k : KernelInfo), st.to_delete.getD i false = true ∧
          kernels[i]? = some k ∧ k.running = true) →
        Event.warn_running ∈ pre ∧ Event.warn_all ∈ pre)) := by
  obtain ⟨inv, _⟩ := parse_selection_inv kernels hN sel st hparse
  obtain ⟨post, hshape, hpost⟩ := execute_selection_shape env kernels st stdin hcount
  have hrem : st.remaining_count = 0 ↔ st.to_delete.count true = kernels.length := by
    have h1 := inv.sum_eq
    have h2 := inv.count_eq
    constructor
    · intro h; omega
    · intro h; omega
  have hall : Event.warn_all ∈ (delete_kernels env kernels sel stdin).1 ↔
      st.to_delete.count true = kernels.length := by
    rw [delete_kernels_parsed env kernels sel stdin st hroot hchars hparse, hshape, ← hrem,
      ← warn_all_mem_announcement kernels st]
    simp only [List.mem_append, List.mem_cons]
    constructor
    · rintro (h | h | h)
      · exact h
      · cases h
      · exact absurd rfl (hpost _ h).1
    · intro h; exact Or.inl h
  refine ⟨?_, inv.sum_eq, inv.count_eq, hall, count_true_eq_iff _ _ inv.in_range, ?_⟩
  · intro s i
    unfold mark
    split
    · rfl
    · simp only; omega
  · refine ⟨announcement kernels st, post, ?_, ?_, hpost, ?_, ?_⟩
    · rw [delete_kernels_parsed env kernels sel stdin st hroot hchars hparse, hshape]
    · intro e he
      rcases announcement_events _ _ _ he with h | ⟨_, _, _, h⟩ | ⟨_, h⟩ | h | h <;> rw [h] <;> rfl
    · intro h
      exact (warn_all_mem_announcement kernels st).2 (hrem.2 h)
    · intro h hrun
      exact ⟨(warn_running_mem_announcement kernels st).2 (inv.running_iff.2 hrun),
        (warn_all_mem_announcement kernels st).2 (hrem.2 h)⟩

theorem critical_warning_iff_all_witness :
    Event.warn_all ∈ (delete_kernels root_env five_kernels "1-5".toList "n\n".toList).1 ↔
      (List.replicate 5 true ++ List.replicate 95 false).count true = five_kernels.length :=
  (critical_warning_iff_all root_env five_kernels "1-5".toList "n\n".toList
    { to_delete := List.replicate 5 true ++ List.replicate 95 false
      delete_count := 5
      deleting_running := true
      remaining_count := 0 }
    (by decide) rfl rfl rfl (by decide)).2.2.2.1

/-! ## Digits -/

theorem digit_ne (c d : Char) (hc : c.isDigit = true) (hd : d.isDigit = false) : c ≠ d := by
  intro h
  rw [h, hd] at hc
  cases hc

theorem digit_not_space (c : Char) (hc : c.isDigit = true) : isspace c = false := by
  have h1 := digit_ne c ' ' hc rfl
  have h2 := digit_ne c '\t' hc rfl
  have h3 := digit_ne c '\n' hc rfl
  have h4 := digit_ne c '\x0b' hc rfl
  have h5 := digit_ne c '\x0c' hc rfl
  have h6 := digit_ne c '\r' hc rfl
  simp [isspace, h1, h2, h3, h4, h5, h6]

theorem digits_value_eq (s : List Char) (h : ∀ c ∈ s, c.isDigit = true) :
    ∀ acc : Nat, digits_value s acc = s.foldl (fun v c => 10 * v + (c.toNat - 48)) acc := by
  induction s with
  | nil => intro acc; rfl
  | cons c cs ih =>
    intro acc
    have hc := h c (List.mem_cons_self _ _)
    simp only [digits_value, hc, if_true, List.foldl_cons]
    rw [ih (fun x hx => h x (List.mem_cons_of_mem _ hx)), Nat.mul_comm]

theorem strip_sign_digit (c : Char) (cs : List Char) (hc : c.isDigit = true) :
    strip_sign (c :: cs) = (false, c :: cs) := by
  have h1 := digit_ne c '-' hc rfl
  have h2 := digit_ne c '+' hc rfl
  unfold strip_sign
  split
  · rename_i heq; simp only [List.cons.injEq] at heq; exact absurd heq.1 h1
  · rename_i heq; simp only [List.cons.injEq] at heq; exact absurd heq.1 h2
  · rfl

theorem long_to_int_small (v : Nat) (hv : v < 2 ^ 31) : long_to_int (v : Int) = v := by
  unfold long_to_int
  have h : ((v : Int) + 2 ^ 31) % 2 ^ 32 = (v : Int) + 2 ^ 31 := by
    apply Int.emod_eq_of_lt <;> omega
  rw [h]
  omega

/-- On a numeral with a value below `2 ^ 31`, `atoi` returns the decimal
value. -/
theorem atoi_numeral (s : List Char) (hs : is_numeral s) (hv : numeral_value s < 2 ^ 31) :
    atoi s = numeral_value s := by
  obtain ⟨hne, hdig⟩ := hs
  cases s with
  | nil => exact absurd rfl hne
  | cons c cs =>
    have hc := hdig c (List.mem_cons_self _ _)
    have hdrop : (c :: cs).dropWhile isspace = c :: cs := by
      simp [List.dropWhile, digit_not_space c hc]
    have hval : digits_value (c :: cs) 0 = numeral_value (c :: cs) :=
      digits_value_eq _ hdig 0
    unfold atoi strtol
    simp only [hdrop, strip_sign_digit c cs hc, hval, Bool.false_eq_true, if_false]
    have hmin : min ((numeral_value (c :: cs) : Nat) : Int) LONG_MAX = numeral_value (c :: cs) := by
      apply min_eq_left
      unfold LONG_MAX
      omega
    rw [hmin]
    exact long_to_int_small _ hv

theorem split_hyphen_numeral (s : List Char) (h : ∀ c ∈ s, c.isDigit = true) :
    split_hyphen s = none := by
  induction s with
  | nil => rfl
  | cons c cs ih =>
    have hc := digit_ne c '-' (h c (List.mem_cons_self _ _)) rfl
    simp only [split_hyphen, hc, if_false, ih (fun x hx => h x (List.mem_cons_of_mem _ hx))]

theorem split_hyphen_range (a b : List Char) (h : ∀ c ∈ a, c.isDigit = true) :
    split_hyphen (a ++ '-' :: b) = some (a, b) := by
  induction a with
  | nil => simp [split_hyphen]
  | cons c cs ih =>
    have hc := digit_ne c '-' (h c (List.mem_cons_self _ _)) rfl
    rw [List.cons_append]
    simp only [split_hyphen, hc, if_false]
    rw [ih (fun x hx => h x (List.mem_cons_of_mem _ hx))]

/-! ## Tokens of an expression -/

theorem comma_fields_ne_nil (s : List Char) : comma_fields s ≠ [] := by
  cases s with
  | nil => simp [comma_fields]
  | cons c cs =>
    simp only [comma_fields]
    split
    · simp
    · split <;> simp

theorem comma_fields_single (t : List Char) (h : ∀ c ∈ t, c ≠ ',') : comma_fields t = [t] := by
  induction t with
  | nil => rfl
  | cons c cs ih =>
    have hc := h c (List.mem_cons_self _ _)
    simp only [comma_fields, hc, if_false, ih (fun x hx => h x (List.mem_cons_of_mem _ hx))]

theorem comma_fields_append (t rest : List Char) (h : ∀ c ∈ t, c ≠ ',') :
    comma_fields (t ++ ',' :: rest) = t :: comma_fields rest := by
  induction t with
  | nil => simp [comma_fields]
  | cons c cs ih =>
    have hc := h c (List.mem_cons_self _ _)
    rw [List.cons_append]
    simp only [comma_fields, hc, if_false]
    rw [ih (fun x hx => h x (List.mem_cons_of_mem _ hx))]

theorem Token.text_no_comma (t : Token) (h : t.well_formed) : ∀ c ∈ t.text, c ≠ ',' := by
  intro c hc
  cases t with
  | index n =>
    exact digit_ne c ',' (h.1.2 c hc) rfl
  | range a b =>
    simp only [Token.text, List.mem_append, List.mem_cons] at hc
    rcases hc with hc | hc | hc
    · exact digit_ne c ',' (h.1.2 c hc) rfl
    · rw [hc]; decide
    · exact digit_ne c ',' (h.2.2.1.2 c hc) rfl

theorem Token.text_ne_nil (t : Token) (h : t.well_formed) : t.text ≠ [] := by
  cases t with
  | index n => exact h.1.1
  | range a b => simp [Token.text]

/-- The calls of `strtok` on the text of an expression return the texts of its
tokens, in order. -/
theorem strtok_tokens_expression (ts : List Token) (h : ∀ t ∈ ts, t.well_formed) :
    strtok_tokens (expression ts) = ts.map Token.text := by
  have hfields : ∀ (ts : List Token), ts ≠ [] → (∀ t ∈ ts, t.well_formed) →
      comma_fields (expression ts) = ts.map Token.text := by
    intro ts
    induction ts with
    | nil => intro hne; exact absurd rfl hne
    | cons t rest ih =>
      intro _ hall
      have ht := hall t (List.mem_cons_self _ _)
      cases rest with
      | nil =>
        simp only [expression, List.map_cons, List.map_nil]
        exact comma_fields_single _ (Token.text_no_comma t ht)
      | cons t2 rest2 =>
        simp only [expression, List.map_cons]
        rw [comma_fields_append _ _ (Token.text_no_comma t ht),
          ih (by simp) (fun x hx => hall x (List.mem_cons_of_mem _ hx))]
        simp
  cases ts with
  | nil => rfl
  | cons t rest =>
    unfold strtok_tokens
    rw [hfields (t :: rest) (by simp) h, List.filter_eq_self]
    intro x hx
    obtain ⟨t1, ht1, hx1⟩ := List.mem_map.1 hx
    have := Token.text_ne_nil t1 (h t1 ht1)
    rw [hx1] at this
    cases x with
    | nil => exact absurd rfl this
    | cons _ _ => rfl

/-! ## `strtok_tokens` against single calls of `strtok` -/

theorem comma_fields_split (s : List Char) :
    comma_fields s =
      s.takeWhile (fun d => d != ',') ::
        (match s.dropWhile (fun d => d != ',') with
          | [] => []
          | _ :: r => comma_fields r) := by
  induction s with
  | nil => rfl
  | cons c cs ih =>
    by_cases hc : c = ','
    · subst hc
      simp [comma_fields, List.takeWhile, List.dropWhile]
    · have hb : (c != ',') = true := by simpa using hc
      simp only [comma_fields, hc, if_false, List.takeWhile_cons, List.dropWhile_cons, hb,
        if_true]
      rw [ih]

/-- The token list is what the `while (token != NULL)` loop sees: a call of
`strtok` that returns `NULL` ends it, and a call that returns a token leaves
the tokens of the remaining text. -/
theorem strtok_tokens_step (s : List Char) :
    strtok_tokens s =
      match strtok s with
      | none => []
      | some (token, rest) => token :: strtok_tokens rest := by
  induction s with
  | nil => rfl
  | cons c cs ih =>
    by_cases hc : c = ','
    · subst hc
      have h1 : strtok_tokens (',' :: cs) = strtok_tokens cs := by
        simp [strtok_tokens, comma_fields]
      have h2 : strtok (',' :: cs) = strtok cs := by
        simp [strtok, List.dropWhile]
      rw [h1, h2, ih]
    · have hb : (c == ',') = false := by simpa using hc
      have hn : (c != ',') = true := by simpa using hc
      have h2 : strtok (c :: cs) =
          some (c :: cs.takeWhile (fun d => d != ','),
            (cs.dropWhile (fun d => d != ',')).drop 1) := by
        simp [strtok, List.dropWhile, List.takeWhile, hb, hn]
      rw [h2]
      simp only
      unfold strtok_tokens
      rw [comma_fields_split (c :: cs)]
      simp only [List.takeWhile_cons, List.dropWhile_cons, hn, if_true]
      rw [List.filter_cons]
      simp only [List.isEmpty_cons, Bool.not_false, if_true, List.cons.injEq, true_and]
      cases hd : cs.dropWhile (fun d => d != ',') with
      | nil => simp [comma_fields]
      | cons x r => simp

/-! ## Tokens that pass validation -/

theorem process_token_index (kernels : List KernelInfo) (st : ParseState) (n : List Char)
    (hn : is_numeral n) (hv : numeral_value n < 2 ^ 31) (h1 : 1 ≤ numeral_value n)
    (h2 : numeral_value n ≤ kernels.length) :
    process_token kernels st n = Except.ok (mark kernels st (numeral_value n - 1)) := by
  unfold process_token
  rw [split_hyphen_numeral n hn.2]
  simp only [atoi_numeral n hn hv]
  rw [if_neg (by omega)]
  simp

theorem process_token_range (kernels : List KernelInfo) (st : ParseState) (a b : List Char)
    (ha : is_numeral a) (hva : numeral_value a < 2 ^ 31)
    (hb : is_numeral b) (hvb : numeral_value b < 2 ^ 31)
    (h1 : 1 ≤ numeral_value a) (h2 : numeral_value a ≤ numeral_value b)
    (h3 : numeral_value b ≤ kernels.length) :
    process_token kernels st (a ++ '-' :: b) =
      Except.ok ((List.range' (numeral_value a)
        (numeral_value b + 1 - numeral_value a)).foldl
          (fun s i => mark kernels s (i - 1)) st) := by
  unfold process_token
  rw [split_hyphen_range a b ha.2]
  simp only [atoi_numeral a ha hva, atoi_numeral b hb hvb]
  rw [if_neg (by omega)]
  simp

theorem process_token_valid (kernels : List KernelInfo) (st : ParseState) (t : Token)
    (hwf : t.well_formed) (hvalid : t.valid kernels.length) :
    ∃ st1, process_token kernels st t.text = Except.ok st1 := by
  cases t with
  | index n =>
    exact ⟨_, process_token_index kernels st n hwf.1 hwf.2 hvalid.1 hvalid.2⟩
  | range a b =>
    exact ⟨_, process_token_range kernels st a b hwf.1 hwf.2.1 hwf.2.2.1 hwf.2.2.2
      hvalid.1 hvalid.2.1 hvalid.2.2⟩

theorem parse_tokens_valid (kernels : List KernelInfo) (ts : List Token)
    (hwf : ∀ t ∈ ts, t.well_formed) (hvalid : ∀ t ∈ ts, t.valid kernels.length) :
    ∀ st : ParseState, ∃ st1, parse_tokens kernels (ts.map Token.text) st = Except.ok st1 := by
  induction ts with
  | nil => intro st; exact ⟨st, rfl⟩
  | cons t rest ih =>
    intro st
    obtain ⟨st1, h1⟩ := process_token_valid kernels st t (hwf t (List.mem_cons_self _ _))
      (hvalid t (List.mem_cons_self _ _))
    obtain ⟨st2, h2⟩ := ih (fun x hx => hwf x (List.mem_cons_of_mem _ hx))
      (fun x hx => hvalid x (List.mem_cons_of_mem _ hx)) st1
    refine ⟨st2, ?_⟩
    simp only [List.map_cons, parse_tokens, h1]
    exact h2

/-- The indices marked for a valid token are those of the kernel numbers it
names. -/
theorem token_indices_names (N : Nat) (t : Token) (hwf : t.well_formed)
    (hvalid : t.valid N) (j : Nat) :
    j ∈ token_indices t.text ↔ t.names (j + 1) := by
  cases t with
  | index n =>
    have h1 := hvalid.1
    simp only [token_indices, Token.text, split_hyphen_numeral n hwf.1.2,
      atoi_numeral n hwf.1 hwf.2, Token.names, List.mem_singleton, Int.toNat_ofNat]
    omega
  | range a b =>
    have h1 := hvalid.1
    have h2 := hvalid.2.1
    simp only [token_indices, Token.text, split_hyphen_range a b hwf.1.2,
      atoi_numeral a hwf.1 hwf.2.1, atoi_numeral b hwf.2.2.1 hwf.2.2.2, Token.names,
      List.mem_map, List.mem_range'_1, Int.toNat_ofNat]
    constructor
    · rintro ⟨x, ⟨hx1, hx2⟩, hx3⟩
      omega
    · rintro ⟨hj1, hj2⟩
      exact ⟨j + 1, ⟨hj1, by omega⟩, by omega⟩

/-- The parse of a grammar-conforming, valid expression succeeds, and sets
exactly the flags of the kernel numbers its tokens name. -/
theorem parse_expression (kernels : List KernelInfo) (ts : List Token)
    (hN : kernels.length ≤ MAX_KERNELS)
    (hwf : ∀ t ∈ ts, t.well_formed) (hvalid : ∀ t ∈ ts, t.valid kernels.length) :
    ∃ st, parse_selection kernels (expression ts) = Except.ok st ∧
      ParseInv kernels st ∧
      ∀ i, st.to_delete.getD i false = true ↔ ∃ t ∈ ts, t.names (i + 1) := by
  obtain ⟨st, hst⟩ := parse_tokens_valid kernels ts hwf hvalid (initial_state kernels)
  have hparse : parse_selection kernels (expression ts) = Except.ok st := by
    unfold parse_selection
    rw [strtok_tokens_expression ts hwf]
    exact hst
  obtain ⟨inv, hfl⟩ := parse_selection_inv kernels hN _ st hparse
  refine ⟨st, hparse, inv, ?_⟩
  intro i
  rw [hfl i, strtok_tokens_expression ts hwf]
  simp only [List.mem_flatMap, List.mem_map]
  constructor
  · rintro ⟨x, ⟨t, ht, rfl⟩, hx⟩
    exact ⟨t, ht, (token_indices_names _ t (hwf t ht) (hvalid t ht) i).1 hx⟩
  · rintro ⟨t, ht, hn⟩
    exact ⟨t.text, ⟨t, ht, rfl⟩, (token_indices_names _ t (hwf t ht) (hvalid t ht) i).2 hn⟩

theorem numeral_one : is_numeral ['1'] ∧ numeral_value ['1'] = 1 :=
  ⟨⟨by simp, by simp [Char.isDigit]⟩, rfl⟩

theorem numeral_two : is_numeral ['2'] ∧ numeral_value ['2'] = 2 :=
  ⟨⟨by simp, by simp [Char.isDigit]⟩, rfl⟩

/-- On a table of 2 to 100 kernels the selections `1,1,2` and `1-2` end the
parsing loop in the same state, with two kernels counted. -/
theorem parse_repeated_eq_range (kernels : List KernelInfo) (h2 : 2 ≤ kernels.length) :
    parse_selection kernels "1,1,2".toList = parse_selection kernels "1-2".toList ∧
    ∃ st, parse_selection kernels "1-2".toList = Except.ok st ∧ st.delete_count = 2 ∧
      st.to_delete = true :: true :: List.replicate 98 false := by
  have hi1 : ∀ st, process_token kernels st ['1'] = Except.ok (mark kernels st 0) := by
    intro st
    have := process_token_index kernels st ['1'] numeral_one.1
      (by rw [numeral_one.2]; decide) (by rw [numeral_one.2]) (by rw [numeral_one.2]; omega)
    rw [this, numeral_one.2]
  have hi2 : ∀ st, process_token kernels st ['2'] = Except.ok (mark kernels st 1) := by
    intro st
    have := process_token_index kernels st ['2'] numeral_two.1
      (by rw [numeral_two.2]; decide) (by rw [numeral_two.2]; decide)
      (by rw [numeral_two.2]; omega)
    rw [this, numeral_two.2]
  have hr : ∀ st, process_token kernels st ['1', '-', '2'] =
      Except.ok (mark kernels (mark kernels st 0) 1) := by
    intro st
    have := process_token_range kernels st ['1'] ['2'] numeral_one.1
      (by rw [numeral_one.2]; decide) numeral_two.1 (by rw [numeral_two.2]; decide)
      (by rw [numeral_one.2]) (by rw [numeral_one.2, numeral_two.2]; decide)
      (by rw [numeral_two.2]; omega)
    rw [numeral_one.2, numeral_two.2] at this
    exact this
  have hinit0 : (initial_state kernels).to_delete.getD 0 false = false := rfl
  have hm0 := mark_of_unset kernels (initial_state kernels) 0 hinit0
  have hset0 : (mark kernels (initial_state kernels) 0).to_delete.getD 0 false = true := by
    rw [hm0]; rfl
  have hunset1 : (mark kernels (initial_state kernels) 0).to_delete.getD 1 false = false := by
    rw [hm0]; rfl
  have hm1 := mark_of_unset kernels (mark kernels (initial_state kernels) 0) 1 hunset1
  have hleft : parse_selection kernels "1,1,2".toList =
      Except.ok (mark kernels (mark kernels (initial_state kernels) 0) 1) := by
    have htok : strtok_tokens "1,1,2".toList = [['1'], ['1'], ['2']] := by decide
    unfold parse_selection
    rw [htok]
    simp only [parse_tokens, hi1, hi2]
    rw [mark_of_set kernels _ 0 hset0]
  have hright : parse_selection kernels "1-2".toList =
      Except.ok (mark kernels (mark kernels (initial_state kernels) 0) 1) := by
    have htok : strtok_tokens "1-2".toList = [['1', '-', '2']] := by decide
    unfold parse_selection
    rw [htok]
    simp only [parse_tokens, hr]
  refine ⟨by rw [hleft, hright], _, hright, ?_, ?_⟩
  · rw [hm1, hm0]; rfl
  · rw [hm1, hm0]; rfl

/-- C1: for a collection of at most 100 kernels and a selection expression
that conforms to the grammar, with numerals below `2 ^ 31`, bare indices in
`[1, N]` and ranges with `1 <= start <= end <= N`, the parsing loop of
`delete_kernels` reports no error and sets `to_delete[i]` exactly for the
indices `i` such that `i + 1` is named by some token; every flag set is that
of a record, and `delete_count` is the number of flags set, so that repeated
and overlapping tokens are counted once.  The selections `1,1,2` and `1-2`
give the same flags and the count 2 when there are at least two kernels. -/
theorem selection_parse_correct (kernels : List KernelInfo) (ts : List Token) :
    (kernels.length ≤ 100 → ts ≠ [] → (∀ t ∈ ts, t.well_formed) →
      (∀ t ∈ ts, t.valid kernels.length) →
      ∃ st, parse_selection kernels (expression ts) = Except.ok st ∧
        (∀ i, st.to_delete.getD i false = true ↔ ∃ t ∈ ts, t.names (i + 1)) ∧
        (∀ i, st.to_delete.getD i false = true → i < kernels.length) ∧
        st.delete_count = st.to_delete.count true) ∧
    (2 ≤ kernels.length →
      parse_selection kernels "1,1,2".toList = parse_selection kernels "1-2".toList ∧
      ∃ st, parse_selection kernels "1-2".toList = Except.ok st ∧ st.delete_count = 2 ∧
        st.to_delete = true :: true :: List.replicate 98 false) := by
  constructor
  · intro hN _ hwf hvalid
    obtain ⟨st, h1, inv, h2⟩ := parse_expression kernels ts hN hwf hvalid
    exact ⟨st, h1, h2, inv.in_range, inv.count_eq⟩
  · intro h2
    exact parse_repeated_eq_range kernels h2

theorem selection_parse_correct_witness :
    ∃ st, parse_selection five_kernels
        (expression [Token.index ['2'], Token.range ['1'] ['2']]) = Except.ok st ∧
      (∀ i, st.to_delete.getD i false = true ↔
        ∃ t ∈ [Token.index ['2'], Token.range ['1'] ['2']], t.names (i + 1)) ∧
      (∀ i, st.to_delete.getD i false = true → i < five_kernels.length) ∧
      st.delete_count = st.to_delete.count true :=
  (selection_parse_correct five_kernels [Token.index ['2'], Token.range ['1'] ['2']]).1
    (by decide) (by simp)
    (by
      intro t ht
      simp only [List.mem_cons, List.mem_singleton, List.not_mem_nil, or_false] at ht
      rcases ht with ht | ht
      · rw [ht]
        exact ⟨numeral_two.1, by rw [numeral_two.2]; decide⟩
      · rw [ht]
        exact ⟨numeral_one.1, by rw [numeral_one.2]; decide, numeral_two.1,
          by rw [numeral_two.2]; decide⟩)
    (by
      intro t ht
      simp only [List.mem_cons, List.mem_singleton, List.not_mem_nil, or_false] at ht
      rcases ht with ht | ht
      · rw [ht]
        exact ⟨by rw [numeral_two.2]; decide, by rw [numeral_two.2]; decide⟩
      · rw [ht]
        exact ⟨by rw [numeral_one.2], by rw [numeral_one.2, numeral_two.2]; decide,
          by rw [numeral_two.2]; decide⟩)

theorem process_token_invalid (kernels : List KernelInfo) (st : ParseState) (t : Token)
    (hwf : t.well_formed) (hbad : t.invalid kernels.length) :
    ∃ e, process_token kernels st t.text = Except.error e := by
  cases t with
  | index n =>
    refine ⟨ParseError.invalid_number n, ?_⟩
    have hb : numeral_value n < 1 ∨ kernels.length < numeral_value n := hbad
    simp only [Token.text]
    unfold process_token
    rw [split_hyphen_numeral n hwf.1.2]
    simp only [atoi_numeral n hwf.1 hwf.2]
    rw [if_pos (by omega)]
  | range a b =>
    refine ⟨ParseError.invalid_range a b, ?_⟩
    have hb : numeral_value a < 1 ∨ kernels.length < numeral_value b ∨
        numeral_value b < numeral_value a := hbad
    simp only [Token.text]
    unfold process_token
    rw [split_hyphen_range a b hwf.1.2]
    simp only [atoi_numeral a hwf.1 hwf.2.1, atoi_numeral b hwf.2.2.1 hwf.2.2.2]
    rw [if_pos (by omega)]

theorem parse_tokens_invalid (kernels : List KernelInfo) (t : Token)
    (hwf : t.well_formed) (hbad : t.invalid kernels.length) (tokens : List (List Char))
    (hmem : t.text ∈ tokens) :
    ∀ st : ParseState, ∃ e, parse_tokens kernels tokens st = Except.error e := by
  induction tokens with
  | nil => simp at hmem
  | cons x rest ih =>
    intro st
    simp only [parse_tokens]
    cases hp : process_token kernels st x with
    | error e => exact ⟨e, rfl⟩
    | ok st1 =>
      rcases List.mem_cons.1 hmem with h | h
      · obtain ⟨e, he⟩ := process_token_invalid kernels st t hwf hbad
        rw [h, hp] at he
        cases he
      · exact ih h st1

/-- As long as no numeral reaches `2 ^ 31`, a selection of digits, commas and
hyphens with a token that breaks the validation rules is rejected: run as
root, `delete_kernels` prints one validation error and nothing else. -/
theorem invalid_token_rejected (env : Env) (kernels : List KernelInfo)
    (sel stdin : List Char) (t : Token) (hroot : env.is_root = true)
    (hchars : first_invalid sel = none) (hwf : t.well_formed)
    (hbad : t.invalid kernels.length) (hmem : t.text ∈ strtok_tokens sel) :
    ∃ e, parse_selection kernels sel = Except.error e ∧
      delete_kernels env kernels sel stdin = ([e.event], stdin) := by
  obtain ⟨e, he⟩ := parse_tokens_invalid kernels t hwf hbad _ hmem (initial_state kernels)
  exact ⟨e, he, delete_kernels_parse_error env kernels sel stdin e hroot hchars he⟩

/-- C2, at the failing input: on a table of one kernel the selection
`4294967297` is a bare numeral with a value outside `[1, 1]`, yet `atoi` turns
it into `1`; run as root with the batch prompt confirmed, `delete_kernels`
reports no validation error, selects kernel 1 and removes it. -/
theorem overflowing_numeral_accepted :
    (∀ c ∈ "4294967297".toList, c.isDigit = true) ∧
    numeral_value "4294967297".toList = 4294967297 ∧
    atoi "4294967297".toList = 1 ∧
    parse_selection [kernel "6.1.0" false] "4294967297".toList =
      Except.ok
        { to_delete := true :: List.replicate 99 false
          delete_count := 1
          deleting_running := false
          remaining_count := 0 } ∧
    (delete_kernels root_env [kernel "6.1.0" false] "4294967297".toList "y\n".toList).1 =
      [Event.selected_header, Event.selected_entry 1 "6.1.0" false, Event.warn_all,
        Event.prompt Prompt.proceed, Event.read (some "y\n".toList),
        Event.deleting 1 "6.1.0", Event.rm 0 "6.1.0", Event.rm_succeeded "6.1.0",
        Event.deletion_completed, Event.which_update_grub, Event.grub_updating,
        Event.run_update_grub, Event.grub_updated] := by
  refine ⟨by decide, by decide, by decide, by rfl, by rfl⟩

/-! ## The running-kernel warning -/

theorem getD_true_mem (l : List Bool) (j : Nat) (h : l.getD j false = true) : true ∈ l := by
  induction l generalizing j with
  | nil => simp at h
  | cons x xs ih =>
    cases j with
    | zero =>
      simp only [List.getD_cons_zero] at h
      rw [h]; exact List.mem_cons_self _ _
    | succ j =>
      simp only [List.getD_cons_succ] at h
      exact List.mem_cons_of_mem _ (ih j h)

/-- C11: after the parsing loop of `delete_kernels` on a valid selection, for
a table of at most 100 records, `deleting_running` is set exactly when some
flagged record is running.  So, in a run as root, the "This includes your
RUNNING kernel" warning is printed exactly when a running record is selected,
whatever the place and the form of the token that names it, and when it is
printed it comes before the batch prompt and not behind it. -/
theorem running_warning_iff_selected (env : Env) (kernels : List KernelInfo)
    (sel stdin : List Char) (st : ParseState)
    (hN : kernels.length ≤ 100) (hroot : env.is_root = true)
    (hchars : first_invalid sel = none)
    (hparse : parse_selection kernels sel = Except.ok st) :
    (st.deleting_running = true ↔
      ∃ (i : Nat) (k : KernelInfo), st.to_delete.getD i false = true ∧
        kernels[i]? = some k ∧ k.running = true) ∧
    (Event.warn_running ∈ (delete_kernels env kernels sel stdin).1 ↔
      ∃ (i : Nat) (k : KernelInfo), st.to_delete.getD i false = true ∧
        kernels[i]? = some k ∧ k.running = true) ∧
    (st.delete_count ≠ 0 →
      ∃ pre post, (delete_kernels env kernels sel stdin).1 =
          pre ++ Event.prompt Prompt.proceed :: post ∧
        (∀ e ∈ pre, e.is_prompt = false) ∧
        (∀ e ∈ post, e ≠ Event.warn_running) ∧
        (Event.warn_running ∈ pre ↔
          ∃ (i : Nat) (k : KernelInfo), st.to_delete.getD i false = true ∧
            kernels[i]? = some k ∧ k.running = true)) := by
  obtain ⟨inv, _⟩ := parse_selection_inv kernels hN sel st hparse
  have hshape : st.delete_count ≠ 0 →
      ∃ post, (delete_kernels env kernels sel stdin).1 =
          announcement kernels st ++ Event.prompt Prompt.proceed :: post ∧
        ∀ e ∈ post, e ≠ Event.warn_all ∧ e ≠ Event.warn_running := by
    intro hcount
    rw [delete_kernels_parsed env kernels sel stdin st hroot hchars hparse]
    exact execute_selection_shape env kernels st stdin hcount
  refine ⟨inv.running_iff, ?_, ?_⟩
  · rw [← inv.running_iff]
    by_cases hcount : st.delete_count = 0
    · have hnone : (delete_kernels env kernels sel stdin).1 = [Event.none_selected] := by
        rw [delete_kernels_parsed env kernels sel stdin st hroot hchars hparse]
        simp [execute_selection, hcount]
      rw [hnone]
      constructor
      · intro h; simp at h
      · intro h
        obtain ⟨i, k, hi, _, _⟩ := inv.running_iff.1 h
        have hmem := getD_true_mem _ _ hi
        have hzero : st.to_delete.count true = 0 := by
          have := inv.count_eq
          omega
        rw [List.count_eq_zero] at hzero
        exact absurd hmem hzero
    · obtain ⟨post, hs, hpost⟩ := hshape hcount
      rw [hs, ← warn_running_mem_announcement kernels st]
      simp only [List.mem_append, List.mem_cons]
      constructor
      · rintro (h | h | h)
        · exact h
        · cases h
        · exact absurd rfl (hpost _ h).2
      · intro h; exact Or.inl h
  · intro hcount
    obtain ⟨post, hs, hpost⟩ := hshape hcount
    refine ⟨announcement kernels st, post, hs, ?_, fun e he => (hpost e he).2, ?_⟩
    · intro e he
      rcases announcement_events _ _ _ he with h | ⟨_, _, _, h⟩ | ⟨_, h⟩ | h | h <;> rw [h] <;> rfl
    · rw [warn_running_mem_announcement kernels st]
      exact inv.running_iff

theorem running_warning_iff_selected_witness :
    Event.warn_running ∈
        (delete_kernels root_env five_kernels "1,2-3".toList "n\n".toList).1 ↔
      ∃ (i : Nat) (k : KernelInfo),
        (List.replicate 3 true ++ List.replicate 97 false).getD i false = true ∧
          five_kernels[i]? = some k ∧ k.running = true :=
  (running_warning_iff_selected root_env five_kernels "1,2-3".toList "n\n".toList
    { to_delete := List.replicate 3 true ++ List.replicate 97 false
      delete_count := 3
      deleting_running := true
      remaining_count := 2 }
    (by decide) rfl rfl rfl).2.1

/-! ## The refresh behind a confirmed batch -/

theorem mem_actions_delete_loop (env : Env) (kernels : List KernelInfo) (td : List Bool)
    (is : List Nat) (stdin : List Char) (a : Action)
    (h : a ∈ actions (delete_loop env kernels td is stdin).1) : ∃ i, a = Action.remove i := by
  generalize hl : (delete_loop env kernels td is stdin).1 = l at h
  have hsteps : ∀ e ∈ l, e.is_deletion_step = true := by
    intro e he
    rw [← hl] at he
    exact delete_loop_steps _ _ _ _ _ _ he
  clear hl
  induction l with
  | nil => simp [actions] at h
  | cons e rest ih =>
    have he := hsteps e (List.mem_cons_self _ _)
    have hrest := fun x hx => hsteps x (List.mem_cons_of_mem _ hx)
    cases e <;> simp [actions, Event.is_deletion_step] at he h <;>
      first
        | exact ih h hrest
        | (rcases h with h | h
           · exact ⟨_, h⟩
           · exact ih h hrest)

/-- A trace of `delete_kernels` with the batch prompt in it comes from a run
as root on a selection that parsed and counted at least one kernel. -/
theorem batch_prompt_reached (env : Env) (kernels : List KernelInfo)
    (sel stdin : List Char)
    (h : Event.prompt Prompt.proceed ∈ (delete_kernels env kernels sel stdin).1) :
    env.is_root = true ∧ first_invalid sel = none ∧
      ∃ st, parse_selection kernels sel = Except.ok st ∧ st.delete_count ≠ 0 := by
  cases hroot : env.is_root with
  | false =>
    rw [delete_kernels_not_root _ _ _ _ hroot] at h
    simp at h
  | true =>
    cases hc : first_invalid sel with
    | some c =>
      rw [delete_kernels_invalid_char _ _ _ _ c hroot hc] at h
      simp at h
    | none =>
      cases hp : parse_selection kernels sel with
      | error err =>
        rw [delete_kernels_parse_error _ _ _ _ err hroot hc hp] at h
        cases err <;> simp [ParseError.event] at h
      | ok st =>
        refine ⟨rfl, rfl, st, rfl, ?_⟩
        intro hcount
        rw [delete_kernels_parsed _ _ _ _ st hroot hc hp] at h
        simp [execute_selection, hcount] at h

/-- C20: when the guard `delete_count > 0` before `update_grub` is reached,
it holds.  So in every run of `delete_kernels` whose batch prompt is answered
affirmatively, `update_grub` is called exactly once, behind all removal
invocations, whatever the exit statuses of the removal command and whatever
is answered to the running-kernel prompts; with the running kernel as the
only selected record and its own prompt declined, there is no removal
invocation and still one call of `update_grub`. -/
theorem refresh_after_confirmed_batch (env : Env) (kernels : List KernelInfo)
    (sel stdin : List Char) :
    (Event.prompt Prompt.proceed ∈ (delete_kernels env kernels sel stdin).1 →
      affirmative stdin = true →
      (∃ st, parse_selection kernels sel = Except.ok st ∧ st.delete_count > 0) ∧
      (actions (delete_kernels env kernels sel stdin).1).count Action.refresh = 1 ∧
      ∃ removals, actions (delete_kernels env kernels sel stdin).1 =
          removals ++ [Action.refresh] ∧
        ∀ a ∈ removals, ∃ i, a = Action.remove i) ∧
    actions (delete_kernels root_env five_kernels "3".toList "y\nn\n".toList).1 =
      [Action.refresh] ∧
    actions (delete_kernels
        { is_root := true, rm_status := fun _ => 256, has_update_grub := true,
          update_grub_status := 0 }
        five_kernels "1,2".toList "y\n".toList).1 =
      [Action.remove 0, Action.remove 1, Action.refresh] := by
  refine ⟨?_, by rfl, by rfl⟩
  intro hprompt hyes
  obtain ⟨hroot, hchars, st, hparse, hcount⟩ := batch_prompt_reached env kernels sel stdin hprompt
  have hpos : st.delete_count > 0 := by
    have := parse_selection_count_nonneg kernels sel st hparse
    omega
  have hact : actions (delete_kernels env kernels sel stdin).1 =
      actions (delete_loop env kernels st.to_delete (List.range kernels.length)
        (confirm_deletion Prompt.proceed stdin).2.2).1 ++ [Action.refresh] := by
    rw [delete_kernels_parsed env kernels sel stdin st hroot hchars hparse,
      actions_execute_confirmed env kernels st stdin hcount hyes, if_pos hpos]
  have hrem := mem_actions_delete_loop env kernels st.to_delete (List.range kernels.length)
    (confirm_deletion Prompt.proceed stdin).2.2
  refine ⟨⟨st, hparse, hpos⟩, ?_, _, hact, hrem⟩
  rw [hact, List.count_append]
  have hzero : (actions (delete_loop env kernels st.to_delete (List.range kernels.length)
      (confirm_deletion Prompt.proceed stdin).2.2).1).count Action.refresh = 0 := by
    rw [List.count_eq_zero]
    intro hm
    obtain ⟨i, hi⟩ := hrem _ hm
    cases hi
  rw [hzero]
  rfl

theorem refresh_after_confirmed_batch_witness :
    (∃ st, parse_selection five_kernels "3".toList = Except.ok st ∧ st.delete_count > 0) ∧
    (actions (delete_kernels root_env five_kernels "3".toList "y\nn\n".toList).1).count
        Action.refresh = 1 ∧
    ∃ removals,
      actions (delete_kernels root_env five_kernels "3".toList "y\nn\n".toList).1 =
          removals ++ [Action.refresh] ∧
        ∀ a ∈ removals, ∃ i, a = Action.remove i :=
  (refresh_after_confirmed_batch root_env five_kernels "3".toList "y\nn\n".toList).1
    (by decide) rfl

/-! ## The count of `auto_clean` -/

/-- The counter behind the second loop of `auto_clean` over the first `n`
indices: one for every index other than `0` and `running_index`. -/
theorem auto_mark_count (ri : Int) (n : Nat) :
    ∀ st : List Bool × Int,
      ((List.range n).foldl (auto_mark ri) st).2 =
        st.2 + ((n : Int) - (if 0 < n then 1 else 0) -
          (if 1 ≤ ri ∧ ri < (n : Int) then 1 else 0)) := by
  induction n with
  | zero =>
    intro st
    simp only [List.range_zero, List.foldl_nil]
    split_ifs <;> omega
  | succ n ih =>
    intro st
    rw [List.range_succ, List.foldl_append, List.foldl_cons, List.foldl_nil]
    have hstep : (auto_mark ri ((List.range n).foldl (auto_mark ri) st) n).2 =
        ((List.range n).foldl (auto_mark ri) st).2 +
          (if n ≠ 0 ∧ (n : Int) ≠ ri then 1 else 0) := by
      unfold auto_mark
      split <;> simp
    rw [hstep, ih st]
    push_cast
    split_ifs <;> omega

theorem auto_select_count (kernels : List KernelInfo) :
    (auto_select kernels).delete_count =
      (kernels.length : Int) - (if 0 < kernels.length then 1 else 0) -
        (if 1 ≤ find_running kernels 0 ∧ find_running kernels 0 < (kernels.length : Int)
          then 1 else 0) := by
  simp only [auto_select]
  rw [auto_mark_count]
  simp

theorem auto_select_count_pos (kernels : List KernelInfo) (h3 : 3 ≤ kernels.length) :
    1 ≤ (auto_select kernels).delete_count := by
  rw [auto_select_count kernels, if_pos (by omega)]
  split <;> omega

theorem update_grub_kinds (env : Env) (e : Event) (he : e ∈ update_grub env) :
    e = Event.which_update_grub ∨ e = Event.grub_updating ∨ e = Event.run_update_grub ∨
      e = Event.grub_updated ∨ (∃ s, e = Event.grub_failed s) ∨ e = Event.grub_missing := by
  unfold update_grub at he
  split at he
  · simp only [List.mem_cons, List.mem_singleton, List.not_mem_nil, or_false] at he
    rcases he with h | h | h | h
    · exact Or.inl h
    · exact Or.inr (Or.inl h)
    · exact Or.inr (Or.inr (Or.inl h))
    · split at h
      · exact Or.inr (Or.inr (Or.inr (Or.inl h)))
      · exact Or.inr (Or.inr (Or.inr (Or.inr (Or.inl ⟨_, h⟩))))
  · simp only [List.mem_cons, List.mem_singleton, List.not_mem_nil, or_false] at he
    rcases he with h | h
    · exact Or.inl h
    · exact Or.inr (Or.inr (Or.inr (Or.inr (Or.inr h))))

/-- The events of a run of `auto_clean` that gets to the batch prompt. -/
theorem auto_clean_events (env : Env) (kernels : List KernelInfo) (stdin : List Char)
    (hroot : env.is_root = true) (hlen : 2 < kernels.length)
    (hc : (auto_select kernels).delete_count ≠ 0) (e : Event)
    (he : e ∈ (auto_clean env kernels stdin).1) :
    e ∈ auto_announcement kernels (auto_select kernels) ∨
      e = Event.prompt Prompt.proceed ∨ (∃ l, e = Event.read l) ∨ e = Event.read_error ∨
      e.is_deletion_step = true ∨ e = Event.auto_cancelled ∨ e = Event.auto_completed ∨
      e ∈ update_grub env := by
  cases ha : affirmative stdin with
  | false =>
    rw [auto_clean_declined env kernels stdin hroot hlen hc ha] at he
    simp only [List.mem_append, List.mem_singleton] at he
    rcases he with (h | h) | h
    · exact Or.inl h
    · rcases confirm_deletion_events _ _ _ h with h1 | h1 | h1
      · exact Or.inr (Or.inl h1)
      · exact Or.inr (Or.inr (Or.inl h1))
      · exact Or.inr (Or.inr (Or.inr (Or.inl h1)))
    · exact Or.inr (Or.inr (Or.inr (Or.inr (Or.inr (Or.inl h)))))
  | true =>
    rw [auto_clean_confirmed env kernels stdin hroot hlen hc ha] at he
    simp only [List.mem_append, List.mem_singleton] at he
    rcases he with (((h | h) | h) | h) | h
    · exact Or.inl h
    · rcases confirm_deletion_events _ _ _ h with h1 | h1 | h1
      · exact Or.inr (Or.inl h1)
      · exact Or.inr (Or.inr (Or.inl h1))
      · exact Or.inr (Or.inr (Or.inr (Or.inl h1)))
    · exact Or.inr (Or.inr (Or.inr (Or.inr (Or.inl (delete_loop_steps _ _ _ _ _ _ h)))))
    · exact Or.inr (Or.inr (Or.inr (Or.inr (Or.inr (Or.inr (Or.inl h))))))
    · exact Or.inr (Or.inr (Or.inr (Or.inr (Or.inr (Or.inr (Or.inr h))))))

/-- C19: for a collection of at least three records, the `delete_count` that
`auto_clean` computes is `kernel_count - 1` when no record is running or the
record at index 0 is running, and `kernel_count - 2` otherwise; it is at least
1, and no run of `auto_clean` prints the "No kernels to clean" message. -/
theorem auto_clean_delete_count (kernels : List KernelInfo) (h3 : 3 ≤ kernels.length) :
    (((∀ k ∈ kernels, k.running = false) ∨ ∃ k, kernels[0]? = some k ∧ k.running = true) →
      (auto_select kernels).delete_count = (kernels.length : Int) - 1) ∧
    (¬ ((∀ k ∈ kernels, k.running = false) ∨
        ∃ k, kernels[0]? = some k ∧ k.running = true) →
      (auto_select kernels).delete_count = (kernels.length : Int) - 2) ∧
    1 ≤ (auto_select kernels).delete_count ∧
    ∀ (env : Env) (stdin : List Char),
      Event.nothing_to_clean ∉ (auto_clean env kernels stdin).1 := by
  have hcount := auto_select_count kernels
  rw [if_pos (by omega)] at hcount
  have hspec := find_running_spec kernels 0
  have hone := auto_select_count_pos kernels h3
  refine ⟨?_, ?_, hone, ?_⟩
  · intro h
    rw [hcount]
    rcases hspec with ⟨h1, _⟩ | ⟨i, k, h1, h2, h3', h4⟩
    · rw [h1]; simp
    · rcases h with h | ⟨k0, hk0, hr0⟩
      · have hmem : k ∈ kernels := by
          obtain ⟨hlt, hget⟩ := List.getElem?_eq_some_iff.1 h2
          rw [← hget]; exact List.getElem_mem hlt
        rw [h k hmem] at h3'; cases h3'
      · have hi : i = 0 := by
          rcases Nat.eq_zero_or_pos i with h0 | hpos
          · exact h0
          · have := h4 0 k0 hpos hk0
            rw [hr0] at this; cases this
        rw [h1, hi]; simp
  · intro h
    rw [hcount]
    rcases hspec with ⟨_, h2⟩ | ⟨i, k, h1, h2, h3', _⟩
    · exact absurd (Or.inl h2) h
    · have hi : i ≠ 0 := by
        intro h0
        rw [h0] at h2
        exact h (Or.inr ⟨k, h2, h3'⟩)
      have hlt : i < kernels.length := by
        rcases Nat.lt_or_ge i kernels.length with hl | hl
        · exact hl
        · rw [List.getElem?_eq_none hl] at h2; cases h2
      rw [h1, if_pos (by constructor <;> omega)]
      omega
  · intro env stdin hmem
    cases hroot : env.is_root with
    | false =>
      simp [auto_clean, hroot] at hmem
    | true =>
      have hne : (auto_select kernels).delete_count ≠ 0 := by omega
      rcases auto_clean_events env kernels stdin hroot (by omega) hne _ hmem with
        h | h | ⟨_, h⟩ | h | h | h | h | h
      · rcases auto_announcement_events _ _ _ h with h1 | ⟨_, _, h1⟩ | h1 | ⟨_, h1⟩ | ⟨_, h1⟩ <;>
          cases h1
      · cases h
      · cases h
      · cases h
      · cases h
      · cases h
      · cases h
      · rcases update_grub_kinds env _ h with h1 | h1 | h1 | h1 | ⟨_, h1⟩ | h1 <;> cases h1

theorem auto_clean_delete_count_witness :
    (auto_select five_kernels).delete_count = (five_kernels.length : Int) - 2 :=
  (auto_clean_delete_count five_kernels (by decide)).2.1 (by
    rintro (h | ⟨k, hk, hr⟩)
    · have := h (kernel "6.3.0" true) (by simp [five_kernels])
      cases this
    · simp [five_kernels, kernel] at hk
      rw [← hk] at hr
      cases hr)

/-! ## Reads of the kernel table in `auto_clean` -/

theorem auto_listing_in_table (kernels : List KernelInfo) (td : List Bool) (is : List Nat)
    (his : ∀ i ∈ is, i < kernels.length) (e : Event)
    (he : e ∈ auto_listing kernels td is) : ∃ n v, e = Event.auto_entry n (some v) := by
  induction is with
  | nil => simp [auto_listing] at he
  | cons i rest ih =>
    have hrest := fun x hx => his x (List.mem_cons_of_mem _ hx)
    simp only [auto_listing] at he
    split at he
    · simp only [List.mem_cons] at he
      rcases he with h | h
      · have hi := his i (List.mem_cons_self _ _)
        rw [List.getElem?_eq_getElem hi] at h
        exact ⟨_, _, h⟩
      · exact ih hrest h
    · exact ih hrest he

/-- When some record is running, every read of the kernel table that
`auto_clean` reports is a read inside the table. -/
theorem auto_clean_reads_in_table (env : Env) (kernels : List KernelInfo)
    (stdin : List Char) (h3 : 3 ≤ kernels.length)
    (hrun : ∃ k ∈ kernels, k.running = true) (e : Event)
    (he : e ∈ (auto_clean env kernels stdin).1) :
    e ≠ Event.keeping_running none ∧ e ≠ Event.keeping_latest none ∧
      ∀ n, e ≠ Event.auto_entry n none := by
  have hone := auto_select_count_pos kernels h3
  cases hroot : env.is_root with
  | false =>
    simp [auto_clean, hroot] at he
    rw [he]
    exact ⟨by simp, by simp, by simp⟩
  | true =>
    have hne : (auto_select kernels).delete_count ≠ 0 := by omega
    rcases auto_clean_events env kernels stdin hroot (by omega) hne _ he with
      h | h | ⟨_, h⟩ | h | h | h | h | h
    · simp only [auto_announcement, List.cons_append, List.mem_cons, List.mem_append,
        List.mem_singleton, List.not_mem_nil, or_false] at h
      rcases h with h | (h | h | h) | h
      · rw [h]; exact ⟨by simp, by simp, by simp⟩
      · obtain ⟨n, v, hv⟩ := auto_listing_in_table kernels _ _
          (fun i hi => List.mem_range.1 hi) e h
        rw [hv]; exact ⟨by simp, by simp, by simp⟩
      · rw [h]; exact ⟨by simp, by simp, by simp⟩
      · have h0 : kernel_at kernels 0 = some kernels[0] := by
          simp [kernel_at, List.getElem?_eq_getElem (show 0 < kernels.length by omega)]
        rw [h, h0]; exact ⟨by simp, by simp, by simp⟩
      · split at h
        · simp only [List.mem_singleton] at h
          have hri : (auto_select kernels).running_index = find_running kernels 0 := rfl
          rcases find_running_spec kernels 0 with ⟨_, h2⟩ | ⟨i, k, h1, h2, _, _⟩
          · obtain ⟨k, hk, hr⟩ := hrun
            rw [h2 k hk] at hr; cases hr
          · have hat : kernel_at kernels (auto_select kernels).running_index = some k := by
              rw [hri, h1]
              simp [kernel_at, h2]
            rw [h, hat]; exact ⟨by simp, by simp, by simp⟩
        · simp at h
    · rw [h]; exact ⟨by simp, by simp, by simp⟩
    · rw [h]; exact ⟨by simp, by simp, by simp⟩
    · rw [h]; exact ⟨by simp, by simp, by simp⟩
    · refine ⟨?_, ?_, ?_⟩
      · intro h1; rw [h1] at h; cases h
      · intro h1; rw [h1] at h; cases h
      · intro n h1; rw [h1] at h; cases h
    · rw [h]; exact ⟨by simp, by simp, by simp⟩
    · rw [h]; exact ⟨by simp, by simp, by simp⟩
    · rcases update_grub_kinds env _ h with h1 | h1 | h1 | h1 | ⟨_, h1⟩ | h1 <;> rw [h1] <;>
        exact ⟨by simp, by simp, by simp⟩

/-- C18, at the failing input: on three kernels none of which is running,
`running_index` keeps its initial value `-1`, the test `running_index != 0`
passes, and the "Keeping" report reads `kernels[-1]`, outside the table. -/
theorem auto_clean_reads_outside_table :
    3 ≤ three_idle.length ∧ three_idle.length ≤ 100 ∧
    (auto_select three_idle).running_index = -1 ∧
    kernel_at three_idle (auto_select three_idle).running_index = none ∧
    (auto_clean root_env three_idle "n\n".toList).1 =
      [Event.auto_header, Event.auto_entry 2 (some "6.2.0"),
        Event.auto_entry 3 (some "6.1.0"), Event.keeping_header,
        Event.keeping_latest (some "6.3.0"), Event.keeping_running none,
        Event.prompt Prompt.proceed, Event.read (some "n\n".toList),
        Event.auto_cancelled] := by
  refine ⟨by decide, by decide, by rfl, by rfl, by rfl⟩

/-! ## Lines of operator input -/

theorem fgets_take_line (line rest : List Char) (hline : ∀ c ∈ line, c ≠ '\n') :
    ∀ n : Nat, line.length < n →
      fgets_take n (line ++ '\n' :: rest) = (line ++ ['\n'], rest) := by
  induction line with
  | nil =>
    intro n hn
    cases n with
    | zero => omega
    | succ n => simp [fgets_take]
  | cons c cs ih =>
    intro n hn
    cases n with
    | zero => omega
    | succ n =>
      have hc := hline c (List.mem_cons_self _ _)
      have hlen : cs.length < n := by
        simp only [List.length_cons] at hn; omega
      rw [List.cons_append]
      simp only [fgets_take, hc, if_false]
      rw [ih (fun x hx => hline x (List.mem_cons_of_mem _ hx)) n hlen]
      rfl

/-- A line of at most 8 characters before its newline is read whole by
`confirm_deletion`, and decided by its first character. -/
theorem confirm_deletion_short_line (p : Prompt) (line rest : List Char)
    (hline : ∀ c ∈ line, c ≠ '\n') (hlen : line.length ≤ 8) :
    confirm_deletion p (line ++ '\n' :: rest) =
      (affirmative line, [Event.prompt p, Event.read (some (line ++ ['\n']))], rest) := by
  have htake := fgets_take_line line rest hline 9 (by omega)
  cases line with
  | nil => rfl
  | cons c cs =>
    rw [List.cons_append] at htake ⊢
    simp only [confirm_deletion, fgets, htake]
    simp [affirmative]

/-- C12, at the failing input: the answer `yyyyyyyyyy` (ten characters and a
newline) to the batch prompt is one line, but `confirm_deletion` reads nine
characters of it into its buffer of ten bytes and leaves the rest unread.  In
a run that selects the running kernel, the running-kernel prompt is then
answered by the rest of the first line, and the running kernel is removed
although no second line was entered. -/
theorem long_answer_spills_over :
    confirm_deletion Prompt.proceed "yyyyyyyyyy\n".toList =
      (true, [Event.prompt Prompt.proceed, Event.read (some "yyyyyyyyy".toList)],
        "y\n".toList) ∧
    (delete_kernels root_env five_kernels "3".toList "yyyyyyyyyy\n".toList).1 =
      [Event.selected_header, Event.selected_entry 3 "6.3.0" true, Event.warn_running,
        Event.prompt Prompt.proceed, Event.read (some "yyyyyyyyy".toList),
        Event.prompt Prompt.running_kernel, Event.read (some "y\n".toList),
        Event.deleting 3 "6.3.0", Event.rm 2 "6.3.0", Event.rm_succeeded "6.3.0",
        Event.deletion_completed, Event.which_update_grub, Event.grub_updating,
        Event.run_update_grub, Event.grub_updated] ∧
    (delete_kernels root_env five_kernels "3".toList "yyyyyyyyyy\n".toList).2 = [] := by
  refine ⟨by rfl, by rfl, by rfl⟩

/-! ## Expressions of the grammar, with numerals of any value -/

theorem Token.conforms_no_comma (t : Token) (h : t.conforms) : ∀ c ∈ t.text, c ≠ ',' := by
  intro c hc
  cases t with
  | index n =>
    exact digit_ne c ',' (h.2 c hc) rfl
  | range a b =>
    simp only [Token.text, List.mem_append, List.mem_cons] at hc
    rcases hc with hc | hc | hc
    · exact digit_ne c ',' (h.1.2 c hc) rfl
    · rw [hc]; decide
    · exact digit_ne c ',' (h.2.2 c hc) rfl

theorem Token.conforms_ne_nil (t : Token) (h : t.conforms) : t.text ≠ [] := by
  cases t with
  | index n => exact h.1
  | range a b => simp [Token.text]

theorem Token.conforms_head_digit (t : Token) (h : t.conforms) :
    ∃ c rest, t.text = c :: rest ∧ c.isDigit = true := by
  cases t with
  | index n =>
    cases n with
    | nil => exact absurd rfl h.1
    | cons c cs => exact ⟨c, cs, rfl, h.2 c (List.mem_cons_self _ _)⟩
  | range a b =>
    cases a with
    | nil => exact absurd rfl h.1.1
    | cons c cs => exact ⟨c, cs ++ '-' :: b, rfl, h.1.2 c (List.mem_cons_self _ _)⟩

/-- The text of a grammar expression starts with a digit. -/
theorem expression_head_digit (ts : List Token) (hne : ts ≠ [])
    (h : ∀ t ∈ ts, t.conforms) : ∃ c rest, expression ts = c :: rest ∧ c.isDigit = true := by
  cases ts with
  | nil => exact absurd rfl hne
  | cons t rest =>
    obtain ⟨c, cs, hc, hd⟩ := Token.conforms_head_digit t (h t (List.mem_cons_self _ _))
    cases rest with
    | nil => exact ⟨c, cs, by simp only [expression, hc], hd⟩
    | cons t2 rest2 =>
      exact ⟨c, cs ++ ',' :: expression (t2 :: rest2), by simp only [expression, hc]; rfl, hd⟩

theorem comma_fields_expression (ts : List Token) (hne : ts ≠ [])
    (h : ∀ t ∈ ts, t.conforms) : comma_fields (expression ts) = ts.map Token.text := by
  induction ts with
  | nil => exact absurd rfl hne
  | cons t rest ih =>
    have ht := h t (List.mem_cons_self _ _)
    cases rest with
    | nil =>
      simp only [expression, List.map_cons, List.map_nil]
      exact comma_fields_single _ (Token.conforms_no_comma t ht)
    | cons t2 rest2 =>
      simp only [expression, List.map_cons]
      rw [comma_fields_append _ _ (Token.conforms_no_comma t ht),
        ih (by simp) (fun x hx => h x (List.mem_cons_of_mem _ hx))]
      simp

/-- The calls of `strtok` on the text of a grammar expression return the
texts of its tokens, whatever the values of the numerals. -/
theorem strtok_tokens_conforming (ts : List Token) (hne : ts ≠ [])
    (h : ∀ t ∈ ts, t.conforms) : strtok_tokens (expression ts) = ts.map Token.text := by
  unfold strtok_tokens
  rw [comma_fields_expression ts hne h, List.filter_eq_self]
  intro x hx
  obtain ⟨t1, ht1, hx1⟩ := List.mem_map.1 hx
  have := Token.conforms_ne_nil t1 (h t1 ht1)
  rw [hx1] at this
  cases x with
  | nil => exact absurd rfl this
  | cons _ _ => rfl

/-! ## The empty selection -/

theorem mark_all_count_ge (kernels : List KernelInfo) (idxs : List Nat) (c : Int) :
    ∀ st : ParseState, c ≤ st.delete_count →
      c ≤ (idxs.foldl (mark kernels) st).delete_count := by
  induction idxs with
  | nil => intro st h; exact h
  | cons i rest ih =>
    intro st h
    simp only [List.foldl_cons]
    apply ih
    unfold mark
    split
    · exact h
    · simp only; omega

theorem token_indices_ne_nil (kernels : List KernelInfo) (st st1 : ParseState)
    (token : List Char) (h : process_token kernels st token = Except.ok st1) :
    token_indices token ≠ [] := by
  unfold process_token at h
  unfold token_indices
  split at h
  · rename_i first second hs
    try simp only [hs]
    split at h
    · cases h
    · rename_i hv
      simp only [not_or, not_lt] at hv
      intro hnil
      have hlen := congrArg List.length hnil
      simp only [List.length_map, List.length_range', List.length_nil] at hlen
      omega
  · rename_i hs
    try simp only [hs]
    simp

/-- A parse that sees at least one token and succeeds counts at least one
kernel. -/
theorem parse_selection_count_pos (kernels : List KernelInfo) (sel : List Char)
    (st : ParseState) (htok : strtok_tokens sel ≠ [])
    (h : parse_selection kernels sel = Except.ok st) : 1 ≤ st.delete_count := by
  unfold parse_selection at h
  cases htoks : strtok_tokens sel with
  | nil => exact absurd htoks htok
  | cons t rest =>
    rw [htoks] at h
    simp only [parse_tokens] at h
    cases hp : process_token kernels (initial_state kernels) t with
    | error e => rw [hp] at h; cases h
    | ok st1 =>
      rw [hp] at h
      simp only at h
      obtain ⟨h1, _⟩ := process_token_ok kernels _ _ t hp
      obtain ⟨h2, _⟩ := parse_tokens_ok kernels rest st1 st h
      have hne := token_indices_ne_nil kernels _ _ t hp
      have hst1 : 1 ≤ st1.delete_count := by
        rw [h1]
        cases hidx : token_indices t with
        | nil => exact absurd hidx hne
        | cons i is =>
          simp only [List.foldl_cons]
          apply mark_all_count_ge
          have hunset : (initial_state kernels).to_delete.getD i false = false :=
            getD_replicate_false _ _
          rw [mark_of_unset kernels _ i hunset]
          simp [initial_state]
      rw [h2]
      exact mark_all_count_ge kernels _ 1 st1 hst1

/-- The events of a run of `execute_selection` that gets to the batch
prompt. -/
theorem execute_selection_events (env : Env) (kernels : List KernelInfo)
    (st : ParseState) (stdin : List Char) (hc : st.delete_count ≠ 0) (e : Event)
    (he : e ∈ (execute_selection env kernels st stdin).1) :
    e ∈ announcement kernels st ∨
      e = Event.prompt Prompt.proceed ∨ (∃ l, e = Event.read l) ∨ e = Event.read_error ∨
      e.is_deletion_step = true ∨ e = Event.cancelled ∨ e = Event.deletion_completed ∨
      e ∈ update_grub env := by
  cases ha : affirmative stdin with
  | false =>
    rw [execute_selection_declined env kernels st stdin hc ha] at he
    simp only [List.mem_append, List.mem_singleton] at he
    rcases he with (h | h) | h
    · exact Or.inl h
    · rcases confirm_deletion_events _ _ _ h with h1 | h1 | h1
      · exact Or.inr (Or.inl h1)
      · exact Or.inr (Or.inr (Or.inl h1))
      · exact Or.inr (Or.inr (Or.inr (Or.inl h1)))
    · exact Or.inr (Or.inr (Or.inr (Or.inr (Or.inr (Or.inl h)))))
  | true =>
    rw [execute_selection_confirmed env kernels st stdin hc ha] at he
    simp only [List.mem_append, List.mem_singleton] at he
    rcases he with (((h | h) | h) | h) | h
    · exact Or.inl h
    · rcases confirm_deletion_events _ _ _ h with h1 | h1 | h1
      · exact Or.inr (Or.inl h1)
      · exact Or.inr (Or.inr (Or.inl h1))
      · exact Or.inr (Or.inr (Or.inr (Or.inl h1)))
    · exact Or.inr (Or.inr (Or.inr (Or.inr (Or.inl (delete_loop_steps _ _ _ _ _ _ h)))))
    · exact Or.inr (Or.inr (Or.inr (Or.inr (Or.inr (Or.inr (Or.inl h))))))
    · split at h
      · exact Or.inr (Or.inr (Or.inr (Or.inr (Or.inr (Or.inr (Or.inr h))))))
      · simp at h

/-- C16: run as root on the empty expression, `delete_kernels` prints "No
kernels selected for deletion." and nothing else, so no parse or validation
error, no prompt and no removal, and it reads no input.  For an expression
that conforms to the grammar and passes validation, `delete_count` is at
least 1, and no run on such an expression prints that message. -/
theorem empty_selection_selects_nothing (env : Env) (kernels : List KernelInfo)
    (stdin : List Char) :
    (env.is_root = true →
      delete_kernels env kernels [] stdin = ([Event.none_selected], stdin)) ∧
    (∀ ts : List Token, ts ≠ [] → (∀ t ∈ ts, t.conforms) →
      (∀ st, parse_selection kernels (expression ts) = Except.ok st → 1 ≤ st.delete_count) ∧
      Event.none_selected ∉ (delete_kernels env kernels (expression ts) stdin).1) := by
  constructor
  · intro hroot
    rw [delete_kernels_parsed env kernels [] stdin (initial_state kernels) hroot rfl rfl]
    simp [execute_selection, initial_state]
  · intro ts hne hconf
    have htok : strtok_tokens (expression ts) ≠ [] := by
      rw [strtok_tokens_conforming ts hne hconf]
      cases ts with
      | nil => exact absurd rfl hne
      | cons t rest => simp
    refine ⟨fun st h => parse_selection_count_pos kernels _ st htok h, ?_⟩
    intro hmem
    cases hroot : env.is_root with
    | false =>
      rw [delete_kernels_not_root _ _ _ _ hroot] at hmem
      simp at hmem
    | true =>
      cases hc : first_invalid (expression ts) with
      | some c =>
        rw [delete_kernels_invalid_char _ _ _ _ c hroot hc] at hmem
        simp at hmem
      | none =>
        cases hp : parse_selection kernels (expression ts) with
        | error err =>
          rw [delete_kernels_parse_error _ _ _ _ err hroot hc hp] at hmem
          cases err <;> simp [ParseError.event] at hmem
        | ok st =>
          have hpos := parse_selection_count_pos kernels _ st htok hp
          rw [delete_kernels_parsed _ _ _ _ st hroot hc hp] at hmem
          rcases execute_selection_events env kernels st stdin (by omega) _ hmem with
            h | h | ⟨_, h⟩ | h | h | h | h | h
          · rcases announcement_events _ _ _ h with h1 | ⟨_, _, _, h1⟩ | ⟨_, h1⟩ | h1 | h1 <;>
              cases h1
          · cases h
          · cases h
          · cases h
          · cases h
          · cases h
          · cases h
          · rcases update_grub_kinds env _ h with h1 | h1 | h1 | h1 | ⟨_, h1⟩ | h1 <;> cases h1

theorem empty_selection_selects_nothing_witness :
    delete_kernels root_env five_kernels [] "y\n".toList =
      ([Event.none_selected], "y\n".toList) :=
  (empty_selection_selects_nothing root_env five_kernels "y\n".toList).1 rfl

/-! ## Expressions outside the grammar -/

theorem parse_tokens_rejects (kernels : List KernelInfo) (token : List Char)
    (hbad : ∀ st : ParseState, ∃ e, process_token kernels st token = Except.error e)
    (tokens : List (List Char)) (hmem : token ∈ tokens) :
    ∀ st : ParseState, ∃ e, parse_tokens kernels tokens st = Except.error e := by
  induction tokens with
  | nil => simp at hmem
  | cons x rest ih =>
    intro st
    simp only [parse_tokens]
    cases hp : process_token kernels st x with
    | error e => exact ⟨e, rfl⟩
    | ok st1 =>
      rcases List.mem_cons.1 hmem with h | h
      · obtain ⟨e, he⟩ := hbad st
        rw [h, hp] at he
        cases he
      · exact ih h st1

theorem atoi_nil : atoi [] = 0 := by decide

/-- A token with nothing before its first hyphen, or nothing behind it, fails
the range test. -/
theorem process_token_missing_bound (kernels : List KernelInfo) (st : ParseState)
    (token first second : List Char) (hs : split_hyphen token = some (first, second))
    (hmiss : first = [] ∨ second = []) :
    process_token kernels st token =
      Except.error (ParseError.invalid_range first second) := by
  unfold process_token
  rw [hs]
  simp only
  rw [if_pos]
  rcases hmiss with h | h
  · left; rw [h, atoi_nil]; omega
  · rw [h, atoi_nil]
    by_cases h1 : atoi first < 1
    · exact Or.inl h1
    · right; right; omega

/-- With at least two kernels, the token `1-2-3` is parsed as `1-2`: `atoi`
stops at the second hyphen. -/
theorem second_hyphen_ignored (kernels : List KernelInfo) (h2 : 2 ≤ kernels.length) :
    parse_selection kernels "1-2-3".toList = parse_selection kernels "1-2".toList := by
  have ht1 : strtok_tokens "1-2-3".toList = [['1', '-', '2', '-', '3']] := by decide
  have ht2 : strtok_tokens "1-2".toList = [['1', '-', '2']] := by decide
  have hs1 : split_hyphen ['1', '-', '2', '-', '3'] = some (['1'], ['2', '-', '3']) := by
    decide
  have hs2 : split_hyphen ['1', '-', '2'] = some (['1'], ['2']) := by decide
  have ha1 : atoi ['1'] = 1 := by decide
  have ha2 : atoi ['2'] = 2 := by decide
  have ha3 : atoi ['2', '-', '3'] = 2 := by decide
  have hcond : ¬ ((1 : Int) < 1 ∨ (2 : Int) > (kernels.length : Int) ∨ (1 : Int) > 2) := by
    omega
  unfold parse_selection
  rw [ht1, ht2]
  simp only [parse_tokens, process_token, hs1, hs2, ha1, ha2, ha3, if_neg hcond]

/-- C17, counterexample: the expression `,1` is made of commas and digits, is
not empty and is not derivable from the grammar (an expression of the grammar
starts with a digit), yet `delete_kernels` reports no validation error for it:
`strtok` skips the empty token, kernel 1 is selected and, with the batch
prompt confirmed, removed. -/
theorem empty_token_accepted :
    first_invalid ",1".toList = none ∧
    (∀ ts : List Token, ts ≠ [] → (∀ t ∈ ts, t.conforms) → expression ts ≠ ",1".toList) ∧
    parse_selection five_kernels ",1".toList =
      Except.ok
        { to_delete := true :: List.replicate 99 false
          delete_count := 1
          deleting_running := false
          remaining_count := 4 } ∧
    (delete_kernels root_env five_kernels ",1".toList "y\n".toList).1 =
      [Event.selected_header, Event.selected_entry 1 "6.5.0" false,
        Event.prompt Prompt.proceed, Event.read (some "y\n".toList),
        Event.deleting 1 "6.5.0", Event.rm 0 "6.5.0", Event.rm_succeeded "6.5.0",
        Event.deletion_completed, Event.which_update_grub, Event.grub_updating,
        Event.run_update_grub, Event.grub_updated] := by
  refine ⟨by rfl, ?_, by rfl, by rfl⟩
  intro ts hne hconf heq
  obtain ⟨c, rest, hc, hd⟩ := expression_head_digit ts hne hconf
  rw [heq] at hc
  simp only [String.toList, List.cons.injEq] at hc
  rw [← hc.1] at hd
  cases hd

/-- C17, as amended: for every kernel collection and every expression of
digits, commas and hyphens, run as root, a token with a missing range bound
(nothing before its first hyphen, as in `-2`, or nothing behind it, as in
`1-`) makes `delete_kernels` fail with one validation error and select
nothing.  Empty tokens are not an error: `strtok` skips them, so `,1`, `1,`
and `1,,2` are parsed as `1`, `1` and `1,2`. -/
theorem missing_bound_rejected (env : Env) (kernels : List KernelInfo)
    (sel stdin : List Char) :
    (env.is_root = true → first_invalid sel = none →
      ∀ token first second, token ∈ strtok_tokens sel →
        split_hyphen token = some (first, second) → (first = [] ∨ second = []) →
        ∃ e, parse_selection kernels sel = Except.error e ∧
          delete_kernels env kernels sel stdin = ([e.event], stdin) ∧
          e.event.is_parse_failure = true) ∧
    parse_selection kernels ",1".toList = parse_selection kernels "1".toList ∧
    parse_selection kernels "1,".toList = parse_selection kernels "1".toList ∧
    parse_selection kernels "1,,2".toList = parse_selection kernels "1,2".toList := by
  refine ⟨?_, by rfl, by rfl, by rfl⟩
  · intro hroot hchars token first second hmem hs hmiss
    obtain ⟨e, he⟩ := parse_tokens_rejects kernels token
      (fun st => ⟨_, process_token_missing_bound kernels st token first second hs hmiss⟩)
      _ hmem (initial_state kernels)
    exact ⟨e, he, delete_kernels_parse_error env kernels sel stdin e hroot hchars he,
      (parse_error_event e).1⟩

theorem missing_bound_rejected_witness :
    ∃ e, parse_selection five_kernels "1,2-".toList = Except.error e ∧
      delete_kernels root_env five_kernels "1,2-".toList "y\n".toList =
        ([e.event], "y\n".toList) ∧
      e.event.is_parse_failure = true :=
  (missing_bound_rejected root_env five_kernels "1,2-".toList "y\n".toList).1 rfl rfl
    ['2', '-'] ['2'] [] (by decide) (by decide) (Or.inr rfl)

/-! ## String comparison -/

theorem char_toNat_inj (a b : Char) (h : a.toNat = b.toNat) : a = b := by
  apply Char.eq_of_val_eq
  apply UInt32.ext
  exact h

theorem strcmp_self (a : List Char) : strcmp a a = 0 := by
  induction a with
  | nil => rfl
  | cons c cs ih => simp [strcmp, ih]

theorem strcmp_eq_zero (a : List Char) : ∀ b : List Char, strcmp a b = 0 → a = b := by
  induction a with
  | nil =>
    intro b h
    cases b with
    | nil => rfl
    | cons d ds => simp [strcmp] at h
  | cons c cs ih =>
    intro b h
    cases b with
    | nil => simp [strcmp] at h
    | cons d ds =>
      simp only [strcmp] at h
      split at h
      · rename_i hcd
        rw [hcd, ih ds h]
      · rename_i hcd
        exact absurd (char_toNat_inj c d (by omega)) hcd

theorem strcmp_swap (a : List Char) : ∀ b : List Char, strcmp b a = - strcmp a b := by
  induction a with
  | nil =>
    intro b
    cases b <;> simp [strcmp]
  | cons c cs ih =>
    intro b
    cases b with
    | nil => simp [strcmp]
    | cons d ds =>
      simp only [strcmp]
      by_cases hcd : c = d
      · subst hcd; simp [ih ds]
      · have hdc : ¬ d = c := fun h => hcd h.symm
        simp only [hcd, hdc, if_false]
        omega

theorem strcmp_trans (a : List Char) :
    ∀ b c : List Char, strcmp a b ≤ 0 → strcmp b c ≤ 0 → strcmp a c ≤ 0 := by
  induction a with
  | nil =>
    intro b c _ _
    cases c <;> simp [strcmp]
  | cons x xs ih =>
    intro b c hab hbc
    cases b with
    | nil => simp [strcmp] at hab
    | cons y ys =>
      cases c with
      | nil => simp [strcmp] at hbc
      | cons z zs =>
        simp only [strcmp] at hab hbc ⊢
        by_cases hxy : x = y
        · subst hxy
          simp only [if_true] at hab
          by_cases hxz : x = z
          · subst hxz
            simp only [if_true] at hbc ⊢
            exact ih ys zs hab hbc
          · simp only [hxz, if_false] at hbc ⊢
            exact hbc
        · simp only [hxy, if_false] at hab
          by_cases hyz : y = z
          · subst hyz
            simp only [hxy, if_false]
            exact hab
          · simp only [hyz, if_false] at hbc
            have hne : ¬ x = z := by
              intro h
              subst h
              have : x.toNat = y.toNat := by omega
              exact hxy (char_toNat_inj _ _ this)
            simp only [hne, if_false]
            omega

theorem strncmp_eq_zero_iff (n : Nat) :
    ∀ a b : List Char, strncmp n a b = 0 ↔ a.take n = b.take n := by
  induction n with
  | zero => intro a b; simp [strncmp]
  | succ n ih =>
    intro a b
    cases a with
    | nil => cases b <;> simp [strncmp]
    | cons c cs =>
      cases b with
      | nil => simp [strncmp]
      | cons d ds =>
        simp only [strncmp, List.take_succ_cons, List.cons.injEq]
        by_cases hcd : c = d
        · subst hcd
          simp [ih cs ds]
        · simp only [hcd, if_false, false_and, iff_false]
          intro h
          exact hcd (char_toNat_inj c d (by omega))

/-- The test `strncmp(name, "vmlinuz-", 8) == 0` holds exactly for the names
that start with `vmlinuz-`. -/
theorem is_image_iff (name : List Char) :
    strncmp 8 name "vmlinuz-".toList = 0 ↔ name.take 8 = "vmlinuz-".toList := by
  rw [strncmp_eq_zero_iff]
  rfl

theorem kernel_record_eq_reference (r name : List Char) :
    kernel_record r name = reference_record r name := by
  unfold kernel_record reference_record
  congr 1
  by_cases h : name.drop 8 = r
  · rw [h]; simp [strcmp_self]
  · have : strcmp (name.drop 8) r ≠ 0 := fun h0 => h (strcmp_eq_zero _ _ h0)
    simp [h, this]

/-! ## The `readdir` loop -/

theorem read_entries_eq (r : List Char) (entries : List (List Char)) :
    ∀ acc : List KernelInfo, acc.length ≤ MAX_KERNELS →
      read_entries r entries acc =
        acc ++ ((entries.filter (fun name => decide (name.take 8 = "vmlinuz-".toList))).take
          (MAX_KERNELS - acc.length)).map (kernel_record r) := by
  induction entries with
  | nil => intro acc _; simp [read_entries]
  | cons name rest ih =>
    intro acc hacc
    simp only [read_entries]
    by_cases hlt : acc.length < MAX_KERNELS
    · rw [if_pos hlt]
      by_cases hm : strncmp 8 name "vmlinuz-".toList = 0
      · have hm2 : name.take 8 = "vmlinuz-".toList := (is_image_iff name).1 hm
        rw [if_pos hm, ih (acc ++ [kernel_record r name]) (by simp; omega)]
        have hsub : MAX_KERNELS - acc.length = (MAX_KERNELS - (acc.length + 1)) + 1 := by omega
        simp only [List.filter_cons, hm2, decide_True, if_true, List.length_append,
          List.length_singleton]
        rw [hsub, List.take_succ_cons, List.map_cons]
        simp
      · have hm2 : ¬ name.take 8 = "vmlinuz-".toList := fun h => hm ((is_image_iff name).2 h)
        rw [if_neg hm, ih acc hacc]
        simp only [List.filter_cons, hm2, decide_False, Bool.false_eq_true, if_false]
    · rw [if_neg hlt]
      have : MAX_KERNELS - acc.length = 0 := by omega
      rw [this]
      simp

/-- The table built by the `readdir` loop holds the records of the
specification, in listing order. -/
theorem read_entries_reference (r : List Char) (entries : List (List Char)) :
    read_entries r entries [] = reference_records entries r := by
  rw [read_entries_eq r entries [] (by simp)]
  simp only [List.nil_append, List.length_nil, Nat.sub_zero, reference_records]
  have : kernel_record r = reference_record r := funext (kernel_record_eq_reference r)
  rw [this]
  rfl

/-! ## Sorting -/

theorem compare_total (a b : KernelInfo) :
    compare_kernel_versions a b ≤ 0 ∨ compare_kernel_versions b a ≤ 0 := by
  unfold compare_kernel_versions
  have := strcmp_swap a.version.toList b.version.toList
  omega

theorem compare_trans (a b c : KernelInfo) (hab : compare_kernel_versions a b ≤ 0)
    (hbc : compare_kernel_versions b c ≤ 0) : compare_kernel_versions a c ≤ 0 := by
  unfold compare_kernel_versions at hab hbc ⊢
  exact strcmp_trans _ _ _ hbc hab

theorem compare_eq_zero_iff (a b : KernelInfo) :
    compare_kernel_versions a b = 0 ↔ a.version = b.version := by
  unfold compare_kernel_versions
  constructor
  · intro h
    have := strcmp_eq_zero _ _ h
    exact (String.ext this).symm
  · intro h
    rw [h]
    exact strcmp_self _

theorem qsort_perm (table : List KernelInfo) :
    (qsort compare_kernel_versions table).Perm table :=
  List.perm_insertionSort _ table

theorem qsort_sorted (table : List KernelInfo) :
    List.Pairwise (fun a b => compare_kernel_versions a b ≤ 0)
      (qsort compare_kernel_versions table) := by
  haveI : IsTotal KernelInfo (fun a b => compare_kernel_versions a b ≤ 0) :=
    ⟨compare_total⟩
  haveI : IsTrans KernelInfo (fun a b => compare_kernel_versions a b ≤ 0) :=
    ⟨compare_trans⟩
  exact List.sorted_insertionSort (fun a b => compare_kernel_versions a b ≤ 0) table

/-- Two tables with the same records, pairwise distinct versions and both in
the order of the comparator are the same table: the result of sorting does
not depend on the sorting procedure. -/
theorem sorted_table_unique (t1 t2 : List KernelInfo) (hperm : t1.Perm t2)
    (hnodup : (versions t2).Nodup)
    (h1 : List.Pairwise (fun a b => compare_kernel_versions a b ≤ 0) t1)
    (h2 : List.Pairwise (fun a b => compare_kernel_versions a b ≤ 0) t2) : t1 = t2 := by
  have hnodup1 : (versions t1).Nodup := (hperm.map KernelInfo.version).nodup_iff.2 hnodup
  have strict : ∀ t : List KernelInfo, (versions t).Nodup →
      List.Pairwise (fun a b => compare_kernel_versions a b ≤ 0) t →
      List.Pairwise (fun a b => compare_kernel_versions a b < 0) t := by
    intro t hn hs
    have hne : List.Pairwise (fun a b => a.version ≠ b.version) t :=
      List.pairwise_map.1 hn
    refine (hs.and hne).imp ?_
    intro a b hab
    have hz : compare_kernel_versions a b ≠ 0 := fun h =>
      hab.2 ((compare_eq_zero_iff a b).1 h)
    have := hab.1
    omega
  haveI : IsAntisymm KernelInfo (fun a b => compare_kernel_versions a b < 0) :=
    ⟨fun a b hab hba => by
      unfold compare_kernel_versions at hab hba
      have := strcmp_swap a.version.toList b.version.toList
      omega⟩
  exact List.eq_of_perm_of_sorted hperm (strict t1 hnodup1 h1) (strict t2 hnodup h2)

/-! ## The discovered table -/

theorem find_kernels_perm (entries : List (List Char)) (r : List Char) :
    (find_kernels (some entries) r).Perm (reference_records entries r) := by
  have h : find_kernels (some entries) r =
      qsort compare_kernel_versions (read_entries r entries []) := rfl
  rw [h, read_entries_reference]
  exact qsort_perm _

theorem reference_records_length (entries : List (List Char)) (r : List Char) :
    (reference_records entries r).length ≤ 100 := by
  simp only [reference_records, List.length_map, List.length_take]
  omega

theorem drop_eight_injective (x y : List Char) (hx : x.take 8 = "vmlinuz-".toList)
    (hy : y.take 8 = "vmlinuz-".toList) (h : x.drop 8 = y.drop 8) : x = y := by
  rw [← List.take_append_drop 8 x, ← List.take_append_drop 8 y, hx, hy, h]

/-- Distinct entry names give distinct versions. -/
theorem reference_versions_nodup (entries : List (List Char)) (r : List Char)
    (hnodup : entries.Nodup) : (versions (reference_records entries r)).Nodup := by
  simp only [versions, reference_records, List.map_map]
  apply List.Nodup.map_on
  · intro x hx y hy hxy
    have hx1 := (List.mem_filter.1 (List.mem_of_mem_take hx)).2
    have hy1 := (List.mem_filter.1 (List.mem_of_mem_take hy)).2
    simp only [decide_eq_true_eq] at hx1 hy1
    simp only [Function.comp, reference_record] at hxy
    have hd : x.drop 8 = y.drop 8 := by
      have := congrArg String.data hxy
      exact this
    exact drop_eight_injective x y hx1 hy1 hd
  · exact (hnodup.sublist (List.filter_sublist _)).sublist (List.take_sublist _ _)

theorem find_kernels_versions_nodup (entries : List (List Char)) (r : List Char)
    (hnodup : entries.Nodup) : (versions (find_kernels (some entries) r)).Nodup :=
  ((find_kernels_perm entries r).map KernelInfo.version).nodup_iff.2
    (reference_versions_nodup entries r hnodup)

theorem reference_running_iff (entries : List (List Char)) (r : List Char) (k : KernelInfo)
    (hk : k ∈ reference_records entries r) : k.running = true ↔ k.version.toList = r := by
  simp only [reference_records, List.mem_map] at hk
  obtain ⟨name, _, hname⟩ := hk
  rw [← hname]
  simp [reference_record]

theorem find_kernels_running_iff (entries : List (List Char)) (r : List Char)
    (k : KernelInfo) (hk : k ∈ find_kernels (some entries) r) :
    k.running = true ↔ k.version.toList = r :=
  reference_running_iff entries r k ((find_kernels_perm entries r).mem_iff.1 hk)

/-- C13: for a listing of `/boot` and a running version, the table that
`find_kernels` leaves holds exactly the records of the reference definition
(the first 100 entries that start with `vmlinuz-`, each with its version, path
and running flag), at most 100 of them, in non-increasing `strcmp` order of
version; with pairwise distinct entry names it is the only such arrangement of
these records.  The comparator is a total order on version strings, and the
versions `5.10.0`, `5.4.0`, `6.1.0`, listed in any order, come out as
`6.1.0`, `5.4.0`, `5.10.0`. -/
theorem discovery_matches_reference (entries : List (List Char)) (r : List Char) :
    (find_kernels (some entries) r).Perm (reference_records entries r) ∧
    List.Pairwise (fun a b => strcmp a.version.toList b.version.toList ≥ 0)
      (find_kernels (some entries) r) ∧
    (find_kernels (some entries) r).length ≤ 100 ∧
    (entries.Nodup → ∀ table : List KernelInfo,
      table.Perm (reference_records entries r) →
      List.Pairwise (fun a b => strcmp a.version.toList b.version.toList ≥ 0) table →
      table = find_kernels (some entries) r) ∧
    ((∀ a b : KernelInfo, compare_kernel_versions a b = 0 ↔ a.version = b.version) ∧
      (∀ a b : KernelInfo, compare_kernel_versions b a = - compare_kernel_versions a b) ∧
      (∀ a b : KernelInfo,
        compare_kernel_versions a b ≤ 0 ∨ compare_kernel_versions b a ≤ 0) ∧
      (∀ a b c : KernelInfo, compare_kernel_versions a b ≤ 0 →
        compare_kernel_versions b c ≤ 0 → compare_kernel_versions a c ≤ 0)) ∧
    (∀ listing ∈ ["vmlinuz-5.10.0".toList, "vmlinuz-5.4.0".toList,
        "vmlinuz-6.1.0".toList].permutations,
      versions (find_kernels (some listing) r) = ["6.1.0", "5.4.0", "5.10.0"]) := by
  have hsorted : ∀ table : List KernelInfo,
      List.Pairwise (fun a b => strcmp a.version.toList b.version.toList ≥ 0) table ↔
      List.Pairwise (fun a b => compare_kernel_versions a b ≤ 0) table := by
    intro table
    constructor
    · intro h
      refine h.imp ?_
      intro a b hab
      unfold compare_kernel_versions
      have := strcmp_swap a.version.toList b.version.toList
      omega
    · intro h
      refine h.imp ?_
      intro a b hab
      unfold compare_kernel_versions at hab
      have := strcmp_swap a.version.toList b.version.toList
      omega
  have hperm := find_kernels_perm entries r
  have hs : List.Pairwise (fun a b => compare_kernel_versions a b ≤ 0)
      (find_kernels (some entries) r) := qsort_sorted _
  refine ⟨hperm, (hsorted _).2 hs, ?_, ?_, ⟨compare_eq_zero_iff, ?_, compare_total,
    compare_trans⟩, ?_⟩
  · rw [hperm.length_eq]
    exact reference_records_length entries r
  · intro hnodup table htp hts
    exact sorted_table_unique table _ (htp.trans hperm.symm)
      (find_kernels_versions_nodup entries r hnodup) ((hsorted _).1 hts) hs
  · intro a b
    unfold compare_kernel_versions
    exact strcmp_swap _ _
  · intro listing hl
    simp only [List.permutations, List.permutationsAux, List.permutationsAux.rec,
      List.permutationsAux2, List.foldr, List.mem_cons, List.mem_append, List.mem_singleton,
      List.not_mem_nil, or_false, List.append_nil, id] at hl
    rcases hl with h | h | h | h | h | h <;> rw [h] <;> rfl

theorem discovery_matches_reference_witness :
    [kernel "6.1.0" false, kernel "5.4.0" true, kernel "5.10.0" false] =
      find_kernels
        (some ["vmlinuz-5.10.0".toList, "config-5.4.0".toList, "vmlinuz-5.4.0".toList,
          "vmlinuz-6.1.0".toList])
        "5.4.0".toList :=
  (discovery_matches_reference
    ["vmlinuz-5.10.0".toList, "config-5.4.0".toList, "vmlinuz-5.4.0".toList,
      "vmlinuz-6.1.0".toList]
    "5.4.0".toList).2.2.2.1 (by decide)
    [kernel "6.1.0" false, kernel "5.4.0" true, kernel "5.10.0" false]
    (by decide) (by decide)

/-! ## Invariants of the discovered table -/

theorem nodup_index_unique (l : List String) (hl : l.Nodup) (i j : Nat) (x : String)
    (hi : l[i]? = some x) (hj : l[j]? = some x) : i = j := by
  obtain ⟨hi1, hi2⟩ := List.getElem?_eq_some_iff.1 hi
  obtain ⟨hj1, hj2⟩ := List.getElem?_eq_some_iff.1 hj
  exact (@List.Nodup.getElem_inj_iff String l hl i hi1 j hj1).1 (by rw [hi2, hj2])

/-- C14: for a listing of `/boot` with pairwise distinct entry names, the table
built by `find_kernels` has pairwise distinct versions and at most one record
marked running; a record is marked running exactly when its version is the
captured running version; and the sorted table holds the records built by the
`readdir` loop unchanged, each flag with its version. -/
theorem kernel_table_invariant (entries : List (List Char)) (r : List Char)
    (hnodup : entries.Nodup) :
    (versions (find_kernels (some entries) r)).Nodup ∧
    (∀ (i j : Nat) (ki kj : KernelInfo),
      (find_kernels (some entries) r)[i]? = some ki →
      (find_kernels (some entries) r)[j]? = some kj →
      ki.running = true → kj.running = true → i = j) ∧
    ((find_kernels (some entries) r).filter (fun k => k.running)).length ≤ 1 ∧
    (∀ k ∈ find_kernels (some entries) r, k.running = true ↔ k.version.toList = r) ∧
    (find_kernels (some entries) r).Perm (read_entries r entries []) := by
  have hvn := find_kernels_versions_nodup entries r hnodup
  have hrun := find_kernels_running_iff entries r
  have hmem : ∀ (i : Nat) (k : KernelInfo), (find_kernels (some entries) r)[i]? = some k →
      k ∈ find_kernels (some entries) r := by
    intro i k hk
    obtain ⟨h1, h2⟩ := List.getElem?_eq_some_iff.1 hk
    rw [← h2]; exact List.getElem_mem h1
  have hone : ∀ (i j : Nat) (ki kj : KernelInfo),
      (find_kernels (some entries) r)[i]? = some ki →
      (find_kernels (some entries) r)[j]? = some kj →
      ki.running = true → kj.running = true → i = j := by
    intro i j ki kj hi hj hri hrj
    have hvi := (hrun ki (hmem i ki hi)).1 hri
    have hvj := (hrun kj (hmem j kj hj)).1 hrj
    have hv : kj.version = ki.version := String.ext (hvj.trans hvi.symm)
    have h1 : (versions (find_kernels (some entries) r))[i]? = some ki.version := by
      simp [versions, hi]
    have h2 : (versions (find_kernels (some entries) r))[j]? = some ki.version := by
      simp [versions, hj, hv]
    exact nodup_index_unique _ hvn i j _ h1 h2
  refine ⟨hvn, hone, ?_, hrun, ?_⟩
  · have hsub : ((find_kernels (some entries) r).filter (fun k => k.running)).map
        KernelInfo.version = List.replicate
          ((find_kernels (some entries) r).filter (fun k => k.running)).length (String.mk r) := by
      rw [List.eq_replicate_iff]
      refine ⟨by simp, ?_⟩
      intro v hv
      obtain ⟨k, hk, hkv⟩ := List.mem_map.1 hv
      obtain ⟨hk1, hk2⟩ := List.mem_filter.1 hk
      rw [← hkv]
      exact String.ext ((hrun k hk1).1 hk2)
    have hnd : (((find_kernels (some entries) r).filter (fun k => k.running)).map
        KernelInfo.version).Nodup :=
      hvn.sublist ((List.filter_sublist _).map _)
    rw [hsub] at hnd
    exact List.nodup_replicate.1 hnd
  · have h : find_kernels (some entries) r =
        qsort compare_kernel_versions (read_entries r entries []) := rfl
    rw [h]
    exact qsort_perm _

theorem kernel_table_invariant_witness :
    ((find_kernels
        (some ["vmlinuz-5.10.0".toList, "vmlinuz-5.4.0".toList, "vmlinuz-6.1.0".toList])
        "5.4.0".toList).filter (fun k => k.running)).length ≤ 1 :=
  (kernel_table_invariant
    ["vmlinuz-5.10.0".toList, "vmlinuz-5.4.0".toList, "vmlinuz-6.1.0".toList]
    "5.4.0".toList (by decide)).2.2.1

/-! ## The running version when it cannot be captured -/

/-- C15, counterexample: with `/proc/version` unreadable, `running_kernel`
stays empty; a directory entry named exactly `vmlinuz-` then gives a record
with the empty version, which equals the empty running version, and the
record is marked running. -/
theorem empty_version_marked_running :
    get_running_kernel none = [] ∧
    find_kernels (some ["vmlinuz-6.1.0".toList, "vmlinuz-".toList])
        (get_running_kernel none) =
      [{ version := "6.1.0", path := "/boot/vmlinuz-6.1.0", running := false },
        { version := "", path := "/boot/vmlinuz-", running := true }] := by
  refine ⟨by rfl, by decide⟩

/-- A record of the discovered table was built from an entry of the listing
whose name starts with `vmlinuz-`. -/
theorem find_kernels_from_entry (entries : List (List Char)) (r : List Char) (k : KernelInfo)
    (hk : k ∈ find_kernels (some entries) r) :
    ∃ name ∈ entries, name.take 8 = "vmlinuz-".toList ∧ k = kernel_record r name := by
  have hk2 := (find_kernels_perm entries r).mem_iff.1 hk
  simp only [reference_records, List.mem_map] at hk2
  obtain ⟨name, hname, hrec⟩ := hk2
  have hf := List.mem_filter.1 (List.mem_of_mem_take hname)
  refine ⟨name, hf.1, ?_, ?_⟩
  · simpa using hf.2
  · rw [kernel_record_eq_reference, hrec]

/-- Among the names that start with `vmlinuz-`, only the name `vmlinuz-`
itself has nothing behind these eight characters. -/
theorem image_version_empty_iff (name : List Char) (h : name.take 8 = "vmlinuz-".toList) :
    name.drop 8 = [] ↔ name = "vmlinuz-".toList := by
  constructor
  · intro hd
    have := List.take_append_drop 8 name
    rw [h, hd, List.append_nil] at this
    exact this.symm
  · intro hn
    rw [hn]
    rfl

/-- C15, as amended: `get_running_kernel` leaves `running_kernel` empty when
the version source is unreadable or empty, when its line has no
`Linux version ` marker, and when no space follows the version.  With an empty
running version, for every listing of `/boot`, a record built by
`find_kernels` is marked running exactly when its own version is empty: no
record with a non-empty version is marked running.  Every record of the table
comes from an entry of the listing whose name starts with `vmlinuz-`, with the
rest of the name as its version and `/boot/` before the name as its path, and
its version is empty, and the record marked running, only when that entry is
named exactly `vmlinuz-`. -/
theorem degraded_capture_marks_no_version (proc_version : Option (List Char))
    (boot : Option (List (List Char))) :
    (get_running_kernel none = [] ∧ get_running_kernel (some []) = []) ∧
    (∀ content buffer rest, proc_version = some content →
      fgets BUFFER_SIZE content = some (buffer, rest) →
      strstr "Linux version ".toList buffer = none →
      get_running_kernel proc_version = []) ∧
    (∀ content buffer rest found, proc_version = some content →
      fgets BUFFER_SIZE content = some (buffer, rest) →
      strstr "Linux version ".toList buffer = some found →
      strchr ' ' (found.drop 14) = none →
      get_running_kernel proc_version = []) ∧
    (get_running_kernel proc_version = [] →
      ∀ k ∈ find_kernels boot (get_running_kernel proc_version),
        (k.running = true ↔ k.version = "") ∧ (k.version ≠ "" → k.running = false)) ∧
    (get_running_kernel proc_version = [] →
      ∀ entries, boot = some entries →
      ∀ k ∈ find_kernels boot (get_running_kernel proc_version),
        ∃ name ∈ entries, name.take 8 = "vmlinuz-".toList ∧
          k.version.toList = name.drop 8 ∧
          k.path.toList = "/boot/".toList ++ name ∧
          (k.version = "" ↔ name = "vmlinuz-".toList) ∧
          (k.running = true ↔ name = "vmlinuz-".toList)) := by
  have hiff : get_running_kernel proc_version = [] →
      ∀ k ∈ find_kernels boot (get_running_kernel proc_version),
        (k.running = true ↔ k.version = "") := by
    intro hempty k hk
    rw [hempty] at hk
    cases boot with
    | none => simp [find_kernels] at hk
    | some entries =>
      rw [find_kernels_running_iff entries [] k hk]
      constructor
      · intro hv; exact String.ext hv
      · intro hv; rw [hv]; rfl
  refine ⟨⟨rfl, rfl⟩, ?_, ?_, ?_, ?_⟩
  · intro content buffer rest hp hf hs
    rw [hp]
    simp only [get_running_kernel, hf, hs]
  · intro content buffer rest found hp hf hs hc
    rw [hp]
    simp only [get_running_kernel, hf, hs, hc]
  · intro hempty k hk
    refine ⟨hiff hempty k hk, ?_⟩
    intro hne
    cases hr : k.running with
    | false => rfl
    | true => exact absurd ((hiff hempty k hk).1 hr) hne
  · intro hempty entries hboot k hk
    have hrun := hiff hempty k hk
    rw [hboot] at hk
    obtain ⟨name, hmem, himg, hrec⟩ := find_kernels_from_entry entries _ k hk
    have hver : k.version.toList = name.drop 8 := by rw [hrec]; rfl
    have hpath : k.path.toList = "/boot/".toList ++ name := by rw [hrec]; rfl
    have hempty_iff : k.version = "" ↔ name = "vmlinuz-".toList := by
      rw [← image_version_empty_iff name himg, ← hver]
      constructor
      · intro hv; rw [hv]; rfl
      · intro hv; exact String.ext hv
    exact ⟨name, hmem, himg, hver, hpath, hempty_iff, hrun.trans hempty_iff⟩

theorem degraded_capture_marks_no_version_witness :
    get_running_kernel (some "Linux version 6.1.0\n".toList) = [] ∧
    (∀ k ∈ find_kernels (some ["vmlinuz-6.1.0".toList, "vmlinuz-".toList])
        (get_running_kernel (some "Linux version 6.1.0\n".toList)),
      (k.running = true ↔ k.version = "") ∧ (k.version ≠ "" → k.running = false)) ∧
    (∀ k ∈ find_kernels (some ["vmlinuz-6.1.0".toList, "vmlinuz-".toList])
        (get_running_kernel (some "Linux version 6.1.0\n".toList)),
      ∃ name ∈ ["vmlinuz-6.1.0".toList, "vmlinuz-".toList],
        name.take 8 = "vmlinuz-".toList ∧
        k.version.toList = name.drop 8 ∧
        k.path.toList = "/boot/".toList ++ name ∧
        (k.version = "" ↔ name = "vmlinuz-".toList) ∧
        (k.running = true ↔ name = "vmlinuz-".toList)) :=
  ⟨by decide,
    (degraded_capture_marks_no_version (some "Linux version 6.1.0\n".toList)
      (some ["vmlinuz-6.1.0".toList, "vmlinuz-".toList])).2.2.2.1 (by decide),
    (degraded_capture_marks_no_version (some "Linux version 6.1.0\n".toList)
      (some ["vmlinuz-6.1.0".toList, "vmlinuz-".toList])).2.2.2.2 (by decide) _ rfl⟩

end KCleaner
